import Mathlib

/-!
Verification of the Kopr knowledge-management system against its
natural-language specification.

The Go sources are shallowly embedded: Go strings become `List Char`
(every operation the claims touch is byte/ASCII level), maps become
association lists, the SQLite tables become lists of row records, and the
file system becomes a finite map from paths to contents.  Each embedded
definition carries the name of the Go function it translates.
-/

set_option maxHeartbeats 1000000

namespace Kopr

/-! ## Go `strings` package primitives (the ASCII fragment Kopr uses) -/

/-- A Go string, viewed as its list of characters. -/
abbrev GoStr := List Char

/-- Go `strings.HasPrefix(s, pre)`. -/
def hasPrefix (s pre : GoStr) : Bool := pre.isPrefixOf s

/-- Go `strings.HasSuffix(s, suf)`. -/
def hasSuffix (s suf : GoStr) : Bool := suf.isSuffixOf s

/-- Membership of a character in a cutset string. -/
def inCutset (cut : GoStr) (c : Char) : Bool := cut.contains c

/-- Go `strings.TrimLeft(s, cut)`. -/
def trimLeftCut (s cut : GoStr) : GoStr := s.dropWhile (inCutset cut)

/-- Go `strings.TrimRight(s, cut)`. -/
def trimRightCut (s cut : GoStr) : GoStr := (s.reverse.dropWhile (inCutset cut)).reverse

/-- Go `strings.Trim(s, cut)`. -/
def trimCut (s cut : GoStr) : GoStr := trimRightCut (trimLeftCut s cut) cut

/-- Go `unicode.IsSpace` restricted to the ASCII range (the only range the
vault code feeds it). -/
def isGoSpace (c : Char) : Bool :=
  c = ' ' || c = '\t' || c = '\n' || c = '\x0b' || c = '\x0c' || c = '\r'

/-- Go `strings.TrimSpace(s)`. -/
def trimSpace (s : GoStr) : GoStr :=
  ((s.dropWhile isGoSpace).reverse.dropWhile isGoSpace).reverse

/-- Go `unicode.ToLower` on the ASCII range; non-ASCII runes are modelled as
unchanged (the slug pipeline filters them out anyway). -/
def toLowerAscii (c : Char) : Char :=
  if 'A' ≤ c && c ≤ 'Z' then Char.ofNat (c.toNat + 32) else c

/-- Go `strings.ToLower(s)` (ASCII model). -/
def stringsToLower (s : GoStr) : GoStr := s.map toLowerAscii

/-- Go `strings.ReplaceAll(s, old, new)` for single-character old and new. -/
def replaceAllChar (s : GoStr) (a b : Char) : GoStr :=
  s.map (fun c => if c = a then b else c)

namespace Vault

/-! ## `internal/vault` — `Slugify`, and the indexer's `slugify` (claim C7) -/

/-- The character filter inside `vault.Slugify` and the indexer's `slugify`:
keep `a`-`z`, `0`-`9` and `-`. -/
def slugKeep (c : Char) : Bool :=
  ('a' ≤ c && c ≤ 'z') || ('0' ≤ c && c ≤ '9') || c = '-'

/-- Go `strings.ReplaceAll(s, "--", "-")`: one leftmost-first,
non-overlapping replacement pass. -/
def replaceDashPairs : GoStr → GoStr
  | [] => []
  | [c] => [c]
  | c :: d :: t =>
    if c = '-' ∧ d = '-' then '-' :: replaceDashPairs t
    else c :: replaceDashPairs (d :: t)

/-- Go `strings.Contains(s, "--")`. -/
def containsDashPair : GoStr → Bool
  | [] => false
  | [_] => false
  | c :: d :: t => (c = '-' && d = '-') || containsDashPair (d :: t)

theorem replaceDashPairs_length_le (s : GoStr) :
    (replaceDashPairs s).length ≤ s.length := by
  induction s using replaceDashPairs.induct with
  | case1 => simp [replaceDashPairs]
  | case2 c => simp [replaceDashPairs]
  | case3 c d t h ih =>
    rw [replaceDashPairs, if_pos h]
    simp only [List.length_cons]
    omega
  | case4 c d t h ih =>
    rw [replaceDashPairs, if_neg h]
    simp only [List.length_cons] at *
    omega

theorem replaceDashPairs_length_lt {s : GoStr} (h : containsDashPair s = true) :
    (replaceDashPairs s).length < s.length := by
  induction s using replaceDashPairs.induct with
  | case1 => simp [containsDashPair] at h
  | case2 c => simp [containsDashPair] at h
  | case3 c d t hp ih =>
    rw [replaceDashPairs, if_pos hp]
    have := replaceDashPairs_length_le t
    simp only [List.length_cons]
    omega
  | case4 c d t hp ih =>
    rw [replaceDashPairs, if_neg hp]
    have hc : containsDashPair (d :: t) = true := by
      simp only [containsDashPair, Bool.or_eq_true, Bool.and_eq_true, decide_eq_true_eq] at h
      rcases h with ⟨h1, h2⟩ | h
      · exact absurd ⟨h1, h2⟩ hp
      · exact h
    have := ih hc
    simp only [List.length_cons] at this ⊢
    omega

/-- The `for strings.Contains(result, "--")` loop of `vault.Slugify`. -/
def collapseLoop (s : GoStr) : GoStr :=
  if h : containsDashPair s = true then collapseLoop (replaceDashPairs s) else s
termination_by s.length
decreasing_by exact replaceDashPairs_length_lt h

/-- Go `vault.Slugify(title)`: lowercase, spaces to `-`, keep only
`a-z0-9-`, collapse `--` runs by repeated `ReplaceAll`, then
`strings.Trim(result, "-")`. -/
def Slugify (title : GoStr) : GoStr :=
  trimCut (collapseLoop ((replaceAllChar (stringsToLower title) ' ' '-').filter slugKeep)) ['-']

/-- The indexer's `slugify(title)` from the `index` package: lowercase,
spaces to `-`, keep only `a-z0-9-`.  It has no collapse loop and no trim. -/
def indexSlugify (title : GoStr) : GoStr :=
  (replaceAllChar (stringsToLower title) ' ' '-').filter slugKeep

/-- Run collapsing as the spec words it ("collapse runs of `-`"), written
as a single structural pass: a `-` directly followed by another `-` is
dropped, so each maximal run keeps exactly one dash. -/
def collapseRuns : GoStr → GoStr
  | [] => []
  | [c] => [c]
  | c :: d :: t =>
    if c = '-' ∧ d = '-' then collapseRuns (d :: t) else c :: collapseRuns (d :: t)

/-- The spec's slug rule, assembled from its words: "Lowercase, spaces →
`-`, keep `a-z0-9-`, collapse runs of `-`, trim leading/trailing `-`." -/
def slugRuleSpec (title : GoStr) : GoStr :=
  trimCut (collapseRuns ((replaceAllChar (stringsToLower title) ' ' '-').filter slugKeep)) ['-']

/-- Proof-side variant of run collapsing that jumps over a whole run with
`dropWhile`; it bridges the fixpoint loop and the structural pass. -/
def collapseRunsDrop : GoStr → GoStr
  | [] => []
  | c :: t =>
    if c = '-' then '-' :: collapseRunsDrop (t.dropWhile (fun x => x = '-'))
    else c :: collapseRunsDrop t
termination_by s => s.length
decreasing_by
  · have := (t.dropWhile_sublist (fun x => x = '-')).length_le
    simp only [List.length_cons]; omega
  · simp only [List.length_cons]; omega

theorem collapseRunsDrop_nil : collapseRunsDrop [] = [] := by
  rw [collapseRunsDrop]

theorem dropWhile_dash_cons (t : GoStr) :
    ('-' :: t).dropWhile (fun x => x = '-') = t.dropWhile (fun x => x = '-') := by
  simp [List.dropWhile]

theorem collapseRunsDrop_cons_dash (t : GoStr) :
    collapseRunsDrop ('-' :: t) =
      '-' :: collapseRunsDrop (t.dropWhile (fun x => x = '-')) := by
  rw [collapseRunsDrop, if_pos rfl]

theorem collapseRunsDrop_cons_ne {c : Char} (h : ¬ c = '-') (t : GoStr) :
    collapseRunsDrop (c :: t) = c :: collapseRunsDrop t := by
  rw [collapseRunsDrop, if_neg h]

theorem dropWhile_dash_of_head_ne {c : Char} (h : ¬ c = '-') (t : GoStr) :
    (c :: t).dropWhile (fun x => x = '-') = c :: t := by
  simp [List.dropWhile, h]

theorem collapseRunsDrop_replaceDashPairs (s : GoStr) :
    collapseRunsDrop (replaceDashPairs s) = collapseRunsDrop s ∧
      collapseRunsDrop ((replaceDashPairs s).dropWhile (fun x => x = '-')) =
        collapseRunsDrop (s.dropWhile (fun x => x = '-')) := by
  induction s using replaceDashPairs.induct with
  | case1 => exact ⟨rfl, rfl⟩
  | case2 c => exact ⟨rfl, rfl⟩
  | case3 c d t hp ih =>
    obtain ⟨hc, hd⟩ := hp
    subst hc; subst hd
    rw [replaceDashPairs, if_pos ⟨rfl, rfl⟩]
    constructor
    · rw [collapseRunsDrop_cons_dash, collapseRunsDrop_cons_dash, dropWhile_dash_cons]
      exact congrArg (List.cons '-') ih.2
    · rw [dropWhile_dash_cons, dropWhile_dash_cons, dropWhile_dash_cons]
      exact ih.2
  | case4 c d t hp ih =>
    rw [replaceDashPairs, if_neg hp]
    by_cases hc : c = '-'
    · subst hc
      have hd : ¬ d = '-' := fun hd => hp ⟨rfl, hd⟩
      have h1 : (d :: t).dropWhile (fun x => x = '-') = d :: t :=
        dropWhile_dash_of_head_ne hd t
      have h2 : (replaceDashPairs (d :: t)).dropWhile (fun x => x = '-') =
          replaceDashPairs (d :: t) := by
        cases t with
        | nil => simp [replaceDashPairs, List.dropWhile, hd]
        | cons e t₂ =>
          rw [replaceDashPairs]
          rw [if_neg (fun hpair => hd hpair.1)]
          exact dropWhile_dash_of_head_ne hd _
      constructor
      · rw [collapseRunsDrop_cons_dash, collapseRunsDrop_cons_dash, h1, h2]
        exact congrArg (List.cons '-') ih.1
      · rw [dropWhile_dash_cons, dropWhile_dash_cons, h1, h2]
        exact ih.1
    · constructor
      · rw [collapseRunsDrop_cons_ne hc, collapseRunsDrop_cons_ne hc]
        exact congrArg (List.cons c) ih.1
      · rw [dropWhile_dash_of_head_ne hc, dropWhile_dash_of_head_ne hc]
        rw [collapseRunsDrop_cons_ne hc, collapseRunsDrop_cons_ne hc]
        exact congrArg (List.cons c) ih.1

theorem collapseRunsDrop_of_not_contains {s : GoStr}
    (h : containsDashPair s = false) : collapseRunsDrop s = s := by
  induction s using containsDashPair.induct with
  | case1 => exact collapseRunsDrop_nil
  | case2 c =>
    by_cases hc : c = '-'
    · subst hc; rw [collapseRunsDrop_cons_dash]; simp [collapseRunsDrop_nil]
    · rw [collapseRunsDrop_cons_ne hc, collapseRunsDrop_nil]
  | case3 c d t ih =>
    simp only [containsDashPair, Bool.or_eq_false_iff, Bool.and_eq_false_iff] at h
    obtain ⟨hcd, hrest⟩ := h
    have ih' := ih hrest
    by_cases hc : c = '-'
    · subst hc
      have hd : ¬ d = '-' := by
        rcases hcd with h1 | h1
        · simp at h1
        · simpa using h1
      rw [collapseRunsDrop_cons_dash, dropWhile_dash_of_head_ne hd, ih']
    · rw [collapseRunsDrop_cons_ne hc, ih']

theorem collapseLoop_eq_collapseRunsDrop (s : GoStr) :
    collapseLoop s = collapseRunsDrop s := by
  induction s using collapseLoop.induct with
  | case1 s hcond ih =>
    rw [collapseLoop, dif_pos hcond, ih, (collapseRunsDrop_replaceDashPairs s).1]
  | case2 s hcond =>
    rw [collapseLoop, dif_neg hcond]
    exact (collapseRunsDrop_of_not_contains (by simpa using hcond)).symm

theorem collapseRuns_eq_collapseRunsDrop (s : GoStr) :
    collapseRuns s = collapseRunsDrop s := by
  induction s using collapseRuns.induct with
  | case1 => exact collapseRunsDrop_nil.symm
  | case2 c =>
    by_cases hc : c = '-'
    · subst hc; rw [collapseRuns, collapseRunsDrop_cons_dash]; simp [collapseRunsDrop_nil]
    · rw [collapseRuns, collapseRunsDrop_cons_ne hc, collapseRunsDrop_nil]
  | case3 c d t hp ih =>
    obtain ⟨hc, hd⟩ := hp
    subst hc; subst hd
    rw [collapseRuns, if_pos ⟨rfl, rfl⟩, ih]
    rw [collapseRunsDrop_cons_dash, collapseRunsDrop_cons_dash, dropWhile_dash_cons]
  | case4 c d t hp ih =>
    rw [collapseRuns, if_neg hp, ih]
    by_cases hc : c = '-'
    · subst hc
      have hd : ¬ d = '-' := fun hd => hp ⟨rfl, hd⟩
      rw [collapseRunsDrop_cons_dash, dropWhile_dash_of_head_ne hd]
    · rw [collapseRunsDrop_cons_ne hc]

theorem collapseLoop_eq_collapseRuns (s : GoStr) : collapseLoop s = collapseRuns s := by
  rw [collapseLoop_eq_collapseRunsDrop, collapseRuns_eq_collapseRunsDrop]

/-- The amended indexer slug rule, from the amended words: lowercase, map
spaces to `-`, keep only `a-z0-9-`, with no run collapsing and no
trimming.  Written as a fold to be compared with the source pipeline. -/
def indexRuleSpec (title : GoStr) : GoStr :=
  (stringsToLower title).foldr
    (fun c acc =>
      let c := if c = ' ' then '-' else c
      if slugKeep c then c :: acc else acc)
    []

theorem indexSlugify_eq_indexRuleSpec (t : GoStr) :
    indexSlugify t = indexRuleSpec t := by
  unfold indexSlugify indexRuleSpec replaceAllChar stringsToLower
  induction t with
  | nil => rfl
  | cons c t ih =>
    simp only [List.map_cons, List.foldr_cons, List.filter]
    rw [← ih]
    by_cases h : slugKeep (if toLowerAscii c = ' ' then '-' else toLowerAscii c) <;>
      simp [h]

end Vault

/-- C7: the spec's slug rule ("lowercase, spaces → `-`, keep `a-z0-9-`,
collapse runs of `-`, trim leading/trailing `-`") as claimed holds for
`vault.Slugify` but not for the indexer's `slugify`: the indexer stops
after the filter step.  This counterexample evaluates both derivations at
the title `"a  b"` (two spaces): the indexer yields `"a--b"` while the
claimed rule yields `"a-b"`. -/
theorem C7_counterexample :
    Vault.indexSlugify ("a  b".data) = ("a--b".data) ∧
      Vault.slugRuleSpec ("a  b".data) = ("a-b".data) ∧
      Vault.indexSlugify ("a  b".data) ≠ Vault.slugRuleSpec ("a  b".data) := by
  refine ⟨by decide, by decide, by decide⟩

/-- C7 (amended): `vault.Slugify` implements exactly the spec's slug rule,
and the indexer's `slugify` implements the rule without the collapse and
trim steps. -/
theorem C7_slug_rule :
    (∀ title : GoStr, Vault.Slugify title = Vault.slugRuleSpec title) ∧
      (∀ title : GoStr, Vault.indexSlugify title = Vault.indexRuleSpec title) := by
  constructor
  · intro title
    unfold Vault.Slugify Vault.slugRuleSpec
    rw [Vault.collapseLoop_eq_collapseRuns]
  · exact Vault.indexSlugify_eq_indexRuleSpec

namespace Markdown

/-! ## `bufio.Scanner` line splitting (used across the `markdown` package) -/

/-- `bufio.ScanLines` strips one trailing carriage return from a line (it
checks the final byte directly). -/
def dropCR (l : GoStr) : GoStr := if l.getLast? = some '\r' then l.dropLast else l

/-- Accumulator pass of `bufio.Scanner` with `ScanLines`: lines are split at
newlines, a final line without terminator is still produced, and an empty
final token after the last newline is not. -/
def scanLinesAux (acc : GoStr) : GoStr → List GoStr
  | [] => if acc = [] then [] else [dropCR acc]
  | c :: rest =>
    if c = '\n' then dropCR acc :: scanLinesAux [] rest
    else scanLinesAux (acc ++ [c]) rest

/-- The sequence of `scanner.Text()` values over an input. -/
def scanLines (s : GoStr) : List GoStr := scanLinesAux [] s

/-- The frontmatter delimiter `---`. -/
def fmDelim : GoStr := ['-', '-', '-']

/-! ## `markdown.ExtractHeadings` (claim C10) -/

/-- A `markdown.Heading`: level, text and 1-based line number. -/
structure Heading where
  level : Nat
  text : GoStr
  line : Nat
deriving DecidableEq, Repr

/-- The scan loop of `markdown.ExtractHeadings`: `inFM` is the
`inFrontmatter` flag and `n` the 1-based number of the current line. -/
def extractHeadingsAux : Bool → Nat → List GoStr → List Heading
  | _, _, [] => []
  | inFM, n, line :: rest =>
    if n = 1 ∧ trimSpace line = fmDelim then extractHeadingsAux true (n + 1) rest
    else if inFM then
      if trimSpace line = fmDelim then extractHeadingsAux false (n + 1) rest
      else extractHeadingsAux true (n + 1) rest
    else
      let trimmed := trimLeftCut line [' ']
      if ¬ hasPrefix trimmed ['#'] then extractHeadingsAux inFM (n + 1) rest
      else
        let level := (trimmed.takeWhile (fun c => c = '#')).length
        if level > 6 ∨ level = 0 then extractHeadingsAux inFM (n + 1) rest
        else
          let text := trimSpace (trimmed.drop level)
          let text := trimRightCut text ['#', ' ']
          let text := trimSpace text
          if text = [] then extractHeadingsAux inFM (n + 1) rest
          else ⟨level, text, n⟩ :: extractHeadingsAux inFM (n + 1) rest

/-- Go `markdown.ExtractHeadings(content)`. -/
def ExtractHeadings (content : GoStr) : List Heading :=
  extractHeadingsAux false 1 (scanLines content)

theorem extractHeadingsAux_sound (inFM : Bool) (n : Nat) (lines : List GoStr) :
    ∀ h ∈ extractHeadingsAux inFM n lines, 1 ≤ h.level ∧ h.level ≤ 6 ∧ h.text ≠ [] := by
  induction lines generalizing inFM n with
  | nil => intro h hmem; simp [extractHeadingsAux] at hmem
  | cons line rest ih =>
    intro h hmem
    rw [extractHeadingsAux] at hmem
    dsimp only at hmem
    split at hmem
    · exact ih _ _ h hmem
    · split at hmem
      · split at hmem
        · exact ih _ _ h hmem
        · exact ih _ _ h hmem
      · split at hmem
        · exact ih _ _ h hmem
        · split at hmem
          · exact ih _ _ h hmem
          · split at hmem
            · exact ih _ _ h hmem
            · rename_i hlev htext
              rcases List.mem_cons.mp hmem with heq | hmem'
              · subst heq
                push_neg at hlev
                dsimp only
                exact ⟨by omega, by omega, htext⟩
              · exact ih _ _ h hmem'

end Markdown

/-- C10: every heading `ExtractHeadings` returns has a level between 1 and
6 and non-empty text; in particular a heading line whose text is empty
after stripping the markers produces no entry. -/
theorem C10_headings (content : GoStr) :
    ∀ h ∈ Markdown.ExtractHeadings content,
      1 ≤ h.level ∧ h.level ≤ 6 ∧ h.text ≠ [] :=
  Markdown.extractHeadingsAux_sound false 1 (Markdown.scanLines content)

/-- C10 witness: the theorem applied to the concrete document `# hi`. -/
theorem C10_headings_witness :
    1 ≤ (Markdown.Heading.mk 1 ("hi".data) 1).level ∧
      (Markdown.Heading.mk 1 ("hi".data) 1).level ≤ 6 ∧
      (Markdown.Heading.mk 1 ("hi".data) 1).text ≠ [] :=
  C10_headings ("# hi".data) ⟨1, "hi".data, 1⟩ (by decide)

/-! ## `path/filepath` primitives and the file-system model -/

/-- Go `filepath.Join(a, b)` on already-clean arguments. -/
def filepathJoin (a b : GoStr) : GoStr :=
  if a = [] then b else if b = [] then a else a ++ '/' :: b

/-- Go `filepath.Dir(p)` on already-clean arguments: everything before the
last slash, `.` when there is none, `/` when the slash is leading. -/
def filepathDir (p : GoStr) : GoStr :=
  if p.contains '/' then
    let pre := ((p.reverse.dropWhile (fun c => c ≠ '/')).reverse).dropLast
    if pre = [] then ['/'] else pre
  else ['.']

/-- Go `filepath.Base(p)`: the last path element, with trailing slashes
removed first; `.` for the empty path and `/` for all-slash paths. -/
def filepathBase (p : GoStr) : GoStr :=
  if p = [] then ['.']
  else
    let q := (p.reverse.dropWhile (fun c => c = '/')).reverse
    if q = [] then ['/']
    else (q.reverse.takeWhile (fun c => c ≠ '/')).reverse

/-- A Go `(string, error)` return value. -/
inductive GoResult where
  | ok (v : GoStr)
  | err (e : GoStr)
deriving DecidableEq, Repr

/-- The file system as seen by the vault code: regular files with contents,
plus the set of directories (`os.Stat` succeeds on either). -/
structure FileSys where
  files : List (GoStr × GoStr)
  dirs : List GoStr
deriving DecidableEq

/-- Go `os.ReadFile` viewed as a lookup. -/
def FileSys.lookupFile (fs : FileSys) (p : GoStr) : Option GoStr := fs.files.lookup p

/-- Whether Go `os.Stat(p)` returns a nil error. -/
def FileSys.statOK (fs : FileSys) (p : GoStr) : Bool :=
  (fs.lookupFile p).isSome || fs.dirs.contains p

/-- All the ancestor directories `os.MkdirAll` creates, plus the path
itself (split at every slash). -/
def pathPrefixesAux : GoStr → GoStr → List GoStr
  | acc, [] => [acc]
  | acc, '/' :: rest => acc :: pathPrefixesAux (acc ++ ['/']) rest
  | acc, c :: rest => pathPrefixesAux (acc ++ [c]) rest

/-- See `pathPrefixesAux`. -/
def pathPrefixes (p : GoStr) : List GoStr := pathPrefixesAux [] p

/-- Go `os.MkdirAll(dir, 0755)`. -/
def FileSys.mkdirAll (fs : FileSys) (dir : GoStr) : FileSys :=
  { fs with dirs := pathPrefixes dir ++ fs.dirs }

/-- Go `os.WriteFile(p, content, 0644)`. -/
def FileSys.writeFile (fs : FileSys) (p content : GoStr) : FileSys :=
  { fs with files := (p, content) :: fs.files.filter (fun e => ¬ e.1 = p) }

namespace Vault

/-! ## `vault.CreateNote` (claim C4) -/

/-- Go `vault.CreateNote(relPath, content)` for a vault rooted at `root`:
join, `MkdirAll` on the parent directory, return the absolute path with a
nil error and without writing when `os.Stat` succeeds, else `WriteFile`. -/
def CreateNote (fs : FileSys) (root relPath content : GoStr) :
    FileSys × GoResult :=
  let absPath := filepathJoin root relPath
  let fs₁ := fs.mkdirAll (filepathDir absPath)
  if fs₁.statOK absPath then (fs₁, GoResult.ok absPath)
  else (fs₁.writeFile absPath content, GoResult.ok absPath)

end Vault

/-- C4: the claim says `create_note` fails with an error when a file
already exists at the target.  It does not: with `v/n.md` present, the
call returns `ok` (a nil error) and merely leaves the bytes unchanged. -/
theorem C4_counterexample :
    (Vault.CreateNote ⟨[(("v/n.md".data), ("old".data))], []⟩ ("v".data) ("n.md".data)
        ("new".data)).2 = GoResult.ok ("v/n.md".data) ∧
      (∀ e, (Vault.CreateNote ⟨[(("v/n.md".data), ("old".data))], []⟩ ("v".data)
          ("n.md".data) ("new".data)).2 ≠ GoResult.err e) ∧
      (Vault.CreateNote ⟨[(("v/n.md".data), ("old".data))], []⟩ ("v".data) ("n.md".data)
          ("new".data)).1.lookupFile ("v/n.md".data) = some ("old".data) := by
  refine ⟨by decide, ?_, by decide⟩
  intro e h
  rw [show (Vault.CreateNote ⟨[(("v/n.md".data), ("old".data))], []⟩ ("v".data)
      ("n.md".data) ("new".data)).2 = GoResult.ok ("v/n.md".data) from by decide] at h
  exact GoResult.noConfusion h

/-- C4 (amended): when a file already exists at the target, `create_note`
leaves its bytes unchanged and returns the absolute path with a nil error;
when none exists it creates the missing parent directories, writes the
content and returns the absolute path. -/
theorem C4_create_note (fs : FileSys) (root relPath content : GoStr) :
    (∀ old, fs.lookupFile (filepathJoin root relPath) = some old →
        (Vault.CreateNote fs root relPath content).2 =
            GoResult.ok (filepathJoin root relPath) ∧
          (Vault.CreateNote fs root relPath content).1.lookupFile
            (filepathJoin root relPath) = some old) ∧
      ((fs.mkdirAll (filepathDir (filepathJoin root relPath))).statOK
          (filepathJoin root relPath) = false →
        (Vault.CreateNote fs root relPath content).2 =
            GoResult.ok (filepathJoin root relPath) ∧
          (Vault.CreateNote fs root relPath content).1.lookupFile
            (filepathJoin root relPath) = some content ∧
          (Vault.CreateNote fs root relPath content).1.dirs =
            pathPrefixes (filepathDir (filepathJoin root relPath)) ++ fs.dirs) := by
  constructor
  · intro old hold
    have hstat : (fs.mkdirAll (filepathDir (filepathJoin root relPath))).statOK
        (filepathJoin root relPath) = true := by
      simp only [FileSys.statOK, FileSys.mkdirAll, FileSys.lookupFile] at *
      simp [hold]
    rw [Vault.CreateNote]
    simp only [hstat, if_true]
    exact ⟨trivial, by simpa [FileSys.mkdirAll, FileSys.lookupFile] using hold⟩
  · intro hstat
    rw [Vault.CreateNote]
    simp only [hstat, Bool.false_eq_true, if_false]
    refine ⟨trivial, ?_, ?_⟩
    · simp [FileSys.writeFile, FileSys.mkdirAll, FileSys.lookupFile, List.lookup]
    · simp [FileSys.writeFile, FileSys.mkdirAll]

/-- C4 witness: the amended theorem applied to a vault that already has
`v/n.md`. -/
theorem C4_create_note_witness :
    (Vault.CreateNote ⟨[(("v/n.md".data), ("old".data))], []⟩ ("v".data) ("n.md".data)
        ("x".data)).2 = GoResult.ok (filepathJoin ("v".data) ("n.md".data)) ∧
      (Vault.CreateNote ⟨[(("v/n.md".data), ("old".data))], []⟩ ("v".data) ("n.md".data)
          ("x".data)).1.lookupFile (filepathJoin ("v".data) ("n.md".data)) =
        some ("old".data) :=
  (C4_create_note ⟨[(("v/n.md".data), ("old".data))], []⟩ ("v".data) ("n.md".data)
    ("x".data)).1 ("old".data) (by decide)

namespace App

/-! ## `app.navigateTo` and `app.GoBack` (claim C8) -/

/-- The navigation slice of the `app.App` state: the cached relative path
of the open file, the previous file, and a log of `openInEditor` calls
(most recent first). -/
structure NavState where
  currentFile : GoStr
  prevFile : GoStr
  opened : List GoStr
deriving DecidableEq

/-- Go `app.navigateTo(relPath)`: stash the previous file when a different
note was open, open the joined path in the editor, update the cache. -/
def navigateTo (vaultPath : GoStr) (st : NavState) (relPath : GoStr) : NavState :=
  let st₁ :=
    if st.currentFile ≠ [] ∧ st.currentFile ≠ relPath then
      { st with prevFile := st.currentFile }
    else st
  { st₁ with
    opened := filepathJoin vaultPath relPath :: st₁.opened
    currentFile := relPath }

/-- Go `app.GoBack()`: `onDisk` is the `os.Stat` success predicate. -/
def goBack (onDisk : GoStr → Bool) (vaultPath : GoStr) (st : NavState) : NavState :=
  if st.prevFile = [] then st
  else if ¬ onDisk (filepathJoin vaultPath st.prevFile) then { st with prevFile := [] }
  else
    let target := st.prevFile
    let st₁ := { st with prevFile := st.currentFile, currentFile := [] }
    navigateTo vaultPath st₁ target

/-! ## The leader-key state machine (claim C9) -/

/-- An editor mode as reported over RPC. -/
inductive EdMode where
  | normal
  | insert
  | visualSel
  | cmdline
deriving DecidableEq

/-- The panel focus of the app. -/
inductive Focused where
  | editor
  | tree
  | info
  | finder
deriving DecidableEq

/-- Go `app.Binding`: a leader binding whose `Children` map is nil exactly
on leaves.  Actions are outside this fragment. -/
inductive Binding where
  | mk (children : Option (List (GoStr × Binding)))

/-- The `Children` field of a binding. -/
def Binding.children : Binding → Option (List (GoStr × Binding))
  | .mk c => c

/-- Go `app.LeaderState`. -/
structure LeaderState where
  active : Bool
  keys : GoStr
  node : Option (List (GoStr × Binding))
  showHelp : Bool

/-- The slice of `app.App` the leader machine touches. -/
structure LeaderApp where
  leader : LeaderState
  bindings : List (GoStr × Binding)
  editorMode : EdMode
  focused : Focused
  whichKeyVisible : Bool

/-- Indexing the `node` map (`nil` maps contain nothing). -/
def lookupBinding (node : Option (List (GoStr × Binding))) (key : GoStr) :
    Option Binding :=
  (node.getD []).lookup key

/-- Go `app.handleLeaderKey(key)`: returns the new app state and the
`consumed` flag.  The executed leaf action is outside this fragment. -/
def handleLeaderKey (a : LeaderApp) (key : GoStr) : LeaderApp × Bool :=
  if ¬ a.leader.active then
    if key ≠ [' '] then (a, false)
    else if a.focused = .editor ∧ a.editorMode ≠ .normal then (a, false)
    else ({ a with leader := ⟨true, [], some a.bindings, false⟩ }, true)
  else
    let keys' := a.leader.keys ++ key
    match lookupBinding a.leader.node key with
    | some b =>
      match b.children with
      | some ch => ({ a with leader := ⟨true, keys', some ch, false⟩ }, true)
      | none =>
        ({ a with leader := ⟨false, keys', a.leader.node, false⟩ }, true)
    | none => ({ a with leader := ⟨false, keys', a.leader.node, false⟩ }, true)

/-- Go `app.cancelLeader()`. -/
def cancelLeader (a : LeaderApp) : LeaderApp :=
  { a with leader := { a.leader with active := false, showHelp := false } }

/-- Go `app.updateWhichKey()`: the which-key panel is cleared unless help
is requested and a node is set. -/
def updateWhichKey (a : LeaderApp) : LeaderApp :=
  if ¬ a.leader.showHelp ∨ a.leader.node.isNone then { a with whichKeyVisible := false }
  else { a with whichKeyVisible := true }

/-- The `editor.ModeChangedMsg` arm of `app.Update`. -/
def updateModeChanged (a : LeaderApp) (m : EdMode) : LeaderApp :=
  let a := { a with editorMode := m }
  if m ≠ .normal then updateWhichKey (cancelLeader a) else a

theorem updateModeChanged_cancels (a : LeaderApp) (m : EdMode) (hm : m ≠ .normal) :
    (updateModeChanged a m).leader.active = false ∧
      (updateModeChanged a m).leader.showHelp = false ∧
      (updateModeChanged a m).whichKeyVisible = false := by
  rw [updateModeChanged]
  rw [if_pos hm]
  refine ⟨?_, ?_, ?_⟩ <;>
    simp only [updateWhichKey, cancelLeader] <;>
    split <;> simp_all

theorem handleLeaderKey_fresh (a : LeaderApp) (hactive : a.leader.active = false)
    (hok : a.focused ≠ .editor ∨ a.editorMode = .normal) :
    handleLeaderKey a [' '] =
      ({ a with leader := ⟨true, [], some a.bindings, false⟩ }, true) := by
  have hc : ¬ (a.focused = .editor ∧ a.editorMode ≠ .normal) := by
    rcases hok with h | h
    · exact fun hcc => h hcc.1
    · exact fun hcc => hcc.2 h
  rw [handleLeaderKey, if_pos (by simp [hactive]), if_neg (by simp), if_neg hc]

end App

/-- C8: the claim quantifies over all pairs of note paths, but with
`x = y = a.md` and `z.md` open beforehand, `go_back` after the two
navigations reopens `z.md`, not `x`. -/
theorem C8_counterexample :
    (App.goBack (fun _ => true) ("v".data)
        (App.navigateTo ("v".data)
          (App.navigateTo ("v".data) ⟨"z.md".data, [], []⟩ ("a.md".data))
          ("a.md".data))).currentFile ≠ ("a.md".data) := by
  decide

/-- C8 (amended): for distinct, non-empty paths `x ≠ y` with `x` still on
disk, `navigate_to(x); navigate_to(y); go_back()` opens `x` and leaves
`prev_file = y`, from any starting state. -/
theorem C8_go_back (onDisk : GoStr → Bool) (vaultPath : GoStr) (st : App.NavState)
    (x y : GoStr) (hxy : x ≠ y) (hx : x ≠ [])
    (hdisk : onDisk (filepathJoin vaultPath x) = true) :
    (App.goBack onDisk vaultPath
        (App.navigateTo vaultPath (App.navigateTo vaultPath st x) y)).currentFile = x ∧
      (App.goBack onDisk vaultPath
          (App.navigateTo vaultPath (App.navigateTo vaultPath st x) y)).prevFile = y ∧
      (App.goBack onDisk vaultPath
          (App.navigateTo vaultPath (App.navigateTo vaultPath st x) y)).opened.head? =
        some (filepathJoin vaultPath x) := by
  have h1 : (App.navigateTo vaultPath st x).currentFile = x := by
    simp [App.navigateTo]
  have h2 : (App.navigateTo vaultPath (App.navigateTo vaultPath st x) y).prevFile = x := by
    rw [App.navigateTo]
    dsimp only
    rw [if_pos (by rw [h1]; exact ⟨hx, hxy⟩)]
    simpa using h1
  have h3 : (App.navigateTo vaultPath (App.navigateTo vaultPath st x) y).currentFile = y := by
    simp [App.navigateTo]
  rw [App.goBack, if_neg (by rw [h2]; exact hx), if_neg (by rw [h2, hdisk]; simp)]
  rw [h2, h3]
  constructor
  · simp [App.navigateTo]
  constructor
  · rw [App.navigateTo]
    dsimp only
    rw [if_neg (by simp)]
  · simp [App.navigateTo]

/-- C8 witness: the amended theorem applied to `x = a.md`, `y = b.md` from
a fresh state. -/
theorem C8_go_back_witness :
    (App.goBack (fun _ => true) ("v".data)
        (App.navigateTo ("v".data) (App.navigateTo ("v".data) ⟨[], [], []⟩ ("a.md".data))
          ("b.md".data))).currentFile = ("a.md".data) ∧
      (App.goBack (fun _ => true) ("v".data)
          (App.navigateTo ("v".data) (App.navigateTo ("v".data) ⟨[], [], []⟩ ("a.md".data))
            ("b.md".data))).prevFile = ("b.md".data) ∧
      (App.goBack (fun _ => true) ("v".data)
          (App.navigateTo ("v".data) (App.navigateTo ("v".data) ⟨[], [], []⟩ ("a.md".data))
            ("b.md".data))).opened.head? =
        some (filepathJoin ("v".data) ("a.md".data)) :=
  C8_go_back (fun _ => true) ("v".data) ⟨[], [], []⟩ ("a.md".data) ("b.md".data)
    (by decide) (by decide) rfl

/-- C9: on an editor mode change away from Normal the leader machine is
cancelled and the which-key help hidden, but the claim's second half fails
as stated: with the editor still focused in Insert mode, the next press of
the leader trigger key is not consumed and starts nothing. -/
theorem C9_counterexample :
    (App.handleLeaderKey ⟨⟨false, [], none, false⟩, [], .insert, .editor, false⟩
        [' ']).2 = false ∧
      (App.handleLeaderKey ⟨⟨false, [], none, false⟩, [], .insert, .editor, false⟩
          [' ']).1.leader.active = false := by
  constructor <;> rfl

/-- C9 (amended): processing a mode change to any mode other than Normal
cancels the leader machine (inactive, help hidden, which-key cleared) in
every state; afterwards, the next press of the leader trigger key starts a
fresh sequence from the root bindings provided the leader can trigger
(editor back in Normal mode, or focus away from the editor). -/
theorem C9_leader_cancel :
    (∀ (a : App.LeaderApp) (m : App.EdMode), m ≠ App.EdMode.normal →
        (App.updateModeChanged a m).leader.active = false ∧
          (App.updateModeChanged a m).leader.showHelp = false ∧
          (App.updateModeChanged a m).whichKeyVisible = false) ∧
      (∀ a : App.LeaderApp, a.leader.active = false →
        (a.focused ≠ App.Focused.editor ∨ a.editorMode = App.EdMode.normal) →
        App.handleLeaderKey a [' '] =
          ({ a with leader := ⟨true, [], some a.bindings, false⟩ }, true)) :=
  ⟨App.updateModeChanged_cancels, App.handleLeaderKey_fresh⟩

/-- C9 witness: the amended theorem applied to a concrete app state for
both halves (a mode change to Insert, then a Space press in Normal mode). -/
theorem C9_leader_cancel_witness :
    ((App.updateModeChanged ⟨⟨true, [], none, true⟩, [], .normal, .editor, true⟩
          App.EdMode.insert).leader.active = false ∧
        (App.updateModeChanged ⟨⟨true, [], none, true⟩, [], .normal, .editor, true⟩
            App.EdMode.insert).leader.showHelp = false ∧
        (App.updateModeChanged ⟨⟨true, [], none, true⟩, [], .normal, .editor, true⟩
            App.EdMode.insert).whichKeyVisible = false) ∧
      App.handleLeaderKey ⟨⟨false, [], none, false⟩, [], .normal, .editor, false⟩ [' '] =
        ({ leader := ⟨true, [], some [], false⟩, bindings := [], editorMode := .normal,
            focused := .editor, whichKeyVisible := false }, true) :=
  ⟨C9_leader_cancel.1 ⟨⟨true, [], none, true⟩, [], .normal, .editor, true⟩
      App.EdMode.insert (by simp),
    C9_leader_cancel.2 ⟨⟨false, [], none, false⟩, [], .normal, .editor, false⟩ rfl
      (Or.inr rfl)⟩

/-- Go `filepath.Ext(p)`: the suffix starting at the final dot, or empty. -/
def filepathExt (p : GoStr) : GoStr :=
  if p.contains '.' then '.' :: (p.reverse.takeWhile (fun c => c ≠ '.')).reverse
  else []

/-- Go `strings.TrimSuffix(s, suf)`. -/
def trimSuffixStr (s suf : GoStr) : GoStr :=
  if hasSuffix s suf then s.take (s.length - suf.length) else s

namespace Markdown

/-! ## `markdown.ExtractWikiLinks` and wiki-link resolution (claim C1) -/

/-- A `markdown.WikiLink`: target, optional section, optional alias,
1-based line and 0-based column. -/
structure WikiLink where
  target : GoStr
  section' : GoStr
  alias' : GoStr
  line : Nat
  col : Nat
deriving DecidableEq, Repr

/-- Split a string at the first `]]`, as `strings.Index(s, "]]")` sees it:
the part before and the part after the delimiter. -/
def splitAtClose : GoStr → Option (GoStr × GoStr)
  | [] => none
  | [_] => none
  | c :: d :: t =>
    if c = ']' ∧ d = ']' then some ([], t)
    else (splitAtClose (d :: t)).map (fun p => (c :: p.1, p.2))

theorem splitAtClose_length {s inner after : GoStr}
    (h : splitAtClose s = some (inner, after)) :
    s.length = inner.length + after.length + 2 := by
  induction s using splitAtClose.induct generalizing inner after with
  | case1 =>
    rw [splitAtClose] at h
    cases h
  | case2 c =>
    rw [splitAtClose] at h
    cases h
  | case3 c d t hp =>
    rw [splitAtClose, if_pos hp] at h
    cases h
    simp
  | case4 c d t hp ih =>
    rw [splitAtClose, if_neg hp] at h
    match heq : splitAtClose (d :: t) with
    | none => rw [heq] at h; cases h
    | some (i, a) =>
      rw [heq] at h
      simp at h
      obtain ⟨h1, h2⟩ := h
      subst h1; subst h2
      have := ih heq
      simp only [List.length_cons] at *
      omega

/-- Go `strings.Index(s, string(c))` for a single character. -/
def indexOfChar (c : Char) : GoStr → Option Nat
  | [] => none
  | d :: t => if d = c then some 0 else (indexOfChar c t).map (fun i => i + 1)

/-- The `#section` / `|alias` parsing of a wiki-link body. -/
def parseLinkInner (inner : GoStr) : GoStr × GoStr × GoStr :=
  match indexOfChar '#' inner with
  | some h =>
    let target := inner.take h
    let rest := inner.drop (h + 1)
    match indexOfChar '|' rest with
    | some p => (target, rest.take p, rest.drop (p + 1))
    | none => (target, rest, [])
  | none =>
    match indexOfChar '|' inner with
    | some p => (inner.take p, [], inner.drop (p + 1))
    | none => (inner, [], [])

/-- The per-line `[[ ]]` scan of `ExtractWikiLinks`.  `col` is the absolute
column of the current suffix `s`; the Go loop advances `col` by jumping
over each match, which this walk reproduces character by character. -/
def wikiLinkScan (lineNum : Nat) (col : Nat) (s : GoStr) : List WikiLink :=
  if s.length ≤ 3 then []
  else
    match s with
    | '[' :: '[' :: rest =>
      match h : splitAtClose rest with
      | none => []
      | some (inner, after) =>
        if inner = [] then wikiLinkScan lineNum (col + 2 + inner.length + 2) after
        else
          let t := parseLinkInner inner
          ⟨trimSpace t.1, trimSpace t.2.1, trimSpace t.2.2, lineNum, col⟩ ::
            wikiLinkScan lineNum (col + 2 + inner.length + 2) after
    | _ :: t => wikiLinkScan lineNum (col + 1) t
    | [] => []
termination_by s.length
decreasing_by
  · have := splitAtClose_length h
    simp only [List.length_cons] at *
    omega
  · have := splitAtClose_length h
    simp only [List.length_cons] at *
    omega
  · simp only [List.length_cons] at *
    omega

/-- The line loop of `markdown.ExtractWikiLinks`, with the frontmatter
skip and 1-based line counter. -/
def extractWikiLinksAux : Bool → Nat → List GoStr → List WikiLink
  | _, _, [] => []
  | inFM, n, line :: rest =>
    if n = 1 ∧ trimSpace line = fmDelim then extractWikiLinksAux true (n + 1) rest
    else if inFM then
      if trimSpace line = fmDelim then extractWikiLinksAux false (n + 1) rest
      else extractWikiLinksAux true (n + 1) rest
    else
      wikiLinkScan n 0 line ++ extractWikiLinksAux inFM (n + 1) rest

/-- Go `markdown.ExtractWikiLinks(content)`. -/
def ExtractWikiLinks (content : GoStr) : List WikiLink :=
  extractWikiLinksAux false 1 (scanLines content)

/-- Go `markdown.ResolveWikiLinkTarget(target)`: trim, then append `.md`
unless already present. -/
def ResolveWikiLinkTarget (target : GoStr) : GoStr :=
  let t := trimSpace target
  if t = [] then []
  else if hasSuffix t (".md".data) then t
  else t ++ (".md".data)

/-! ## `markdown.ExtractFrontmatter` (used by the indexer) -/

/-- A `markdown.Frontmatter` (the `Raw` map is unused by the indexer and
omitted). -/
structure Frontmatter where
  title : GoStr
  tags : List GoStr
  status : GoStr
  endLine : Nat
deriving DecidableEq, Repr

/-- Go `strings.Split(s, string(sep))` / `bytes.Split`. -/
def splitChar (sep : Char) (s : GoStr) : List GoStr :=
  s.foldr
    (fun c acc =>
      if c = sep then [] :: acc
      else
        match acc with
        | h :: r => (c :: h) :: r
        | [] => [[c]])
    [[]]

/-- The key-value loop of `ExtractFrontmatter`; `n` is the number of lines
already consumed (so the current line is line `n + 1`). -/
def extractFMAux : Nat → Frontmatter → List GoStr → Option Frontmatter
  | _, _, [] => none
  | n, fm, line :: rest =>
    if trimSpace line = fmDelim then some { fm with endLine := n + 1 }
    else
      let fm :=
        match indexOfChar ':' line with
        | none => fm
        | some i =>
          let key := trimSpace (line.take i)
          let val := trimSpace (line.drop (i + 1))
          if key = ("title".data) then { fm with title := val }
          else if key = ("status".data) then { fm with status := val }
          else if key = ("tags".data) then
            let parsed := ((splitChar ',' (trimCut val ("[]".data))).map trimSpace).filter
              (fun t => ¬ t = [])
            { fm with tags := fm.tags ++ parsed }
          else fm
      extractFMAux (n + 1) fm rest

/-- Go `markdown.ExtractFrontmatter(content)`; `none` when the first line
is not `---` or the block is never closed. -/
def ExtractFrontmatter (content : GoStr) : Option Frontmatter :=
  match scanLines content with
  | [] => none
  | first :: rest =>
    if ¬ trimSpace first = fmDelim then none
    else extractFMAux 1 ⟨[], [], [], 0⟩ rest

/-- Go `ParsedNote.PlainContent()`: the content with the frontmatter lines
stripped. -/
def plainContent (content : GoStr) (fm : Option Frontmatter) : GoStr :=
  match fm with
  | some f =>
    if 0 < f.endLine then
      let lines := splitChar '\n' content
      if f.endLine < lines.length then List.intercalate ['\n'] (lines.drop f.endLine)
      else content
    else content
  | none => content

end Markdown

namespace Index

/-! ## The `index` package: SQLite schema model, `IndexFile`,
`GetBacklinks` (claims C1 and C5) -/

/-- A row of the `notes` table. -/
structure NoteRow where
  id : Nat
  path : GoStr
  title : GoStr
  slug : GoStr
  status : GoStr
  hash : GoStr
  modTime : Int
  size : Int
deriving DecidableEq, Repr

/-- A row of the `links` table. -/
structure LinkRow where
  sourceId : Nat
  targetPath : GoStr
  targetId : Option Nat
  section' : GoStr
  alias' : GoStr
  line : Nat
  col : Nat
deriving DecidableEq, Repr

/-- A row of the `headings` table. -/
structure HeadingRow where
  noteId : Nat
  level : Nat
  text : GoStr
  line : Nat
deriving DecidableEq, Repr

/-- A row of the `notes_fts` full-text table. -/
structure FTSRow where
  noteId : Nat
  title : GoStr
  content : GoStr
  tags : GoStr
  headings : GoStr
deriving DecidableEq, Repr

/-- The SQLite database: one list per table, plus the `AUTOINCREMENT`
counters. -/
structure DB where
  notes : List NoteRow
  fts : List FTSRow
  tagRows : List (Nat × GoStr)
  noteTags : List (Nat × Nat)
  links : List LinkRow
  headings : List HeadingRow
  nextNoteId : Nat
  nextTagId : Nat
deriving DecidableEq

/-- A freshly opened database (`AUTOINCREMENT` counters start at 1). -/
def DB.empty : DB := ⟨[], [], [], [], [], [], 1, 1⟩

/-- Go `DB.GetNoteHash(path)`: empty string when no row matches. -/
def DB.getNoteHash (db : DB) (path : GoStr) : GoStr :=
  match db.notes.find? (fun n => n.path = path) with
  | some n => n.hash
  | none => []

/-- Go `DB.UpsertNote`: `INSERT ... ON CONFLICT(path) DO UPDATE`, then
`SELECT id`. -/
def DB.upsertNote (db : DB) (path title slug status hash : GoStr)
    (modTime size : Int) : Nat × DB :=
  match db.notes.find? (fun n => n.path = path) with
  | some n =>
    (n.id,
      { db with
        notes := db.notes.map (fun q =>
          if q.path = path then
            { q with
              title := title
              slug := slug
              status := status
              hash := hash
              modTime := modTime
              size := size }
          else q) })
  | none =>
    (db.nextNoteId,
      { db with
        notes := db.notes ++ [⟨db.nextNoteId, path, title, slug, status, hash, modTime, size⟩]
        nextNoteId := db.nextNoteId + 1 })

/-- Go `DB.UpdateFTS`: delete the note's row, insert the new one. -/
def DB.updateFTS (db : DB) (noteId : Nat) (title content tags headings : GoStr) : DB :=
  { db with fts := ⟨noteId, title, content, tags, headings⟩ ::
      db.fts.filter (fun r => ¬ r.noteId = noteId) }

/-- Go `DB.ClearNoteTags`. -/
def DB.clearNoteTags (db : DB) (noteId : Nat) : DB :=
  { db with noteTags := db.noteTags.filter (fun p => ¬ p.1 = noteId) }

/-- Go `DB.UpsertTag`: `INSERT OR IGNORE`, then `SELECT id`. -/
def DB.upsertTag (db : DB) (name : GoStr) : Nat × DB :=
  match db.tagRows.find? (fun t => t.2 = name) with
  | some t => (t.1, db)
  | none =>
    (db.nextTagId,
      { db with
        tagRows := db.tagRows ++ [(db.nextTagId, name)]
        nextTagId := db.nextTagId + 1 })

/-- Go `DB.LinkNoteTag`: `INSERT OR IGNORE` into `note_tags`. -/
def DB.linkNoteTag (db : DB) (noteId tagId : Nat) : DB :=
  if db.noteTags.contains (noteId, tagId) then db
  else { db with noteTags := db.noteTags ++ [(noteId, tagId)] }

/-- Go `DB.InsertLink`: `target_id` starts out NULL. -/
def DB.insertLink (db : DB) (sourceId : Nat) (targetPath section' alias' : GoStr)
    (line col : Nat) : DB :=
  { db with links := db.links ++ [⟨sourceId, targetPath, none, section', alias', line, col⟩] }

/-- Go `DB.ClearNoteLinks`. -/
def DB.clearNoteLinks (db : DB) (noteId : Nat) : DB :=
  { db with links := db.links.filter (fun l => ¬ l.sourceId = noteId) }

/-- Go `DB.InsertHeading`. -/
def DB.insertHeading (db : DB) (noteId level : Nat) (text : GoStr) (line : Nat) : DB :=
  { db with headings := db.headings ++ [⟨noteId, level, text, line⟩] }

/-- Go `DB.ClearNoteHeadings`. -/
def DB.clearNoteHeadings (db : DB) (noteId : Nat) : DB :=
  { db with headings := db.headings.filter (fun h => ¬ h.noteId = noteId) }

/-- The indexer's `resolveLinks` UPDATE: for each still-unresolved link of
the source note, set `target_id` from the first note whose path equals the
stored basename or ends in `/` + it (the SQL `LIKE` pattern). -/
def DB.resolveLinks (db : DB) (sourceId : Nat) : DB :=
  { db with links := db.links.map (fun l =>
      if l.sourceId = sourceId ∧ l.targetId = none then
        { l with
          targetId := (db.notes.find? (fun n =>
            n.path = l.targetPath ∨ hasSuffix n.path ('/' :: l.targetPath))).map
              (fun n => n.id) }
      else l) }

/-- A `BacklinkResult` row. -/
structure BacklinkRow where
  sourcePath : GoStr
  sourceTitle : GoStr
  line : Nat
  col : Nat
deriving DecidableEq, Repr

/-- Go `DB.GetBacklinks(targetPath)`: filter the `links` table on the
basename of the queried path (byte equality, SQLite BINARY collation) and
join on `notes`.  The query's `ORDER BY n.path` only permutes the rows and
is not modelled. -/
def DB.getBacklinks (db : DB) (targetPath : GoStr) : List BacklinkRow :=
  let basename := filepathBase targetPath
  (db.links.filter (fun l => l.targetPath = basename)).filterMap
    (fun l => (db.notes.find? (fun n => n.id = l.sourceId)).map
      (fun n => ⟨n.path, n.title, l.line, l.col⟩))

/-- What `os.ReadFile` + `os.Stat` deliver for one file. -/
structure FileInfo where
  content : GoStr
  modTime : Int
  size : Int
deriving DecidableEq, Repr

/-- The indexer's `titleFromPath`. -/
def titleFromPath (path : GoStr) : GoStr :=
  let base := filepathBase path
  let name := trimSuffixStr base (filepathExt base)
  replaceAllChar (replaceAllChar name '-' ' ') '_' ' '

/-- Go `Indexer.IndexFile(absPath)`.  Paths are taken vault-relative
(`filepath.Rel` is the identity in this model), `hash` abstracts the
SHA-256 hex digest, and `fs` is the file system.  The boolean is `true`
when no error occurred. -/
def IndexFile (hash : GoStr → GoStr) (fs : GoStr → Option FileInfo)
    (db : DB) (relPath : GoStr) : DB × Bool :=
  match fs relPath with
  | none => (db, false)
  | some info =>
    let h := hash info.content
    if h = db.getNoteHash relPath then (db, true)
    else
      let fm := Markdown.ExtractFrontmatter info.content
      let hds := Markdown.ExtractHeadings info.content
      let wls := Markdown.ExtractWikiLinks info.content
      let title :=
        match fm with
        | some f => if ¬ f.title = [] then f.title else titleFromPath relPath
        | none => titleFromPath relPath
      let status := match fm with | some f => f.status | none => []
      let tags := match fm with | some f => f.tags | none => []
      let slug := Vault.indexSlugify title
      let r := db.upsertNote relPath title slug status h info.modTime info.size
      let noteId := r.1
      let db := r.2
      let db := db.updateFTS noteId title (Markdown.plainContent info.content fm)
        (List.intercalate [' '] tags) (List.intercalate [' '] (hds.map (fun x => x.text)))
      let db := db.clearNoteTags noteId
      let db := tags.foldl (fun db tag =>
        let r := db.upsertTag tag
        r.2.linkNoteTag noteId r.1) db
      let db := db.clearNoteHeadings noteId
      let db := hds.foldl (fun db x => db.insertHeading noteId x.level x.text x.line) db
      let db := db.clearNoteLinks noteId
      let db := wls.foldl (fun db l =>
        db.insertLink noteId (filepathBase (Markdown.ResolveWikiLinkTarget l.target))
          l.section' l.alias' l.line l.col) db
      let db := db.resolveLinks noteId
      (db, true)

theorem find?_map_pathUpd (p : GoStr) (g : NoteRow → NoteRow)
    (hg : ∀ q, (g q).path = q.path) :
    ∀ l : List NoteRow,
      (l.map (fun q => if q.path = p then g q else q)).find? (fun q => q.path = p) =
        (l.find? (fun q => q.path = p)).map g := by
  intro l
  induction l with
  | nil => rfl
  | cons r t ih =>
    by_cases hr : r.path = p
    · rw [List.map_cons, if_pos hr]
      rw [List.find?_cons_of_pos _ (by simp [hg, hr]), List.find?_cons_of_pos _ (by simp [hr])]
      rfl
    · rw [List.map_cons, if_neg hr]
      rw [List.find?_cons_of_neg _ (by simp [hg, hr]), List.find?_cons_of_neg _ (by simp [hr])]
      exact ih

theorem getNoteHash_upsert (db : DB) (p title slug status h : GoStr) (m z : Int) :
    (db.upsertNote p title slug status h m z).2.getNoteHash p = h := by
  rw [DB.upsertNote]
  cases hfind : db.notes.find? (fun n => n.path = p) with
  | some n =>
    rw [DB.getNoteHash]
    dsimp only
    rw [find?_map_pathUpd p
      (fun q => { q with title := title, slug := slug, status := status, hash := h, modTime := m, size := z })
      (fun q => rfl), hfind]
    rfl
  | none =>
    rw [DB.getNoteHash]
    dsimp only
    rw [List.find?_append, hfind]
    simp [List.find?]

theorem notes_foldl_tags (i : Nat) (l : List GoStr) (db : DB) :
    (l.foldl (fun db tag =>
      let r := db.upsertTag tag
      r.2.linkNoteTag i r.1) db).notes = db.notes := by
  induction l generalizing db with
  | nil => rfl
  | cons t ts ih =>
    rw [List.foldl_cons, ih]
    rw [DB.upsertTag]
    cases hfind : db.tagRows.find? (fun x => x.2 = t) with
    | some x =>
      dsimp only
      rw [DB.linkNoteTag]
      split <;> rfl
    | none =>
      dsimp only
      rw [DB.linkNoteTag]
      split <;> rfl

theorem notes_foldl_headings (i : Nat) (l : List Markdown.Heading) (db : DB) :
    (l.foldl (fun db x => db.insertHeading i x.level x.text x.line) db).notes = db.notes := by
  induction l generalizing db with
  | nil => rfl
  | cons x xs ih =>
    rw [List.foldl_cons, ih]
    rfl

theorem notes_foldl_links (i : Nat) (l : List Markdown.WikiLink) (db : DB) :
    (l.foldl (fun db w =>
      db.insertLink i (filepathBase (Markdown.ResolveWikiLinkTarget w.target))
        w.section' w.alias' w.line w.col) db).notes = db.notes := by
  induction l generalizing db with
  | nil => rfl
  | cons x xs ih =>
    rw [List.foldl_cons, ih]
    rfl

theorem getNoteHash_congr {db₁ db₂ : DB} (p : GoStr) (h : db₁.notes = db₂.notes) :
    db₁.getNoteHash p = db₂.getNoteHash p := by
  rw [DB.getNoteHash, DB.getNoteHash, h]

theorem indexFile_hash (hash : GoStr → GoStr) (fs : GoStr → Option FileInfo)
    (db : DB) (p : GoStr) (info : FileInfo) (h1 : fs p = some info) :
    (IndexFile hash fs db p).1.getNoteHash p = hash info.content := by
  simp only [IndexFile, h1]
  by_cases hgate : hash info.content = db.getNoteHash p
  · rw [if_pos hgate]
    exact hgate.symm
  · rw [if_neg hgate]
    dsimp only
    rw [getNoteHash_congr p
      (by
        simp only [DB.resolveLinks, notes_foldl_links, DB.clearNoteLinks,
          notes_foldl_headings, DB.clearNoteHeadings, notes_foldl_tags, DB.clearNoteTags,
          DB.updateFTS]
        rfl)]
    exact getNoteHash_upsert db p _ _ _ _ _ _

/-- The projection of a link row onto the columns `resolveLinks` never
touches. -/
def linkProj (l : LinkRow) : Nat × GoStr × GoStr × GoStr × Nat × Nat :=
  (l.sourceId, l.targetPath, l.section', l.alias', l.line, l.col)

theorem foldl_insertLink_links (i : Nat) (wls : List Markdown.WikiLink) (db : DB) :
    (wls.foldl (fun db w =>
      db.insertLink i (filepathBase (Markdown.ResolveWikiLinkTarget w.target))
        w.section' w.alias' w.line w.col) db).links =
      db.links ++ wls.map (fun w =>
        ⟨i, filepathBase (Markdown.ResolveWikiLinkTarget w.target), none,
          w.section', w.alias', w.line, w.col⟩) := by
  induction wls generalizing db with
  | nil => simp
  | cons w ws ih =>
    rw [List.foldl_cons, ih]
    rw [DB.insertLink]
    simp

theorem links_clear_filter (db : DB) (i : Nat) :
    (db.clearNoteLinks i).links.filter (fun l => l.sourceId = i) = [] := by
  rw [DB.clearNoteLinks]
  dsimp only
  rw [List.filter_filter]
  apply List.filter_eq_nil_iff.mpr
  intro l _
  simp

theorem filter_map_resolve (db : DB) (i j : Nat) :
    ((db.resolveLinks i).links.filter (fun l => l.sourceId = j)).map linkProj =
      (db.links.filter (fun l => l.sourceId = j)).map linkProj := by
  rw [DB.resolveLinks]
  dsimp only
  have hsrc : ∀ l : LinkRow,
      (if l.sourceId = i ∧ l.targetId = none then
        { l with
          targetId := (db.notes.find? (fun n =>
            n.path = l.targetPath ∨ hasSuffix n.path ('/' :: l.targetPath))).map
              (fun n => n.id) }
      else l).sourceId = l.sourceId := by
    intro l
    split <;> rfl
  rw [List.filter_map]
  rw [List.map_map]
  have : (fun l : LinkRow => decide (l.sourceId = j)) ∘ (fun l =>
      if l.sourceId = i ∧ l.targetId = none then
        { l with
          targetId := (db.notes.find? (fun n =>
            n.path = l.targetPath ∨ hasSuffix n.path ('/' :: l.targetPath))).map
              (fun n => n.id) }
      else l) = fun l : LinkRow => decide (l.sourceId = j) := by
    funext l
    dsimp only [Function.comp]
    rw [hsrc l]
  rw [this]
  apply List.map_congr_left
  intro l _
  dsimp only [Function.comp]
  split <;> rfl

theorem upsertNote_find (db : DB) (p title slug status h : GoStr) (m z : Int) :
    ∃ n, (db.upsertNote p title slug status h m z).2.notes.find?
        (fun q => q.path = p) = some n ∧
      n.id = (db.upsertNote p title slug status h m z).1 := by
  rw [DB.upsertNote]
  cases hfind : db.notes.find? (fun q => q.path = p) with
  | some n0 =>
    dsimp only
    rw [find?_map_pathUpd p
      (fun q => { q with title := title, slug := slug, status := status, hash := h, modTime := m, size := z })
      (fun q => rfl), hfind]
    exact ⟨_, rfl, rfl⟩
  | none =>
    dsimp only
    refine ⟨⟨db.nextNoteId, p, title, slug, status, h, m, z⟩, ?_, rfl⟩
    rw [List.find?_append, hfind]
    simp [List.find?]

theorem backlinks_mem (db : DB) (q : GoStr) (r : BacklinkRow) :
    r ∈ db.getBacklinks q ↔
      ∃ l ∈ db.links, l.targetPath = filepathBase q ∧
        ∃ n, db.notes.find? (fun x => x.id = l.sourceId) = some n ∧
          r = ⟨n.path, n.title, l.line, l.col⟩ := by
  simp only [DB.getBacklinks]
  rw [List.mem_filterMap]
  constructor
  · rintro ⟨l, hl, hmap⟩
    rw [List.mem_filter] at hl
    obtain ⟨hmem, htp⟩ := hl
    rw [Option.map_eq_some'] at hmap
    obtain ⟨n, hn, hr⟩ := hmap
    exact ⟨l, hmem, by simpa using htp, n, hn, hr.symm⟩
  · rintro ⟨l, hmem, htp, n, hn, hr⟩
    refine ⟨l, ?_, ?_⟩
    · rw [List.mem_filter]
      exact ⟨hmem, by simpa using htp⟩
    · rw [hn, hr]
      rfl

theorem indexFile_links (hash : GoStr → GoStr) (fs : GoStr → Option FileInfo) (db : DB)
    (p : GoStr) (info : FileInfo) (h1 : fs p = some info)
    (hgate : ¬ hash info.content = db.getNoteHash p) :
    ∃ n, (IndexFile hash fs db p).1.notes.find? (fun x => x.path = p) = some n ∧
      ((IndexFile hash fs db p).1.links.filter
          (fun l => l.sourceId = n.id)).map linkProj =
        (Markdown.ExtractWikiLinks info.content).map (fun w =>
          (n.id, filepathBase (Markdown.ResolveWikiLinkTarget w.target), w.section', w.alias',
            w.line, w.col)) := by
  simp only [IndexFile, h1]
  rw [if_neg hgate]
  dsimp only
  obtain ⟨n, hfind, hid⟩ := upsertNote_find db p
    (match Markdown.ExtractFrontmatter info.content with
      | some f => if ¬ f.title = [] then f.title else titleFromPath p
      | none => titleFromPath p)
    (Vault.indexSlugify
      (match Markdown.ExtractFrontmatter info.content with
        | some f => if ¬ f.title = [] then f.title else titleFromPath p
        | none => titleFromPath p))
    (match Markdown.ExtractFrontmatter info.content with
      | some f => f.status
      | none => [])
    (hash info.content) info.modTime info.size
  refine ⟨n, ?_, ?_⟩
  · simp only [DB.resolveLinks, notes_foldl_links, DB.clearNoteLinks,
      notes_foldl_headings, DB.clearNoteHeadings, notes_foldl_tags, DB.clearNoteTags,
      DB.updateFTS]
    exact hfind
  · rw [hid]
    rw [filter_map_resolve]
    rw [foldl_insertLink_links]
    rw [List.filter_append]
    rw [links_clear_filter]
    rw [List.nil_append]
    have hfl : ∀ (j : Nat) (rows : List Markdown.WikiLink),
        (rows.map (fun w =>
          (⟨j, filepathBase (Markdown.ResolveWikiLinkTarget w.target), none,
            w.section', w.alias', w.line, w.col⟩ : LinkRow))).filter
          (fun l => l.sourceId = j) =
        rows.map (fun w =>
          (⟨j, filepathBase (Markdown.ResolveWikiLinkTarget w.target), none,
            w.section', w.alias', w.line, w.col⟩ : LinkRow)) := by
      intro j rows
      apply List.filter_eq_self.mpr
      intro l hl
      rw [List.mem_map] at hl
      obtain ⟨w, _, hw⟩ := hl
      subst hw
      simp
    rw [hfl]
    rw [List.map_map]
    apply List.map_congr_left
    intro w _
    rfl

end Index

/-- C5: after `index_file(p)` completes, the stored hash equals the digest
of the file's bytes, and a second `index_file(p)` while the bytes are
unchanged is a no-op: it returns the database unmodified (hash gate).  The
digest function is abstract; `fs` and `fs₂` are the file system at the two
runs (metadata may differ, the bytes must agree). -/
theorem C5_hash_gate (hash : GoStr → GoStr) (fs fs₂ : GoStr → Option Index.FileInfo)
    (db : Index.DB) (p : GoStr) (info info₂ : Index.FileInfo)
    (h1 : fs p = some info) (h2 : fs₂ p = some info₂)
    (heq : info₂.content = info.content) :
    (Index.IndexFile hash fs db p).1.getNoteHash p = hash info.content ∧
      Index.IndexFile hash fs₂ (Index.IndexFile hash fs db p).1 p =
        ((Index.IndexFile hash fs db p).1, true) := by
  have hh := Index.indexFile_hash hash fs db p info h1
  refine ⟨hh, ?_⟩
  set db₁ := (Index.IndexFile hash fs db p).1 with hdb₁
  simp only [Index.IndexFile, h2]
  rw [if_pos (by rw [heq, hh])]

/-- C5 witness: the theorem applied to a one-file vault. -/
theorem C5_hash_gate_witness :
    (Index.IndexFile (fun c => 'h' :: c)
        (fun q => if q = ("n.md".data) then some ⟨"x".data, 0, 1⟩ else none)
        Index.DB.empty ("n.md".data)).1.getNoteHash ("n.md".data) =
        ((fun c => 'h' :: c) ("x".data)) ∧
      Index.IndexFile (fun c => 'h' :: c)
          (fun q => if q = ("n.md".data) then some ⟨"x".data, 0, 1⟩ else none)
          ((Index.IndexFile (fun c => 'h' :: c)
            (fun q => if q = ("n.md".data) then some ⟨"x".data, 0, 1⟩ else none)
            Index.DB.empty ("n.md".data)).1) ("n.md".data) =
        ((Index.IndexFile (fun c => 'h' :: c)
          (fun q => if q = ("n.md".data) then some ⟨"x".data, 0, 1⟩ else none)
          Index.DB.empty ("n.md".data)).1, true) :=
  C5_hash_gate (fun c => 'h' :: c)
    (fun q => if q = ("n.md".data) then some ⟨"x".data, 0, 1⟩ else none)
    (fun q => if q = ("n.md".data) then some ⟨"x".data, 0, 1⟩ else none)
    Index.DB.empty ("n.md".data) ⟨"x".data, 0, 1⟩ ⟨"x".data, 0, 1⟩
    (by decide) (by decide) rfl

namespace Index

/-- The digest function used in the case-sensitivity scenario. -/
def mixedHash (c : GoStr) : GoStr := 'h' :: c

/-- A two-note vault: `a.md` links to `[[Note]]`, and the note on disk is
`note.md` (lower case). -/
def mixedFS (q : GoStr) : Option FileInfo :=
  if q = ("a.md".data) then some ⟨"[[Note]]".data, 0, 8⟩
  else if q = ("note.md".data) then some ⟨"x".data, 0, 1⟩
  else none

/-- The database after indexing both files of `mixedFS`. -/
def mixedDB : DB :=
  (IndexFile mixedHash mixedFS (IndexFile mixedHash mixedFS DB.empty ("a.md".data)).1
    ("note.md".data)).1

end Index

/-- C1: the claim says stored link target basenames are lowercased and
backlink resolution is case-insensitive.  They are not: indexing `a.md`
containing `[[Note]]` stores the target basename `Note.md` verbatim, and
although its lowercasing equals the lowercased basename of `note.md`,
`get_backlinks("note.md")` returns no rows. -/
theorem C1_counterexample :
    Index.mixedDB.links.map (fun l => l.targetPath) = [("Note.md".data)] ∧
      stringsToLower ("Note.md".data) = stringsToLower (filepathBase ("note.md".data)) ∧
      Index.mixedDB.getBacklinks ("note.md".data) = [] ∧
      Index.mixedDB.notes.map (fun n => n.path) = [("a.md".data), ("note.md".data)] := by
  refine ⟨?_, by decide, ?_, ?_⟩ <;>
    simp [Index.mixedDB, Index.mixedFS, Index.mixedHash, Index.IndexFile, Index.DB.empty,
      Index.DB.getNoteHash, Markdown.ExtractFrontmatter, Markdown.ExtractHeadings,
      Markdown.ExtractWikiLinks, Markdown.extractWikiLinksAux, Markdown.extractHeadingsAux,
      Markdown.wikiLinkScan, Markdown.splitAtClose, Markdown.parseLinkInner,
      Markdown.indexOfChar, Markdown.scanLines, Markdown.scanLinesAux, Markdown.dropCR,
      trimSpace, isGoSpace, Markdown.fmDelim, trimLeftCut, trimRightCut, inCutset,
      hasPrefix, Index.titleFromPath, filepathBase, filepathExt, trimSuffixStr,
      replaceAllChar, Vault.indexSlugify, stringsToLower, toLowerAscii, Vault.slugKeep,
      Markdown.ResolveWikiLinkTarget, hasSuffix, trimCut, Markdown.plainContent,
      Markdown.splitChar, Index.DB.upsertNote, Index.DB.updateFTS, Index.DB.clearNoteTags,
      Index.DB.upsertTag, Index.DB.linkNoteTag, Index.DB.clearNoteHeadings,
      Index.DB.insertHeading, Index.DB.clearNoteLinks, Index.DB.insertLink,
      Index.DB.resolveLinks, Index.DB.getBacklinks, List.find?, List.lookup] <;>
    decide

/-- C1 (amended): `get_backlinks(p)` returns exactly the notes with a
stored outgoing link whose target basename is byte-equal to the basename
of `p` (SQLite BINARY collation, case-sensitive); and the link rows an
`index_file` run stores for a note carry the resolved target basenames
verbatim, without lowercasing. -/
theorem C1_backlinks :
    (∀ (db : Index.DB) (q : GoStr) (r : Index.BacklinkRow),
        r ∈ db.getBacklinks q ↔
          ∃ l ∈ db.links, l.targetPath = filepathBase q ∧
            ∃ n, db.notes.find? (fun x => x.id = l.sourceId) = some n ∧
              r = ⟨n.path, n.title, l.line, l.col⟩) ∧
      (∀ (hash : GoStr → GoStr) (fs : GoStr → Option Index.FileInfo) (db : Index.DB)
          (p : GoStr) (info : Index.FileInfo), fs p = some info →
        ¬ hash info.content = db.getNoteHash p →
        ∃ n, (Index.IndexFile hash fs db p).1.notes.find? (fun x => x.path = p) = some n ∧
          ((Index.IndexFile hash fs db p).1.links.filter
              (fun l => l.sourceId = n.id)).map Index.linkProj =
            (Markdown.ExtractWikiLinks info.content).map (fun w =>
              (n.id, filepathBase (Markdown.ResolveWikiLinkTarget w.target),
                w.section', w.alias', w.line, w.col))) :=
  ⟨Index.backlinks_mem, Index.indexFile_links⟩

/-- C1 witness: both halves of the amended theorem applied to concrete
inputs (the empty database, and a fresh indexing of `a.md`). -/
theorem C1_backlinks_witness :
    ((⟨[], [], 0, 0⟩ : Index.BacklinkRow) ∈ Index.DB.empty.getBacklinks ("x.md".data) ↔
        ∃ l ∈ Index.DB.empty.links, l.targetPath = filepathBase ("x.md".data) ∧
          ∃ n, Index.DB.empty.notes.find? (fun x => x.id = l.sourceId) = some n ∧
            (⟨[], [], 0, 0⟩ : Index.BacklinkRow) = ⟨n.path, n.title, l.line, l.col⟩) ∧
      ∃ n, (Index.IndexFile Index.mixedHash Index.mixedFS Index.DB.empty
            ("a.md".data)).1.notes.find? (fun x => x.path = ("a.md".data)) = some n ∧
        ((Index.IndexFile Index.mixedHash Index.mixedFS Index.DB.empty
              ("a.md".data)).1.links.filter
            (fun l => l.sourceId = n.id)).map Index.linkProj =
          (Markdown.ExtractWikiLinks ("[[Note]]".data)).map (fun w =>
            (n.id, filepathBase (Markdown.ResolveWikiLinkTarget w.target),
              w.section', w.alias', w.line, w.col)) :=
  ⟨C1_backlinks.1 Index.DB.empty ("x.md".data) ⟨[], [], 0, 0⟩,
    C1_backlinks.2 Index.mixedHash Index.mixedFS Index.DB.empty ("a.md".data)
      ⟨"[[Note]]".data, 0, 8⟩ (by decide) (by decide)⟩


/-! ### The Markdown formatter (`markdown.Format`, part_019) and the
frontmatter byte-span observation for C6 -/

namespace Markdown

/-! Go `markdown.Format` (part_019). -/

/-- `isHeading`: after trimming leading spaces the line starts with `#`. -/
def isHeading (line : GoStr) : Bool :=
  hasPrefix (line.dropWhile (fun c => c = ' ')) ['#']

/-- `normalizeHeading`. -/
def normalizeHeading (line : GoStr) : GoStr :=
  let trimmed := line.dropWhile (fun c => c = ' ')
  let level := (trimmed.takeWhile (fun c => c = '#')).length
  if 6 < level ∨ level = 0 then line
  else
    let text := trimSpace (trimmed.drop level)
    let text := trimRightCut text ['#', ' ']
    let text := trimSpace text
    if text = [] then List.replicate level '#'
    else List.replicate level '#' ++ ' ' :: text

/-- The per-line fix applied outside frontmatter: trim trailing space/tab,
then normalize the line if it is a heading. -/
def formatLineFix (line : GoStr) : GoStr :=
  let line := trimRightCut line [' ', '\t']
  if isHeading line then normalizeHeading line else line

/-- The scan loop of `Format` once inside frontmatter: lines are kept
verbatim until the closing `---`; the flag records `frontmatterDone`. -/
def fmtScanFM : List GoStr → Bool × List GoStr
  | [] => (false, [])
  | line :: rest =>
    if trimSpace line = fmDelim then (true, line :: rest.map formatLineFix)
    else
      let p := fmtScanFM rest
      (p.1, line :: p.2)

/-- The scan loop of `Format`: a first line trimming to `---` opens
frontmatter, every other line gets the per-line fix. -/
def formatScan (ls : List GoStr) : Bool × List GoStr :=
  match ls with
  | [] => (false, [])
  | first :: rest =>
    if trimSpace first = fmDelim then
      let p := fmtScanFM rest
      (p.1, first :: p.2)
    else (false, (first :: rest).map formatLineFix)

/-- The loop of `normalizeBlankLines` past the first line: frontmatter is
copied verbatim; outside it at most two consecutive blank lines are kept
and a blank line is inserted before a heading that directly follows
ordinary text. -/
def normBLAux : Bool → Nat → List GoStr → List GoStr → List GoStr
  | _, _, result, [] => result
  | true, _, result, line :: rest =>
    if trimSpace line = fmDelim then normBLAux false 0 (result ++ [line]) rest
    else normBLAux true 0 (result ++ [line]) rest
  | false, consecutive, result, line :: rest =>
    if trimSpace line = [] then
      if consecutive + 1 ≤ 2 then normBLAux false (consecutive + 1) (result ++ [line]) rest
      else normBLAux false (consecutive + 1) result rest
    else
      let result' :=
        if isHeading line ∧ ¬ result = [] then
          match result.getLast? with
          | some lastLine =>
            if ¬ trimSpace lastLine = [] ∧ ¬ hasPrefix (trimSpace lastLine) fmDelim then
              result ++ [[]]
            else result
          | none => result
        else result
      normBLAux false 0 (result' ++ [line]) rest

/-- Go `normalizeBlankLines` (its `hasFrontmatter` argument is unused in
the source; frontmatter is re-detected from the first line). -/
def normalizeBlankLines (lines : List GoStr) (hasFrontmatter : Bool) : List GoStr :=
  match lines with
  | [] => []
  | line :: rest =>
    if trimSpace line = fmDelim then normBLAux true 0 [line] rest
    else normBLAux false 0 [] (line :: rest)

/-- Go `markdown.Format`. -/
def Format (content : GoStr) : GoStr :=
  let p := formatScan (scanLines content)
  let lines := normalizeBlankLines p.2 p.1
  let result := List.intercalate ['\n'] lines
  trimRightCut result ['\n'] ++ ['\n']

/-! The spec-side observation for C6: the raw bytes between the first
`---` delimiter line and the closing `---` delimiter line. -/

/-- Split into raw lines, keeping each line's `\n` terminator. -/
def rawLinesAux (acc : GoStr) : GoStr → List GoStr
  | [] => if acc = [] then [] else [acc]
  | c :: rest =>
    if c = '\n' then (acc ++ ['\n']) :: rawLinesAux [] rest
    else rawLinesAux (acc ++ [c]) rest

def rawLines (s : GoStr) : List GoStr := rawLinesAux [] s

/-- The text of a raw line as the line scanner delivers it: the `\n`
terminator and one trailing `\r` removed. -/
def lineText (l : GoStr) : GoStr :=
  dropCR (if l.getLast? = some '\n' then l.dropLast else l)

/-- A raw line that reads as a `---` frontmatter delimiter. -/
def isDelimLine (l : GoStr) : Bool := trimSpace (lineText l) = fmDelim

def fmSpanAux (acc : GoStr) : List GoStr → Option GoStr
  | [] => none
  | l :: rest => if isDelimLine l then some acc else fmSpanAux (acc ++ l) rest

/-- The raw bytes strictly between the opening `---` line (which must be
the first line) and the first closing `---` line, or `none` if the
input has no such frontmatter block. -/
def fmSpan (content : GoStr) : Option GoStr :=
  match rawLines content with
  | [] => none
  | first :: rest => if isDelimLine first then fmSpanAux [] rest else none

def flatCat : List GoStr → GoStr
  | [] => []
  | x :: xs => x ++ flatCat xs

theorem getLast?_mem {x : Char} {l : GoStr} (h : l.getLast? = some x) : x ∈ l := by
  have h2 := List.dropLast_append_getLast? x (Option.mem_def.mpr h)
  rw [← h2]
  exact List.mem_append_right _ (List.mem_singleton.mpr rfl)

theorem rawLinesAux_append (l : GoStr) (hl : '\n' ∉ l) :
    ∀ (acc s : GoStr), rawLinesAux acc (l ++ s) = rawLinesAux (acc ++ l) s := by
  induction l with
  | nil => intro acc s; simp
  | cons c t ih =>
    intro acc s
    have hc : ¬ c = '\n' := by intro h; exact hl (h ▸ List.mem_cons_self c t)
    have ht : '\n' ∉ t := fun h => hl (List.mem_cons_of_mem c h)
    simp only [List.cons_append, rawLinesAux, if_neg hc, List.append_eq]
    rw [ih ht (acc ++ [c]) s]
    simp

theorem rawLinesAux_lf (acc s : GoStr) :
    rawLinesAux acc ('\n' :: s) = (acc ++ ['\n']) :: rawLinesAux [] s := by
  simp [rawLinesAux]

theorem lineText_sub {c : Char} {l : GoStr} (h : c ∈ lineText l) : c ∈ l := by
  have hdrop : ∀ m : GoStr, c ∈ dropCR m → c ∈ m := by
    intro m hm
    rw [dropCR] at hm
    split at hm
    · exact List.dropLast_subset _ hm
    · exact hm
  rw [lineText] at h
  have := hdrop _ h
  split at this
  · exact List.dropLast_subset _ this
  · exact this

theorem lineText_concat (x : GoStr) (hr : '\r' ∉ x) : lineText (x ++ ['\n']) = x := by
  rw [lineText]
  rw [if_pos (by simp)]
  rw [List.dropLast_concat]
  rw [dropCR]
  split
  · rename_i hlast
    exact absurd (getLast?_mem hlast) hr
  · rfl

theorem lineText_no_lf {l : GoStr} (h : '\n' ∉ l.dropLast) : '\n' ∉ lineText l := by
  intro hmem
  by_cases hl : l.getLast? = some '\n'
  · rw [lineText, if_pos hl, dropCR] at hmem
    split at hmem
    · exact h (List.dropLast_subset _ hmem)
    · exact h hmem
  · have hl2 : '\n' ∈ l := lineText_sub hmem
    rcases List.eq_nil_or_concat l with rfl | ⟨m, a, rfl⟩
    · simp at hl2
    · rw [List.concat_eq_append] at hl2 h hl
      rw [List.dropLast_concat] at h
      rcases List.mem_append.1 hl2 with h3 | h3
      · exact h h3
      · simp at h3
        rw [h3] at hl
        simp at hl

theorem raw_line_eq {l : GoStr} (h1 : l.getLast? = some '\n')
    (h2 : '\r' ∉ l) (h3 : '\n' ∉ l.dropLast) :
    l = lineText l ++ ['\n'] ∧ '\n' ∉ lineText l ∧ '\r' ∉ lineText l := by
  have hdl : lineText l = l.dropLast := by
    rw [lineText, if_pos h1, dropCR]
    split
    · rename_i hlast
      exact absurd (h2 (List.dropLast_subset _ (getLast?_mem hlast))) (by simp)
    · rfl
  refine ⟨?_, lineText_no_lf h3, fun hc => h2 (lineText_sub hc)⟩
  rw [hdl]
  exact (List.dropLast_append_getLast? '\n' (Option.mem_def.mpr h1)).symm

theorem scanLinesAux_eq (s : GoStr) :
    ∀ acc : GoStr, '\n' ∉ acc →
      scanLinesAux acc s = (rawLinesAux acc s).map lineText := by
  induction s with
  | nil =>
    intro acc hacc
    rw [scanLinesAux, rawLinesAux]
    split
    · simp
    · simp only [List.map_cons, List.map_nil, List.cons.injEq, and_true]
      rw [lineText]
      rw [if_neg (fun h => hacc (getLast?_mem h))]
  | cons c rest ih =>
    intro acc hacc
    by_cases hc : c = '\n'
    · subst hc
      rw [rawLinesAux_lf]
      rw [scanLinesAux, if_pos rfl]
      simp only [List.map_cons]
      have hlt : lineText (acc ++ ['\n']) = dropCR acc := by
        rw [lineText, if_pos (by simp), List.dropLast_concat]
      rw [hlt, ih [] (by simp)]
    · rw [scanLinesAux, if_neg hc, rawLinesAux, if_neg hc]
      exact ih (acc ++ [c]) (by simp [hacc, Ne.symm hc])

def rawWF : List GoStr → Prop
  | [] => True
  | [l] => '\n' ∉ l.dropLast
  | l :: r :: t => '\n' ∉ l.dropLast ∧ l.getLast? = some '\n' ∧ rawWF (r :: t)

theorem rawWF_cons {l : GoStr} {ls : List GoStr} (h1 : '\n' ∉ l.dropLast)
    (h2 : l.getLast? = some '\n') (h3 : rawWF ls) : rawWF (l :: ls) := by
  cases ls with
  | nil => exact h1
  | cons r t => exact ⟨h1, h2, h3⟩

theorem rawLinesAux_rawWF (s : GoStr) :
    ∀ acc : GoStr, '\n' ∉ acc → rawWF (rawLinesAux acc s) := by
  induction s with
  | nil =>
    intro acc hacc
    rw [rawLinesAux]
    split
    · trivial
    · exact fun h => hacc (List.dropLast_subset _ h)
  | cons c rest ih =>
    intro acc hacc
    by_cases hc : c = '\n'
    · subst hc
      rw [rawLinesAux_lf]
      refine rawWF_cons ?_ (by simp) (ih [] (by simp))
      rw [List.dropLast_concat]
      exact hacc
    · rw [rawLinesAux, if_neg hc]
      exact ih (acc ++ [c]) (by simp [hacc, Ne.symm hc])

theorem rawWF_tail {l : GoStr} {ls : List GoStr} (h : rawWF (l :: ls)) : rawWF ls := by
  cases ls with
  | nil => trivial
  | cons r t => exact h.2.2

theorem rawWF_head {l : GoStr} {ls : List GoStr} (h : rawWF (l :: ls)) :
    '\n' ∉ l.dropLast := by
  cases ls with
  | nil => exact h
  | cons r t => exact h.1

theorem rawWF_front {xs : List GoStr} :
    ∀ (C : GoStr) (bs : List GoStr), rawWF (xs ++ C :: bs) →
      ∀ x ∈ xs, '\n' ∉ x.dropLast ∧ x.getLast? = some '\n' := by
  induction xs with
  | nil => intro C bs _ x hx; simp at hx
  | cons a t ih =>
    intro C bs h x hx
    have hcons : rawWF (a :: (t ++ C :: bs)) := h
    have hne : t ++ C :: bs ≠ [] := by simp
    rcases List.exists_cons_of_ne_nil hne with ⟨y, ys, hy⟩
    rw [hy] at hcons
    rcases List.mem_cons.1 hx with rfl | hx'
    · exact ⟨hcons.1, hcons.2.1⟩
    · exact ih C bs (rawWF_tail h) x hx'

theorem rawWF_mid {xs : List GoStr} {C : GoStr} {bs : List GoStr}
    (h : rawWF (xs ++ C :: bs)) : '\n' ∉ C.dropLast := by
  induction xs with
  | nil => exact rawWF_head h
  | cons a t ih => exact ih (rawWF_tail h)

theorem rawLinesAux_crfree (s : GoStr) :
    ∀ acc : GoStr, '\r' ∉ s → '\r' ∉ acc →
      ∀ l ∈ rawLinesAux acc s, '\r' ∉ l := by
  induction s with
  | nil =>
    intro acc _ hacc l hl
    rw [rawLinesAux] at hl
    split at hl
    · simp at hl
    · simp at hl
      subst hl
      exact hacc
  | cons c rest ih =>
    intro acc hs hacc l hl
    have hcr : ¬ c = '\r' := fun h => hs (h ▸ List.mem_cons_self c rest)
    have hrest : '\r' ∉ rest := fun h => hs (List.mem_cons_of_mem c h)
    by_cases hc : c = '\n'
    · subst hc
      rw [rawLinesAux_lf] at hl
      rcases List.mem_cons.1 hl with rfl | hl'
      · intro hm
        rcases List.mem_append.1 hm with hm' | hm'
        · exact hacc hm'
        · simp at hm'
      · exact ih [] hrest (by simp) l hl'
    · rw [rawLinesAux, if_neg hc] at hl
      refine ih (acc ++ [c]) hrest ?_ l hl
      intro hm
      rcases List.mem_append.1 hm with hm' | hm'
      · exact hacc hm'
      · simp at hm'
        exact hcr hm'.symm

theorem fmSpanAux_decomp : ∀ (ls : List GoStr) (acc fm : GoStr),
    fmSpanAux acc ls = some fm →
    ∃ A C B, ls = A ++ C :: B ∧ (∀ a ∈ A, isDelimLine a = false) ∧
      isDelimLine C = true ∧ fm = acc ++ flatCat A := by
  intro ls
  induction ls with
  | nil => intro acc fm h; rw [fmSpanAux] at h; cases h
  | cons l rest ih =>
    intro acc fm h
    rw [fmSpanAux] at h
    split at h
    · rename_i hd
      refine ⟨[], l, rest, by simp, by simp, hd, ?_⟩
      simp [flatCat]
      exact (Option.some.injEq _ _ ▸ h).symm
    · rename_i hd
      rcases ih (acc ++ l) fm h with ⟨A, C, B, h1, h2, h3, h4⟩
      refine ⟨l :: A, C, B, by rw [h1]; rfl, ?_, h3, ?_⟩
      · intro a ha
        rcases List.mem_cons.1 ha with rfl | ha'
        · exact Bool.of_not_eq_true hd
        · exact h2 a ha'
      · rw [h4, flatCat]
        simp


theorem fmtScanFM_delim : ∀ (xs : List GoStr) (C : GoStr) (tl : List GoStr),
    (∀ x ∈ xs, ¬ trimSpace x = fmDelim) → trimSpace C = fmDelim →
    fmtScanFM (xs ++ C :: tl) = (true, xs ++ C :: tl.map formatLineFix) := by
  intro xs
  induction xs with
  | nil =>
    intro C tl _ hC
    rw [List.nil_append, fmtScanFM, if_pos hC]
    simp
  | cons x t ih =>
    intro C tl hx hC
    rw [List.cons_append, fmtScanFM,
      if_neg (hx x (List.mem_cons_self x t))]
    rw [ih C tl (fun a ha => hx a (List.mem_cons_of_mem x ha)) hC]
    simp

theorem normBLAux_fm : ∀ (xs : List GoStr) (C : GoStr) (tl : List GoStr) (R : List GoStr),
    (∀ x ∈ xs, ¬ trimSpace x = fmDelim) → trimSpace C = fmDelim →
    normBLAux true 0 R (xs ++ C :: tl) = normBLAux false 0 ((R ++ xs) ++ [C]) tl := by
  intro xs
  induction xs with
  | nil =>
    intro C tl R _ hC
    rw [List.nil_append, normBLAux, if_pos hC, List.append_nil]
  | cons x t ih =>
    intro C tl R hx hC
    rw [List.cons_append, normBLAux,
      if_neg (hx x (List.mem_cons_self x t))]
    rw [ih C tl (R ++ [x]) (fun a ha => hx a (List.mem_cons_of_mem x ha)) hC]
    simp

theorem normBLAux_ext : ∀ (tl : List GoStr) (k : Nat) (R : List GoStr),
    ∃ t, normBLAux false k R tl = R ++ t := by
  intro tl
  induction tl with
  | nil => intro k R; exact ⟨[], by rw [normBLAux]; simp⟩
  | cons line rest ih =>
    intro k R
    rw [normBLAux]
    split
    · split
      · rcases ih (k + 1) (R ++ [line]) with ⟨t, ht⟩
        exact ⟨[line] ++ t, by rw [ht]; simp⟩
      · rcases ih (k + 1) R with ⟨t, ht⟩
        exact ⟨t, ht⟩
    · dsimp only
      split
      · split
        · rename_i lastLine heq
          split
          · rcases ih 0 ((R ++ [[]]) ++ [line]) with ⟨t, ht⟩
            exact ⟨[[]] ++ [line] ++ t, by rw [ht]; simp⟩
          · rcases ih 0 (R ++ [line]) with ⟨t, ht⟩
            exact ⟨[line] ++ t, by rw [ht]; simp⟩
        · rcases ih 0 (R ++ [line]) with ⟨t, ht⟩
          exact ⟨[line] ++ t, by rw [ht]; simp⟩
      · rcases ih 0 (R ++ [line]) with ⟨t, ht⟩
        exact ⟨[line] ++ t, by rw [ht]; simp⟩

theorem intercalate_lf_cons (x y : GoStr) (zs : List GoStr) :
    List.intercalate ['\n'] (x :: y :: zs) =
      x ++ '\n' :: List.intercalate ['\n'] (y :: zs) := by
  simp [List.intercalate, List.intersperse]

theorem intercalate_front : ∀ (xs : List GoStr) (C : GoStr) (t : List GoStr),
    List.intercalate ['\n'] (xs ++ C :: t) =
      flatCat (xs.map (fun x => x ++ ['\n'])) ++ List.intercalate ['\n'] (C :: t) := by
  intro xs
  induction xs with
  | nil => intro C t; simp [flatCat]
  | cons a s ih =>
    intro C t
    have hne : s ++ C :: t ≠ [] := by simp
    rcases List.exists_cons_of_ne_nil hne with ⟨y, ys, hy⟩
    rw [List.cons_append, hy, intercalate_lf_cons, ← hy, ih C t]
    simp [flatCat]

theorem intercalate_head (C : GoStr) (t : List GoStr) :
    ∃ Q, List.intercalate ['\n'] (C :: t) = C ++ Q ∧
      (Q = [] ∨ ∃ J, Q = '\n' :: J) := by
  cases t with
  | nil => exact ⟨[], by simp [List.intercalate], Or.inl rfl⟩
  | cons y ys =>
    exact ⟨'\n' :: List.intercalate ['\n'] (y :: ys), by rw [intercalate_lf_cons],
      Or.inr ⟨_, rfl⟩⟩

theorem trimRightCut_lf_append (P C Q : GoStr) (h1 : C ≠ []) (h2 : '\n' ∉ C) :
    trimRightCut (P ++ C ++ Q) ['\n'] = P ++ C ++ trimRightCut Q ['\n'] := by
  have hrev : C.reverse ≠ [] := by simpa using h1
  rcases List.exists_cons_of_ne_nil hrev with ⟨d, ds, hd⟩
  have hdC : d ∈ C := by
    rw [← List.mem_reverse, hd]
    exact List.mem_cons_self d ds
  have hdn : ¬ inCutset ['\n'] d = true := by
    simp only [inCutset, List.contains_cons, List.contains_nil, Bool.or_false]
    simp only [beq_iff_eq]
    intro h
    exact absurd (h ▸ hdC) h2
  have key : List.dropWhile (inCutset ['\n']) (Q.reverse ++ (C.reverse ++ P.reverse))
      = List.dropWhile (inCutset ['\n']) Q.reverse ++ (C.reverse ++ P.reverse) := by
    rw [List.dropWhile_append]
    split
    · rename_i hemp
      simp only [List.isEmpty_iff] at hemp
      rw [hemp, List.nil_append, hd, List.cons_append,
        List.dropWhile_cons_of_neg hdn, ← List.cons_append, ← hd]
    · rfl
  rw [trimRightCut, trimRightCut, List.reverse_append, List.reverse_append,
    key]
  simp [List.reverse_append]

theorem trimRightCut_lf_shape (Q : GoStr) (h : Q = [] ∨ ∃ J, Q = '\n' :: J) :
    ∃ T, trimRightCut Q ['\n'] ++ ['\n'] = '\n' :: T := by
  rcases h with rfl | ⟨J, rfl⟩
  · exact ⟨[], by simp [trimRightCut]⟩
  · rw [trimRightCut, List.reverse_cons, List.dropWhile_append]
    split
    · refine ⟨[], ?_⟩
      rw [List.dropWhile_cons_of_pos (by simp [inCutset])]
      simp
    · refine ⟨(List.dropWhile (inCutset ['\n']) J.reverse).reverse ++ ['\n'], ?_⟩
      simp

theorem fmSpanAux_rebuilt : ∀ (as : List GoStr) (acc C T : GoStr),
    (∀ x ∈ as, '\n' ∉ x ∧ '\r' ∉ x ∧ ¬ trimSpace x = fmDelim) →
    '\n' ∉ C → '\r' ∉ C → trimSpace C = fmDelim →
    fmSpanAux acc (rawLinesAux []
        (flatCat (as.map (fun x => x ++ ['\n'])) ++ (C ++ '\n' :: T))) =
      some (acc ++ flatCat (as.map (fun x => x ++ ['\n']))) := by
  intro as
  induction as with
  | nil =>
    intro acc C T _ hC1 hC2 hC3
    simp only [List.map_nil, flatCat, List.nil_append]
    rw [rawLinesAux_append C hC1 [] ('\n' :: T), List.nil_append, rawLinesAux_lf]
    rw [fmSpanAux]
    rw [if_pos (show isDelimLine (C ++ ['\n']) = true from by
      rw [isDelimLine, lineText_concat C hC2, hC3]
      simp)]
    simp
  | cons x xs ih =>
    intro acc C T hx hC1 hC2 hC3
    have hx1 := hx x (List.mem_cons_self x xs)
    simp only [List.map_cons, flatCat]
    rw [List.append_assoc, List.append_assoc, List.singleton_append]
    rw [rawLinesAux_append x hx1.1 [] _, List.nil_append, rawLinesAux_lf]
    rw [fmSpanAux]
    rw [if_neg (show ¬ isDelimLine (x ++ ['\n']) = true from by
      rw [isDelimLine, lineText_concat x hx1.2.1]
      simp [hx1.2.2])]
    rw [ih (acc ++ (x ++ ['\n'])) C T (fun a ha => hx a (List.mem_cons_of_mem x ha))
      hC1 hC2 hC3]
    simp


theorem fmSpan_cons_delim (F R : GoStr) (h1 : '\n' ∉ F)
    (hd : isDelimLine (F ++ ['\n']) = true) :
    fmSpan (F ++ '\n' :: R) = fmSpanAux [] (rawLinesAux [] R) := by
  rw [fmSpan, rawLines, rawLinesAux_append F h1 [] _, List.nil_append, rawLinesAux_lf]
  show (if isDelimLine (F ++ ['\n']) = true then
      fmSpanAux [] (rawLinesAux [] R) else none) = _
  rw [if_pos hd]


/-- C6: the claim says any frontmatter block closed by a later `---` line
is preserved byte-for-byte by the formatter.  A CRLF line ending inside
the frontmatter refutes it: the line scanner strips the `\r`, and the
frontmatter lines are re-emitted without it. -/
theorem C6_counterexample :
    fmSpan ("---\na\r\n---\nb".data) = some ("a\r\n".data) ∧
      fmSpan (Format ("---\na\r\n---\nb".data)) = some ("a\n".data) ∧
      ¬ (("a\n".data : GoStr) = ("a\r\n".data)) := by
  refine ⟨by decide, by decide, by decide⟩

/-- C6 (amended): on carriage-return-free input, the formatter preserves
the frontmatter byte range verbatim: if the bytes strictly between the
opening `---` line and the first closing `---` line are `fm`, the output
has a frontmatter block with exactly the same bytes. -/
theorem C6_frontmatter (content fm : GoStr) (hcr : '\r' ∉ content)
    (h : fmSpan content = some fm) :
    fmSpan (Format content) = some fm := by
  rw [fmSpan] at h
  split at h
  · cases h
  rename_i F Rs hraw
  split at h
  swap
  · cases h
  rename_i hF
  rcases fmSpanAux_decomp Rs [] fm h with ⟨A, C, B, hRs, hA, hCdel, hfm⟩
  rw [List.nil_append] at hfm
  have hwf : rawWF ((F :: A) ++ C :: B) := by
    have := rawLinesAux_rawWF content [] (by simp)
    rw [show rawLinesAux [] content = rawLines content from rfl, hraw, hRs] at this
    simpa using this
  have hcrall : ∀ l ∈ (F :: A) ++ C :: B, '\r' ∉ l := by
    intro l hl
    refine rawLinesAux_crfree content [] hcr (by simp) l ?_
    rw [show rawLinesAux [] content = rawLines content from rfl, hraw, hRs]
    simpa using hl
  have hfront := rawWF_front C B hwf
  have hmid : '\n' ∉ C.dropLast := rawWF_mid hwf
  have hFfacts := hfront F (List.mem_cons_self F A)
  have hFeq := raw_line_eq hFfacts.2 (hcrall F (by simp)) hFfacts.1
  have hAeq : ∀ a ∈ A, a = lineText a ++ ['\n'] ∧ '\n' ∉ lineText a ∧ '\r' ∉ lineText a := by
    intro a ha
    have hf := hfront a (List.mem_cons_of_mem F ha)
    exact raw_line_eq hf.2 (hcrall a (by simp [ha])) hf.1
  have hCcr : '\r' ∉ C := hcrall C (by simp)
  have hCp : trimSpace (lineText C) = fmDelim := by
    simpa [isDelimLine] using hCdel
  have hFp : trimSpace (lineText F) = fmDelim := by
    simpa [isDelimLine] using hF
  have hCnl : '\n' ∉ lineText C := lineText_no_lf hmid
  have hCcr2 : '\r' ∉ lineText C := fun hc => hCcr (lineText_sub hc)
  have hCne : lineText C ≠ [] := by
    intro he
    rw [he] at hCp
    simp [trimSpace, fmDelim] at hCp
  have hA2 : ∀ x ∈ A.map lineText, ¬ trimSpace x = fmDelim := by
    intro x hx
    rcases List.mem_map.1 hx with ⟨a, ha, rfl⟩
    have := hA a ha
    simp [isDelimLine] at this
    exact this
  have hA3 : ∀ x ∈ A.map lineText,
      '\n' ∉ x ∧ '\r' ∉ x ∧ ¬ trimSpace x = fmDelim := by
    intro x hx
    rcases List.mem_map.1 hx with ⟨a, ha, rfl⟩
    exact ⟨(hAeq a ha).2.1, (hAeq a ha).2.2, hA2 (lineText a) (List.mem_map_of_mem lineText ha)⟩
  have hAflat : flatCat ((A.map lineText).map (fun x => x ++ ['\n'])) = fm := by
    rw [hfm, List.map_map]
    congr 1
    have : A.map (fun a => lineText a ++ ['\n']) = A.map id :=
      List.map_congr_left (fun a ha => ((hAeq a ha).1).symm)
    rw [show ((fun x => x ++ ['\n']) ∘ lineText) = fun a => lineText a ++ ['\n'] from rfl]
    rw [this, List.map_id]
  have hscan : scanLines content =
      lineText F :: (A.map lineText ++ lineText C :: B.map lineText) := by
    have := scanLinesAux_eq content [] (by simp)
    rw [show scanLinesAux [] content = scanLines content from rfl,
      show rawLinesAux [] content = rawLines content from rfl, hraw, hRs] at this
    simpa using this
  have h2 : formatScan (scanLines content) =
      (true, lineText F :: (A.map lineText ++
        lineText C :: (B.map lineText).map formatLineFix)) := by
    rw [hscan]
    rw [formatScan]
    rw [if_pos hFp]
    rw [fmtScanFM_delim (A.map lineText) (lineText C) (B.map lineText) hA2 hCp]
  rcases normBLAux_ext ((B.map lineText).map formatLineFix) 0
      (([(lineText F)] ++ A.map lineText) ++ [lineText C]) with ⟨t, ht⟩
  have h3 : normalizeBlankLines (lineText F :: (A.map lineText ++
      lineText C :: (B.map lineText).map formatLineFix)) true =
      ((lineText F :: A.map lineText) ++ [lineText C]) ++ t := by
    rw [normalizeBlankLines]
    rw [if_pos hFp]
    rw [normBLAux_fm (A.map lineText) (lineText C) _ [lineText F] hA2 hCp]
    rw [ht]
    simp
  rcases intercalate_head (lineText C) t with ⟨Q, hQ, hQshape⟩
  rcases trimRightCut_lf_shape Q hQshape with ⟨T, hT⟩
  have h4 : Format content = lineText F ++ '\n' ::
      (flatCat ((A.map lineText).map (fun x => x ++ ['\n'])) ++
        (lineText C ++ '\n' :: T)) := by
    rw [Format]
    rw [h2]
    simp only
    rw [h3]
    rw [show ((lineText F :: A.map lineText) ++ [lineText C]) ++ t
        = (lineText F :: A.map lineText) ++ lineText C :: t from by simp]
    rw [intercalate_front (lineText F :: A.map lineText) (lineText C) t]
    rw [hQ]
    rw [show flatCat ((lineText F :: A.map lineText).map (fun x => x ++ ['\n']))
        = (lineText F ++ ['\n']) ++
          flatCat ((A.map lineText).map (fun x => x ++ ['\n'])) from by
      simp [flatCat]]
    rw [show (lineText F ++ ['\n']) ++
          flatCat ((A.map lineText).map (fun x => x ++ ['\n'])) ++ (lineText C ++ Q)
        = ((lineText F ++ ['\n']) ++
            flatCat ((A.map lineText).map (fun x => x ++ ['\n']))) ++
          lineText C ++ Q from by simp]
    rw [trimRightCut_lf_append _ _ _ hCne hCnl]
    rw [List.append_assoc, List.append_assoc, hT]
    simp
  rw [h4]
  have hFnl : '\n' ∉ lineText F := hFeq.2.1
  have hFcr : '\r' ∉ lineText F := hFeq.2.2
  rw [fmSpan_cons_delim _ _ hFnl (show isDelimLine (lineText F ++ ['\n']) = true from by
    rw [isDelimLine, lineText_concat _ hFcr, hFp]
    simp)]
  rw [fmSpanAux_rebuilt (A.map lineText) [] (lineText C) T hA3 hCnl hCcr2 hCp]
  rw [List.nil_append, hAflat]

/-- C6 witness: the amended theorem applied to a concrete note. -/
theorem C6_frontmatter_witness :
    ('\r' ∉ ("---\ntitle: x\n---\nbody".data : GoStr)) ∧
      fmSpan ("---\ntitle: x\n---\nbody".data) = some ("title: x\n".data) ∧
      fmSpan (Format ("---\ntitle: x\n---\nbody".data)) = some ("title: x\n".data) :=
  ⟨by decide, by decide,
    C6_frontmatter ("---\ntitle: x\n---\nbody".data) ("title: x\n".data)
      (by decide) (by decide)⟩

/-! ### Idempotence analysis of the formatter (C2) -/

/-! Generic one-sided trimming toolkit. -/

def rtrim (p : Char → Bool) (s : GoStr) : GoStr := (s.reverse.dropWhile p).reverse

theorem trimRightCut_eq_rtrim (s cut : GoStr) : trimRightCut s cut = rtrim (inCutset cut) s := rfl

theorem trimSpace_eq_rtrim (s : GoStr) :
    trimSpace s = rtrim isGoSpace (s.dropWhile isGoSpace) := rfl

theorem dropWhile_sub {p q : Char → Bool} (hpq : ∀ c, q c = true → p c = true) :
    ∀ l : GoStr, List.dropWhile p (List.dropWhile q l) = List.dropWhile p l := by
  intro l
  induction l with
  | nil => rfl
  | cons c t ih =>
    by_cases hq : q c = true
    · rw [List.dropWhile_cons_of_pos hq, List.dropWhile_cons_of_pos (hpq c hq), ih]
    · rw [List.dropWhile_cons_of_neg hq]

theorem rtrim_rtrim {p q : Char → Bool} (hpq : ∀ c, q c = true → p c = true) (s : GoStr) :
    rtrim p (rtrim q s) = rtrim p s := by
  rw [rtrim, rtrim, rtrim, List.reverse_reverse, dropWhile_sub hpq]

theorem rtrim_cons_ne (p : Char → Bool) (c : Char) (t : GoStr) (h : rtrim p t ≠ []) :
    rtrim p (c :: t) = c :: rtrim p t := by
  rw [rtrim, List.reverse_cons, List.dropWhile_append]
  split
  · rename_i hemp
    simp only [List.isEmpty_iff] at hemp
    exact absurd (by rw [rtrim, hemp, List.reverse_nil]) h
  · simp [rtrim]

theorem rtrim_cons_nil (p : Char → Bool) (c : Char) (t : GoStr) (h : rtrim p t = []) :
    rtrim p (c :: t) = if p c then [] else [c] := by
  have hemp : List.dropWhile p t.reverse = [] := by
    have := congrArg List.reverse h
    rwa [rtrim, List.reverse_reverse, List.reverse_nil] at this
  rw [rtrim, List.reverse_cons, List.dropWhile_append, hemp]
  simp only [List.isEmpty_nil, if_true, List.dropWhile_cons, List.dropWhile_nil]
  split
  · simp
  · simp

theorem dropWhile_rtrim_comm (p : Char → Bool) (s : GoStr) :
    List.dropWhile p (rtrim p s) = rtrim p (List.dropWhile p s) := by
  induction s with
  | nil => rfl
  | cons c t ih =>
    by_cases hrt : rtrim p t = []
    · rw [rtrim_cons_nil p c t hrt]
      by_cases hc : p c = true
      · rw [if_pos hc, List.dropWhile_cons_of_pos hc, ← ih, hrt]
      · rw [if_neg hc, List.dropWhile_cons_of_neg hc, List.dropWhile_cons_of_neg hc,
          rtrim_cons_nil p c t hrt, if_neg hc]
    · rw [rtrim_cons_ne p c t hrt]
      by_cases hc : p c = true
      · rw [List.dropWhile_cons_of_pos hc, List.dropWhile_cons_of_pos hc, ih]
      · rw [List.dropWhile_cons_of_neg hc, List.dropWhile_cons_of_neg hc,
          rtrim_cons_ne p c t hrt]

theorem trimSpace_comm (s : GoStr) :
    trimSpace s = List.dropWhile isGoSpace (rtrim isGoSpace s) := by
  rw [trimSpace_eq_rtrim, dropWhile_rtrim_comm]

theorem rtrim_idem (p : Char → Bool) (s : GoStr) : rtrim p (rtrim p s) = rtrim p s :=
  rtrim_rtrim (fun _ h => h) s

theorem dropWhile_idem (p : Char → Bool) (s : GoStr) :
    List.dropWhile p (List.dropWhile p s) = List.dropWhile p s :=
  dropWhile_sub (fun _ h => h) s

theorem trimSpace_idem (s : GoStr) : trimSpace (trimSpace s) = trimSpace s := by
  rw [show trimSpace (trimSpace s) = rtrim isGoSpace
      (List.dropWhile isGoSpace (trimSpace s)) from rfl]
  rw [trimSpace_comm s, dropWhile_idem, ← dropWhile_rtrim_comm, rtrim_idem]

theorem trimSpace_rtrim (q : Char → Bool) (hq : ∀ c, q c = true → isGoSpace c = true)
    (s : GoStr) : trimSpace (rtrim q s) = trimSpace s := by
  rw [trimSpace_comm, rtrim_rtrim hq, ← trimSpace_comm]

theorem rtrim_noop {p : Char → Bool} {s : GoStr} {d : Char}
    (h1 : s.getLast? = some d) (h2 : p d = false) : rtrim p s = s := by
  have h3 := List.dropLast_append_getLast? d (Option.mem_def.mpr h1)
  rw [rtrim, ← h3, List.reverse_append]
  simp only [List.reverse_cons, List.reverse_nil, List.nil_append, List.singleton_append]
  rw [List.dropWhile_cons_of_neg (by simp [h2])]
  simp

theorem rtrim_last {p : Char → Bool} {s : GoStr} (h : rtrim p s ≠ []) :
    ∃ d, (rtrim p s).getLast? = some d ∧ p d = false := by
  have hne : List.dropWhile p s.reverse ≠ [] := by
    intro hc
    rw [rtrim, hc] at h
    simp at h
  rcases List.exists_cons_of_ne_nil hne with ⟨d, ds, hd⟩
  refine ⟨d, ?_, ?_⟩
  · rw [rtrim, hd, List.reverse_cons]
    simp
  · have := List.head?_dropWhile_not p s.reverse
    rw [hd] at this
    simpa using this

theorem dropWhile_head {p : Char → Bool} {s : GoStr} (h : List.dropWhile p s ≠ []) :
    ∃ d t, List.dropWhile p s = d :: t ∧ p d = false := by
  rcases List.exists_cons_of_ne_nil h with ⟨d, t, hd⟩
  refine ⟨d, t, hd, ?_⟩
  have := List.head?_dropWhile_not p s
  rw [hd] at this
  simpa using this

theorem trimSpace_nil_iff (s : GoStr) :
    trimSpace s = [] ↔ ∀ c ∈ s, isGoSpace c = true := by
  constructor
  · intro h c hc
    by_contra hcs
    have hsplit := List.takeWhile_append_dropWhile (p := isGoSpace) (l := s)
    have hdw : List.dropWhile isGoSpace s ≠ [] := by
      intro hnil
      have : c ∈ List.takeWhile isGoSpace s := by
        rw [← hsplit] at hc
        rcases List.mem_append.1 hc with h1 | h1
        · exact h1
        · rw [hnil] at h1; simp at h1
      exact hcs (List.mem_takeWhile_imp this)
    rcases dropWhile_head hdw with ⟨d, t, hd, hpd⟩
    rw [trimSpace_eq_rtrim, hd] at h
    have : rtrim isGoSpace (d :: t) ≠ [] := by
      by_cases hrt : rtrim isGoSpace t = []
      · rw [rtrim_cons_nil _ _ _ hrt, if_neg (by simp [hpd])]
        simp
      · rw [rtrim_cons_ne _ _ _ hrt]
        simp
    exact this h
  · intro h
    have h1 : List.dropWhile isGoSpace s = [] := List.dropWhile_eq_nil_iff.mpr h
    rw [trimSpace_eq_rtrim, h1]
    rfl

theorem trimSpace_no_ws {s : GoStr} (h : ∀ c ∈ s, isGoSpace c = false) :
    trimSpace s = s := by
  have h1 : List.dropWhile isGoSpace s = s := by
    cases s with
    | nil => rfl
    | cons c t => exact List.dropWhile_cons_of_neg (by simp [h c (List.mem_cons_self c t)])
  rw [trimSpace_eq_rtrim, h1]
  cases hs : s.getLast? with
  | none =>
    rw [List.getLast?_eq_none_iff] at hs
    subst hs
    rfl
  | some d => exact rtrim_noop hs (h d (getLast?_mem hs))


/-! Clean lines: no tab, vertical tab, form feed, carriage return or
newline; the only whitespace is the plain space. -/

def cleanLine (l : GoStr) : Prop :=
  ∀ c ∈ l, c ≠ '\t' ∧ c ≠ '\x0b' ∧ c ≠ '\x0c' ∧ c ≠ '\r' ∧ c ≠ '\n'

theorem cleanLine_sub {a b : GoStr} (hsub : ∀ c ∈ b, c ∈ a) (h : cleanLine a) :
    cleanLine b := fun c hc => h c (hsub c hc)

theorem clean_not_space {l : GoStr} (h : cleanLine l) {c : Char} (hc : c ∈ l)
    (hne : c ≠ ' ') : isGoSpace c = false := by
  rcases h c hc with ⟨h1, h2, h3, h4, h5⟩
  simp [isGoSpace, hne, h1, h2, h3, h4, h5]

theorem rtrim_subset (p : Char → Bool) (s : GoStr) : ∀ c ∈ rtrim p s, c ∈ s := by
  intro c hc
  rw [rtrim, List.mem_reverse] at hc
  have := (List.dropWhile_sublist (l := s.reverse) p).subset hc
  rwa [List.mem_reverse] at this

theorem trimSpace_subset (s : GoStr) : ∀ c ∈ trimSpace s, c ∈ s := by
  intro c hc
  rw [trimSpace_eq_rtrim] at hc
  exact (List.dropWhile_sublist isGoSpace).subset (rtrim_subset _ _ c hc)

theorem trimSpace_cons_space {c : Char} (h : isGoSpace c = true) (s : GoStr) :
    trimSpace (c :: s) = trimSpace s := by
  rw [trimSpace_eq_rtrim, trimSpace_eq_rtrim, List.dropWhile_cons_of_pos h]

theorem trimSpace_last {s : GoStr} (h : trimSpace s ≠ []) :
    ∃ d, (trimSpace s).getLast? = some d ∧ isGoSpace d = false := by
  rw [trimSpace_eq_rtrim] at h ⊢
  exact rtrim_last h

theorem takeWhile_replicate_append {p : Char → Bool} {c : Char} (hp : p c = true)
    (n : Nat) (rest : GoStr) :
    List.takeWhile p (List.replicate n c ++ rest) =
      List.replicate n c ++ List.takeWhile p rest := by
  induction n with
  | zero => simp
  | succ m ih =>
    rw [List.replicate_succ, List.cons_append, List.takeWhile_cons_of_pos hp, ih,
      List.cons_append]

theorem replicate_getLast? {c : Char} {n : Nat} (h : 1 ≤ n) :
    (List.replicate n c).getLast? = some c := by
  rcases Nat.exists_eq_add_of_le h with ⟨m, hm⟩
  subst hm
  rw [Nat.add_comm, List.replicate_succ']
  simp

theorem dropWhile_replicate_cons {c : Char} {n : Nat} (h : 1 ≤ n) (rest : GoStr)
    (p : Char → Bool) (hp : p c = false) :
    List.dropWhile p (List.replicate n c ++ rest) = List.replicate n c ++ rest := by
  rcases Nat.exists_eq_add_of_le h with ⟨m, hm⟩
  subst hm
  rw [Nat.add_comm, List.replicate_succ, List.cons_append,
    List.dropWhile_cons_of_neg (by simp [hp])]

theorem isHeading_replicate_cons {n : Nat} (h : 1 ≤ n) (rest : GoStr) :
    isHeading (List.replicate n '#' ++ rest) = true := by
  rw [isHeading, dropWhile_replicate_cons h rest _ (by decide)]
  rcases Nat.exists_eq_add_of_le h with ⟨m, hm⟩
  subst hm
  rw [Nat.add_comm, List.replicate_succ, List.cons_append]
  simp [hasPrefix, List.isPrefixOf]

/-- The core of the heading normalizer analysis: once a clean heading line
has been normalized, normalizing it again changes nothing. -/
theorem nh_fix {y : GoStr} (hclean : cleanLine y)
    (hy : rtrim (inCutset [' ', '\t']) y = y) (hh : isHeading y = true) :
    rtrim (inCutset [' ', '\t']) (normalizeHeading y) = normalizeHeading y ∧
      isHeading (normalizeHeading y) = true ∧
      normalizeHeading (normalizeHeading y) = normalizeHeading y := by
  by_cases hcond : 6 < ((y.dropWhile (fun c => c = ' ')).takeWhile (fun c => c = '#')).length ∨
      ((y.dropWhile (fun c => c = ' ')).takeWhile (fun c => c = '#')).length = 0
  · have hz : normalizeHeading y = y := by
      rw [normalizeHeading]
      rw [if_pos hcond]
    rw [hz]
    exact ⟨hy, hh, by rw [normalizeHeading, if_pos hcond]⟩
  · have hlv1 : 1 ≤ ((y.dropWhile (fun c => c = ' ')).takeWhile (fun c => c = '#')).length := by
      rcases Nat.eq_zero_or_pos ((y.dropWhile (fun c => c = ' ')).takeWhile
          (fun c => c = '#')).length with h0 | h1
      · exact absurd (Or.inr h0) hcond
      · exact h1
    have hlv6 : ((y.dropWhile (fun c => c = ' ')).takeWhile (fun c => c = '#')).length ≤ 6 := by
      by_contra hgt
      exact hcond (Or.inl (by omega))
    have hz : normalizeHeading y =
        (if trimSpace (trimRightCut (trimSpace ((y.dropWhile (fun c => c = ' ')).drop
            ((y.dropWhile (fun c => c = ' ')).takeWhile (fun c => c = '#')).length))
            ['#', ' ']) = [] then
          List.replicate ((y.dropWhile (fun c => c = ' ')).takeWhile
            (fun c => c = '#')).length '#'
        else
          List.replicate ((y.dropWhile (fun c => c = ' ')).takeWhile
              (fun c => c = '#')).length '#' ++ ' ' ::
            trimSpace (trimRightCut (trimSpace ((y.dropWhile (fun c => c = ' ')).drop
              ((y.dropWhile (fun c => c = ' ')).takeWhile (fun c => c = '#')).length))
              ['#', ' '])) := by
      rw [normalizeHeading]
      rw [if_neg hcond]
    set T := y.dropWhile (fun c => c = ' ') with hT
    set L := (T.takeWhile (fun c => c = '#')).length with hL
    set t1 := trimSpace (T.drop L) with ht1
    set t2 := trimRightCut t1 ['#', ' '] with ht2
    set t3 := trimSpace t2 with ht3def
    have ht3s : trimSpace t3 = t3 := by rw [ht3def, trimSpace_idem]
    have hcut : inCutset [' ', '\t'] '#' = false := by decide
    by_cases ht3 : t3 = []
    · rw [hz, if_pos ht3]
      have hrep1 : rtrim (inCutset [' ', '\t']) (List.replicate L '#') =
          List.replicate L '#' := rtrim_noop (replicate_getLast? hlv1) hcut
      have hdw : (List.replicate L '#').dropWhile (fun c => c = ' ') =
          List.replicate L '#' := by
        have := dropWhile_replicate_cons (c := '#') hlv1 [] (fun c => c = ' ') (by decide)
        rwa [List.append_nil] at this
      have htw : (List.replicate L '#').takeWhile (fun c => c = '#') =
          List.replicate L '#' := by
        have := takeWhile_replicate_append (c := '#') (p := fun c => c = '#') (by decide) L []
        rwa [List.append_nil, List.takeWhile_nil, List.append_nil] at this
      refine ⟨hrep1, ?_, ?_⟩
      · have := isHeading_replicate_cons hlv1 []
        rwa [List.append_nil] at this
      · simp only [normalizeHeading]
        rw [hdw, htw, List.length_replicate]
        rw [if_neg (by push_neg; omega)]
        rw [show (List.replicate L '#').drop L = [] from
          List.drop_eq_nil_of_le (by rw [List.length_replicate])]
        rfl
    · have ht2ne : t2 ≠ [] := by
        intro h0
        rw [ht3def, h0] at ht3
        exact ht3 rfl
      have hclean2 : cleanLine t2 := by
        refine cleanLine_sub (fun c hc => ?_) hclean
        rw [ht2, trimRightCut_eq_rtrim] at hc
        have h1 := rtrim_subset _ _ c hc
        rw [ht1] at h1
        have h2 := trimSpace_subset _ c h1
        have h3 := List.drop_subset _ _ h2
        rw [hT] at h3
        exact (List.dropWhile_sublist (fun c => c = ' ')).subset h3
      rcases rtrim_last (p := inCutset ['#', ' ']) (s := t1)
          (by rw [← trimRightCut_eq_rtrim, ← ht2]; exact ht2ne) with ⟨e, he1, he2⟩
      rw [← trimRightCut_eq_rtrim, ← ht2] at he1
      have hene : e ≠ '#' ∧ e ≠ ' ' := by
        constructor <;> (intro h0; rw [h0] at he2; simp [inCutset] at he2)
      have hegs : isGoSpace e = false :=
        clean_not_space hclean2 (getLast?_mem he1) hene.2
      have hrt2 : rtrim isGoSpace t2 = t2 := rtrim_noop he1 hegs
      have ht3eq : t3 = List.dropWhile isGoSpace t2 := by
        rw [ht3def, trimSpace_comm, hrt2]
      have hlast3 : t3.getLast? = some e := by
        rw [ht3eq]
        have hsplit := List.takeWhile_append_dropWhile (p := isGoSpace) (l := t2)
        have := @List.getLast?_append_of_ne_nil _ (List.takeWhile isGoSpace t2)
          (List.dropWhile isGoSpace t2) (by rw [← ht3eq]; exact ht3)
        rw [hsplit] at this
        rw [← this, he1]
      have hecut : inCutset [' ', '\t'] e = false := by
        have h1 : e ≠ '\t' := by
          intro h0
          rw [h0] at hegs
          simp [isGoSpace] at hegs
        simp [inCutset, hene.2, h1]
      have hzlast : (List.replicate L '#' ++ ' ' :: t3).getLast? = some e := by
        rw [@List.getLast?_append_of_ne_nil _ _ (' ' :: t3) (by simp)]
        rw [show (' ' :: t3) = [' '] ++ t3 from rfl]
        rw [@List.getLast?_append_of_ne_nil _ _ t3 ht3]
        exact hlast3
      rw [hz, if_neg ht3]
      have hdwz : (List.replicate L '#' ++ ' ' :: t3).dropWhile (fun c => c = ' ') =
          List.replicate L '#' ++ ' ' :: t3 :=
        dropWhile_replicate_cons hlv1 _ _ (by decide)
      have htwz : ((List.replicate L '#' ++ ' ' :: t3).takeWhile
          (fun c => c = '#')).length = L := by
        rw [takeWhile_replicate_append (by decide)]
        rw [List.takeWhile_cons_of_neg (by decide)]
        simp
      have hdropz : (List.replicate L '#' ++ ' ' :: t3).drop L = ' ' :: t3 := by
        have h0 := List.drop_left (List.replicate L '#') (' ' :: t3)
        rwa [List.length_replicate] at h0
      refine ⟨rtrim_noop hzlast hecut, isHeading_replicate_cons hlv1 _, ?_⟩
      simp only [normalizeHeading]
      rw [hdwz, htwz]
      rw [if_neg (by push_neg; omega)]
      rw [hdropz, trimSpace_cons_space (c := ' ') (by decide), ht3s]
      rw [show trimRightCut t3 ['#', ' '] = t3 from by
        rw [trimRightCut_eq_rtrim]
        exact rtrim_noop hlast3 (by simp [inCutset, hene.1, hene.2])]
      rw [ht3s, if_neg ht3]


theorem trimRightCut_clean_sub {l : GoStr} (hclean : cleanLine l) :
    cleanLine (trimRightCut l [' ', '\t']) :=
  cleanLine_sub (fun c hc => by
    rw [trimRightCut_eq_rtrim] at hc
    exact rtrim_subset _ _ c hc) hclean

theorem flf_idem {l : GoStr} (hclean : cleanLine l) :
    formatLineFix (formatLineFix l) = formatLineFix l := by
  have hy2 : rtrim (inCutset [' ', '\t']) (trimRightCut l [' ', '\t']) =
      trimRightCut l [' ', '\t'] := by
    rw [trimRightCut_eq_rtrim, rtrim_idem, ← trimRightCut_eq_rtrim]
  by_cases hh : isHeading (trimRightCut l [' ', '\t']) = true
  · have hfix := nh_fix (trimRightCut_clean_sub hclean) hy2 hh
    have h1 : formatLineFix l = normalizeHeading (trimRightCut l [' ', '\t']) := by
      simp only [formatLineFix]
      rw [if_pos hh]
    rw [h1]
    simp only [formatLineFix]
    rw [show trimRightCut (normalizeHeading (trimRightCut l [' ', '\t'])) [' ', '\t'] =
        normalizeHeading (trimRightCut l [' ', '\t']) from by
      rw [trimRightCut_eq_rtrim]
      exact hfix.1]
    rw [if_pos hfix.2.1, hfix.2.2]
  · have h1 : formatLineFix l = trimRightCut l [' ', '\t'] := by
      simp only [formatLineFix]
      rw [if_neg hh]
    rw [h1]
    simp only [formatLineFix]
    rw [show trimRightCut (trimRightCut l [' ', '\t']) [' ', '\t'] =
        trimRightCut l [' ', '\t'] from by
      rw [trimRightCut_eq_rtrim (trimRightCut l [' ', '\t'])]
      exact hy2]
    rw [if_neg hh]

theorem nh_mem {y : GoStr} {c : Char} (h : c ∈ normalizeHeading y) :
    c ∈ y ∨ c = '#' ∨ c = ' ' := by
  simp only [normalizeHeading] at h
  split at h
  · exact Or.inl h
  · split at h
    · exact Or.inr (Or.inl (List.eq_of_mem_replicate h))
    · rcases List.mem_append.1 h with h1 | h1
      · exact Or.inr (Or.inl (List.eq_of_mem_replicate h1))
      · rcases List.mem_cons.1 h1 with rfl | h2
        · exact Or.inr (Or.inr rfl)
        · refine Or.inl ?_
          have h3 := trimSpace_subset _ c h2
          rw [trimRightCut_eq_rtrim] at h3
          have h4 := rtrim_subset _ _ c h3
          have h5 := trimSpace_subset _ c h4
          have h6 := List.drop_subset _ _ h5
          exact (List.dropWhile_sublist (fun c => c = ' ')).subset h6

theorem flf_mem {l : GoStr} {c : Char} (h : c ∈ formatLineFix l) :
    c ∈ l ∨ c = '#' ∨ c = ' ' := by
  have hsub : ∀ d, d ∈ trimRightCut l [' ', '\t'] → d ∈ l := by
    intro d hd
    rw [trimRightCut_eq_rtrim] at hd
    exact rtrim_subset _ _ d hd
  simp only [formatLineFix] at h
  split at h
  · rcases nh_mem h with h1 | h1
    · exact Or.inl (hsub c h1)
    · exact Or.inr h1
  · exact Or.inl (hsub c h)

theorem flf_clean {l : GoStr} (h : cleanLine l) : cleanLine (formatLineFix l) := by
  intro c hc
  rcases flf_mem hc with h1 | rfl | rfl
  · exact h c h1
  · refine ⟨?_, ?_, ?_, ?_, ?_⟩ <;> decide
  · refine ⟨?_, ?_, ?_, ?_, ?_⟩ <;> decide

theorem isHeading_hash_mem {y : GoStr} (h : isHeading y = true) : '#' ∈ y := by
  rw [isHeading] at h
  have hpre : (['#'] : GoStr).isPrefixOf (y.dropWhile (fun c => c = ' ')) = true := h
  rw [List.isPrefixOf_iff_prefix] at hpre
  rcases hpre with ⟨t, ht⟩
  have : '#' ∈ y.dropWhile (fun c => c = ' ') := by
    rw [← ht]
    simp
  exact (List.dropWhile_sublist (fun c => c = ' ')).subset this

theorem nh_hash_mem {y : GoStr} (h : isHeading y = true) : '#' ∈ normalizeHeading y := by
  simp only [normalizeHeading]
  split
  · exact isHeading_hash_mem h
  · rename_i hcond
    have hlv1 : 1 ≤ ((y.dropWhile (fun c => c = ' ')).takeWhile (fun c => c = '#')).length := by
      rcases Nat.eq_zero_or_pos ((y.dropWhile (fun c => c = ' ')).takeWhile
          (fun c => c = '#')).length with h0 | h1
      · exact absurd (Or.inr h0) hcond
      · exact h1
    have hm : '#' ∈ List.replicate ((y.dropWhile (fun c => c = ' ')).takeWhile
        (fun c => c = '#')).length '#' := by
      rw [List.mem_replicate]
      exact ⟨by omega, rfl⟩
    split
    · exact hm
    · exact List.mem_append_left _ hm

theorem flf_blank {l : GoStr} (hclean : cleanLine l)
    (h : trimSpace (formatLineFix l) = []) : formatLineFix l = [] := by
  have hall := (trimSpace_nil_iff _).1 h
  by_cases hh : isHeading (trimRightCut l [' ', '\t']) = true
  · exfalso
    have h1 : formatLineFix l = normalizeHeading (trimRightCut l [' ', '\t']) := by
      simp only [formatLineFix]
      rw [if_pos hh]
    have h2 : '#' ∈ formatLineFix l := h1 ▸ nh_hash_mem hh
    have := hall '#' h2
    simp [isGoSpace] at this
  · have h1 : formatLineFix l = trimRightCut l [' ', '\t'] := by
      simp only [formatLineFix]
      rw [if_neg hh]
    by_contra hne
    rw [h1] at hne hall
    rw [trimRightCut_eq_rtrim] at hne hall
    rcases rtrim_last hne with ⟨d, hd1, hd2⟩
    have hdm : d ∈ rtrim (inCutset [' ', '\t']) l := getLast?_mem hd1
    have hdl : d ∈ l := rtrim_subset _ _ d hdm
    have hdsp : isGoSpace d = true := hall d hdm
    have hdne : d ≠ ' ' := by
      intro h0
      rw [h0] at hd2
      simp [inCutset] at hd2
    rw [clean_not_space hclean hdl hdne] at hdsp
    cases hdsp

theorem hash_cons_ne_delim (r : GoStr) : ¬ ('#' :: r) = fmDelim := by
  intro h
  rw [fmDelim] at h
  cases h

theorem replicate_hash_ne_delim {L : Nat} (h : 1 ≤ L) (r : GoStr) :
    ¬ (List.replicate L '#' ++ r) = fmDelim := by
  rcases Nat.exists_eq_add_of_le h with ⟨m, hm⟩
  subst hm
  rw [Nat.add_comm, List.replicate_succ, List.cons_append]
  exact hash_cons_ne_delim _

theorem replicate_hash_ne_delim' {L : Nat} (h : 1 ≤ L) :
    ¬ List.replicate L '#' = fmDelim := by
  have h0 := replicate_hash_ne_delim h []
  rwa [List.append_nil] at h0

theorem flf_delim {b : GoStr} (h : ¬ trimSpace b = fmDelim) :
    ¬ trimSpace (formatLineFix b) = fmDelim := by
  have hq : ∀ c, inCutset [' ', '\t'] c = true → isGoSpace c = true := by
    intro c hc
    simp [inCutset] at hc
    rcases hc with rfl | rfl <;> decide
  have hts : trimSpace (trimRightCut b [' ', '\t']) = trimSpace b := by
    rw [trimRightCut_eq_rtrim]
    exact trimSpace_rtrim _ hq b
  simp only [formatLineFix]
  split
  · rename_i hh
    simp only [normalizeHeading]
    split
    · rw [hts]
      exact h
    · rename_i hcond
      have hlv1 : 1 ≤ ((trimRightCut b [' ', '\t']).dropWhile (fun c => c = ' ')
          |>.takeWhile (fun c => c = '#')).length := by
        rcases Nat.eq_zero_or_pos (((trimRightCut b [' ', '\t']).dropWhile
            (fun c => c = ' ')).takeWhile (fun c => c = '#')).length with h0 | h1
        · exact absurd (Or.inr h0) hcond
        · exact h1
      split
      · rw [trimSpace_no_ws (fun c hc => by
          rw [List.eq_of_mem_replicate hc]
          decide)]
        exact replicate_hash_ne_delim' hlv1
      · rename_i ht3
        have hlast := trimSpace_last ht3
        rcases hlast with ⟨d, hd1, hd2⟩
        have hzdw : List.dropWhile isGoSpace (List.replicate (((trimRightCut b
            [' ', '\t']).dropWhile (fun c => c = ' ')).takeWhile
              (fun c => c = '#')).length '#' ++ ' ' ::
            trimSpace (trimRightCut (trimSpace (((trimRightCut b [' ', '\t']).dropWhile
              (fun c => c = ' ')).drop (((trimRightCut b [' ', '\t']).dropWhile
                (fun c => c = ' ')).takeWhile (fun c => c = '#')).length))
              ['#', ' '])) = _ :=
          dropWhile_replicate_cons hlv1 _ isGoSpace (by decide)
        rw [trimSpace_eq_rtrim, hzdw]
        rw [rtrim_noop (p := isGoSpace) ?hlast hd2]
        · exact replicate_hash_ne_delim hlv1 _
        case hlast =>
          rw [List.getLast?_append_of_ne_nil _ (by simp)]
          rw [show (' ' :: trimSpace (trimRightCut (trimSpace (((trimRightCut b
              [' ', '\t']).dropWhile (fun c => c = ' ')).drop (((trimRightCut b
              [' ', '\t']).dropWhile (fun c => c = ' ')).takeWhile
                (fun c => c = '#')).length)) ['#', ' '])) = [' '] ++ trimSpace
              (trimRightCut (trimSpace (((trimRightCut b [' ', '\t']).dropWhile
              (fun c => c = ' ')).drop (((trimRightCut b [' ', '\t']).dropWhile
                (fun c => c = ' ')).takeWhile (fun c => c = '#')).length))
              ['#', ' ']) from rfl]
          rw [List.getLast?_append_of_ne_nil _ ht3]
          exact hd1
  · rw [hts]
    exact h


theorem rawLinesAux_mem_sub (s : GoStr) :
    ∀ acc : GoStr, ∀ l ∈ rawLinesAux acc s, ∀ c ∈ l, c ∈ acc ∨ c ∈ s := by
  induction s with
  | nil =>
    intro acc l hl c hc
    rw [rawLinesAux] at hl
    split at hl
    · simp at hl
    · simp at hl
      subst hl
      exact Or.inl hc
  | cons a rest ih =>
    intro acc l hl c hc
    by_cases ha : a = '\n'
    · subst ha
      rw [rawLinesAux_lf] at hl
      rcases List.mem_cons.1 hl with rfl | hl2
      · rcases List.mem_append.1 hc with h1 | h1
        · exact Or.inl h1
        · simp at h1
          subst h1
          exact Or.inr (List.mem_cons_self _ _)
      · rcases ih [] l hl2 c hc with h1 | h1
        · simp at h1
        · exact Or.inr (List.mem_cons_of_mem _ h1)
    · rw [rawLinesAux, if_neg ha] at hl
      rcases ih (acc ++ [a]) l hl c hc with h1 | h1
      · rcases List.mem_append.1 h1 with h2 | h2
        · exact Or.inl h2
        · simp at h2
          subst h2
          exact Or.inr (List.mem_cons_self _ _)
      · exact Or.inr (List.mem_cons_of_mem _ h1)

theorem rawWF_mem : ∀ ls : List GoStr, rawWF ls → ∀ l ∈ ls, '\n' ∉ l.dropLast := by
  intro ls
  induction ls with
  | nil => intro _ l hl; simp at hl
  | cons a t ih =>
    intro h l hl
    rcases List.mem_cons.1 hl with rfl | hl2
    · exact rawWF_head h
    · exact ih (rawWF_tail h) l hl2

/-- Scanner output lines of a clean input are clean (and newline-free). -/
theorem scanLines_clean {x : GoStr}
    (hx : ∀ c ∈ x, c ≠ '\r' ∧ c ≠ '\t' ∧ c ≠ '\x0b' ∧ c ≠ '\x0c') :
    ∀ l ∈ scanLines x, cleanLine l := by
  intro l hl
  rw [show scanLines x = scanLinesAux [] x from rfl,
    scanLinesAux_eq x [] (by simp)] at hl
  rcases List.mem_map.1 hl with ⟨r, hr, rfl⟩
  have hsub : ∀ c ∈ r, c ∈ x := by
    intro c hc
    rcases rawLinesAux_mem_sub x [] r hr c hc with h1 | h1
    · simp at h1
    · exact h1
  have hnl : '\n' ∉ lineText r :=
    lineText_no_lf (rawWF_mem _ (rawLinesAux_rawWF x [] (by simp)) r hr)
  intro c hc
  have hcx : c ∈ x := hsub c (lineText_sub hc)
  rcases hx c hcx with ⟨h1, h2, h3, h4⟩
  exact ⟨h2, h3, h4, h1, fun h5 => hnl (h5 ▸ hc)⟩

theorem fmtScanFM_nodelim : ∀ ls : List GoStr,
    (∀ l ∈ ls, ¬ trimSpace l = fmDelim) → fmtScanFM ls = (false, ls) := by
  intro ls
  induction ls with
  | nil => intro _; rfl
  | cons a t ih =>
    intro h
    rw [fmtScanFM, if_neg (h a (List.mem_cons_self a t))]
    rw [ih (fun l hl => h l (List.mem_cons_of_mem a hl))]

theorem normBLAux_true_nodelim : ∀ (ls : List GoStr),
    (∀ l ∈ ls, ¬ trimSpace l = fmDelim) → ∀ R, normBLAux true 0 R ls = R ++ ls := by
  intro ls
  induction ls with
  | nil => intro _ R; rw [normBLAux]; simp
  | cons a t ih =>
    intro h R
    rw [normBLAux, if_neg (h a (List.mem_cons_self a t))]
    rw [ih (fun l hl => h l (List.mem_cons_of_mem a hl)) (R ++ [a])]
    simp

theorem delim_split : ∀ ls : List GoStr,
    (∀ l ∈ ls, ¬ trimSpace l = fmDelim) ∨
      ∃ as cl bs, ls = as ++ cl :: bs ∧ (∀ a ∈ as, ¬ trimSpace a = fmDelim) ∧
        trimSpace cl = fmDelim := by
  intro ls
  induction ls with
  | nil => exact Or.inl (by simp)
  | cons a t ih =>
    by_cases ha : trimSpace a = fmDelim
    · exact Or.inr ⟨[], a, t, by simp, by simp, ha⟩
    · rcases ih with h1 | ⟨as, cl, bs, h1, h2, h3⟩
      · refine Or.inl ?_
        intro l hl
        rcases List.mem_cons.1 hl with rfl | hl2
        · exact ha
        · exact h1 l hl2
      · refine Or.inr ⟨a :: as, cl, bs, by rw [h1]; rfl, ?_, h3⟩
        intro b hb
        rcases List.mem_cons.1 hb with rfl | hb2
        · exact ha
        · exact h2 b hb2


/-! Trailing-empty-line bookkeeping for the final join/trim step. -/

def dropTE (L : List GoStr) : List GoStr :=
  (L.reverse.dropWhile (fun l => l.isEmpty)).reverse

theorem getLast?_mem_gen {α : Type} {x : α} {l : List α} (h : l.getLast? = some x) :
    x ∈ l := by
  have h2 := List.dropLast_append_getLast? x (Option.mem_def.mpr h)
  rw [← h2]
  exact List.mem_append_right _ (List.mem_singleton.mpr rfl)

theorem dropTE_append_mid (xs : List GoStr) (m : GoStr) (ys : List GoStr) (hm : m ≠ []) :
    dropTE (xs ++ m :: ys) = xs ++ m :: dropTE ys := by
  have hmE : m.isEmpty = false := by
    cases m with
    | nil => exact absurd rfl hm
    | cons a t => rfl
  have key : List.dropWhile (fun l => l.isEmpty) (ys.reverse ++ ([m] ++ xs.reverse)) =
      List.dropWhile (fun l => l.isEmpty) ys.reverse ++ ([m] ++ xs.reverse) := by
    rw [List.dropWhile_append]
    split
    · rename_i hemp
      simp only [List.isEmpty_iff] at hemp
      rw [hemp, List.nil_append, List.singleton_append,
        List.dropWhile_cons_of_neg (by simp [hmE])]
    · rfl
  rw [dropTE, dropTE]
  rw [show (xs ++ m :: ys).reverse = ys.reverse ++ ([m] ++ xs.reverse) from by simp]
  rw [key]
  simp

theorem dropTE_decomp (L : List GoStr) : ∃ k, L = dropTE L ++ List.replicate k [] := by
  refine ⟨(L.reverse.takeWhile (fun l => l.isEmpty)).length, ?_⟩
  have hsplit := List.takeWhile_append_dropWhile (p := fun l => l.isEmpty) (l := L.reverse)
  have hL : L = (L.reverse.dropWhile (fun l => l.isEmpty)).reverse ++
      (L.reverse.takeWhile (fun l => l.isEmpty)).reverse := by
    rw [← List.reverse_append, hsplit, List.reverse_reverse]
  have hrep : (L.reverse.takeWhile (fun l => l.isEmpty)).reverse =
      List.replicate (L.reverse.takeWhile (fun l => l.isEmpty)).length [] := by
    have hall : ∀ b ∈ (L.reverse.takeWhile (fun l => l.isEmpty)).reverse, b = [] := by
      intro b hb
      rw [List.mem_reverse] at hb
      have := List.mem_takeWhile_imp hb
      simpa [List.isEmpty_iff] using this
    have := List.eq_replicate_of_mem hall
    rwa [List.length_reverse] at this
  rw [dropTE, ← hrep]
  exact hL

theorem dropTE_last {L : List GoStr} (h : dropTE L ≠ []) :
    ∃ L₀ m, dropTE L = L₀ ++ [m] ∧ m ≠ [] := by
  have hne : List.dropWhile (fun l => l.isEmpty) L.reverse ≠ [] := by
    intro h0
    rw [dropTE, h0] at h
    exact h rfl
  rcases List.exists_cons_of_ne_nil hne with ⟨m, ms, hm⟩
  have hmE : m.isEmpty = false := by
    have := List.head?_dropWhile_not (fun l => l.isEmpty) L.reverse
    rw [hm] at this
    simpa using this
  refine ⟨ms.reverse, m, ?_, by simpa [List.isEmpty_iff] using hmE⟩
  rw [dropTE, hm]
  simp

theorem dropTE_sub {L : List GoStr} : ∀ l ∈ dropTE L, l ∈ L := by
  intro l hl
  rcases dropTE_decomp L with ⟨k, hk⟩
  rw [hk]
  exact List.mem_append_left _ hl

/-- The final join-trim-newline step of `Format`. -/
def glue (L : List GoStr) : GoStr :=
  trimRightCut (List.intercalate ['\n'] L) ['\n'] ++ ['\n']

theorem Format_eq_glue (content : GoStr) :
    Format content = glue (normalizeBlankLines
      (formatScan (scanLines content)).2 (formatScan (scanLines content)).1) := rfl

theorem intercalate_single (a : GoStr) : List.intercalate ['\n'] [a] = a := by
  simp [List.intercalate]

theorem intercalate_concat : ∀ (ys : List GoStr) (z : GoStr), ys ≠ [] →
    List.intercalate ['\n'] (ys ++ [z]) = List.intercalate ['\n'] ys ++ '\n' :: z := by
  intro ys
  induction ys with
  | nil => intro z h; exact absurd rfl h
  | cons a t ih =>
    intro z _
    cases t with
    | nil =>
      rw [List.singleton_append, intercalate_lf_cons, intercalate_single,
        intercalate_single]
    | cons b u =>
      rw [show (a :: b :: u) ++ [z] = a :: b :: (u ++ [z]) from by simp]
      rw [intercalate_lf_cons]
      rw [show b :: (u ++ [z]) = (b :: u) ++ [z] from rfl]
      rw [ih z (by simp), intercalate_lf_cons]
      simp

theorem intercalate_append_replicate (ys : List GoStr) (hys : ys ≠ []) :
    ∀ k, List.intercalate ['\n'] (ys ++ List.replicate k []) =
      List.intercalate ['\n'] ys ++ List.replicate k '\n' := by
  intro k
  induction k with
  | zero => simp
  | succ m ih =>
    rw [List.replicate_succ' (n := m), ← List.append_assoc, intercalate_concat _ _ (by simp [hys]),
      ih, List.replicate_succ' (n := m)]
    simp

theorem trimRightCut_replicate_lf (k : Nat) :
    trimRightCut (List.replicate k '\n') ['\n'] = [] := by
  rw [trimRightCut_eq_rtrim, rtrim, List.reverse_replicate]
  rw [List.dropWhile_eq_nil_iff.mpr (fun c hc => by
    rw [List.eq_of_mem_replicate hc]
    decide)]
  rfl

theorem glue_all_nil (k : Nat) : glue (List.replicate k []) = ['\n'] := by
  cases k with
  | zero =>
    rw [glue]
    rfl
  | succ m =>
    rw [glue]
    rw [show List.replicate (m + 1) ([] : GoStr) = [([] : GoStr)] ++ List.replicate m [] from by
      rw [List.replicate_succ]
      rfl]
    rw [intercalate_append_replicate [[]] (by simp) m, intercalate_single]
    rw [List.nil_append, trimRightCut_replicate_lf]
    rfl

theorem glue_eq_intercalate {L : List GoStr} (hnl : ∀ l ∈ L, '\n' ∉ l)
    (hne : dropTE L ≠ []) :
    glue L = List.intercalate ['\n'] (dropTE L) ++ ['\n'] ∧
      glue (dropTE L) = List.intercalate ['\n'] (dropTE L) ++ ['\n'] := by
  rcases dropTE_last hne with ⟨L₀, m, hdte, hm⟩
  rcases dropTE_decomp L with ⟨k, hk⟩
  have hmem : m ∈ L := dropTE_sub (L := L) m (by rw [hdte]; simp)
  have hmnl : '\n' ∉ m := hnl m hmem
  have hfront : List.intercalate ['\n'] (dropTE L) =
      flatCat (L₀.map (fun x => x ++ ['\n'])) ++ m := by
    rw [hdte, intercalate_front L₀ m [], intercalate_single]
  have htr : trimRightCut (List.intercalate ['\n'] (dropTE L)) ['\n'] =
      List.intercalate ['\n'] (dropTE L) := by
    rw [hfront]
    have h0 := trimRightCut_lf_append (flatCat (L₀.map (fun x => x ++ ['\n']))) m [] hm hmnl
    rw [List.append_nil] at h0
    rw [show trimRightCut ([] : GoStr) ['\n'] = [] from rfl, List.append_nil] at h0
    exact h0
  have hintL : List.intercalate ['\n'] L =
      (flatCat (L₀.map (fun x => x ++ ['\n'])) ++ m) ++ List.replicate k '\n' := by
    conv_lhs => rw [hk]
    rw [intercalate_append_replicate _ hne k, hfront]
  constructor
  · rw [glue, hintL]
    rw [show (flatCat (L₀.map (fun x => x ++ ['\n'])) ++ m) ++ List.replicate k '\n' =
        flatCat (L₀.map (fun x => x ++ ['\n'])) ++ m ++ List.replicate k '\n' from rfl]
    rw [trimRightCut_lf_append _ m _ hm hmnl, trimRightCut_replicate_lf]
    rw [hfront]
    simp
  · rw [glue, htr]

theorem scanLinesAux_append_nolf (l : GoStr) (hl : '\n' ∉ l) :
    ∀ (acc s : GoStr), scanLinesAux acc (l ++ s) = scanLinesAux (acc ++ l) s := by
  induction l with
  | nil => intro acc s; simp
  | cons c t ih =>
    intro acc s
    have hc : ¬ c = '\n' := by intro h; exact hl (h ▸ List.mem_cons_self c t)
    have ht : '\n' ∉ t := fun h => hl (List.mem_cons_of_mem c h)
    simp only [List.cons_append, scanLinesAux, if_neg hc, List.append_eq]
    rw [ih ht (acc ++ [c]) s]
    simp

theorem dropCR_noop {y : GoStr} (h : '\r' ∉ y) : dropCR y = y := by
  rw [dropCR]
  split
  · rename_i h0
    exact absurd (getLast?_mem h0) h
  · rfl

theorem scanLines_intercalate : ∀ L : List GoStr, L ≠ [] →
    (∀ l ∈ L, '\n' ∉ l ∧ '\r' ∉ l) →
    scanLines (List.intercalate ['\n'] L ++ ['\n']) = L := by
  intro L
  induction L with
  | nil => intro h; exact absurd rfl h
  | cons a t ih =>
    intro _ h
    have ha := h a (List.mem_cons_self a t)
    cases t with
    | nil =>
      rw [intercalate_single, show scanLines (a ++ ['\n']) = scanLinesAux [] (a ++ ['\n'])
        from rfl, scanLinesAux_append_nolf a ha.1 [] ['\n'], List.nil_append]
      rw [scanLinesAux, if_pos rfl, dropCR_noop ha.2]
      rfl
    | cons b u =>
      rw [intercalate_lf_cons]
      rw [show (a ++ '\n' :: List.intercalate ['\n'] (b :: u)) ++ ['\n'] =
          a ++ '\n' :: (List.intercalate ['\n'] (b :: u) ++ ['\n']) from by simp]
      rw [show scanLines (a ++ '\n' :: (List.intercalate ['\n'] (b :: u) ++ ['\n'])) =
          scanLinesAux [] (a ++ '\n' :: (List.intercalate ['\n'] (b :: u) ++ ['\n']))
        from rfl]
      rw [scanLinesAux_append_nolf a ha.1 [] _, List.nil_append]
      rw [scanLinesAux, if_pos rfl, dropCR_noop ha.2]
      rw [show scanLinesAux [] (List.intercalate ['\n'] (b :: u) ++ ['\n']) =
          scanLines (List.intercalate ['\n'] (b :: u) ++ ['\n']) from rfl]
      rw [ih (by simp) (fun l hl => h l (List.mem_cons_of_mem a hl))]

theorem scanLines_glue_nil {L : List GoStr} (h : dropTE L = []) :
    scanLines (glue L) = [[]] := by
  rcases dropTE_decomp L with ⟨k, hk⟩
  rw [h, List.nil_append] at hk
  rw [hk, glue_all_nil]
  rfl

theorem scanLines_glue_ne {L : List GoStr} (hne : dropTE L ≠ [])
    (h : ∀ l ∈ L, '\n' ∉ l ∧ '\r' ∉ l) :
    scanLines (glue L) = dropTE L ∧ scanLines (glue (dropTE L)) = dropTE L := by
  have hg := glue_eq_intercalate (fun l hl => (h l hl).1) hne
  have hsc : scanLines (List.intercalate ['\n'] (dropTE L) ++ ['\n']) = dropTE L :=
    scanLines_intercalate (dropTE L) hne (fun l hl => h l (dropTE_sub (L := L) l hl))
  exact ⟨by rw [hg.1, hsc], by rw [hg.2, hsc]⟩


/-! The shape of `normalizeBlankLines` output that makes a second pass the
identity: blank lines are empty, blank runs stay at two or less, and a
heading follows only a blank line, a `---`-prefixed line, or nothing. -/

def bodyOK : Nat → Option GoStr → List GoStr → Prop
  | _, _, [] => True
  | k, last, l :: rest =>
    if trimSpace l = [] then
      l = [] ∧ k + 1 ≤ 2 ∧ bodyOK (k + 1) (some l) rest
    else
      (isHeading l = true →
        last = none ∨ ∃ b, last = some b ∧
          (trimSpace b = [] ∨ hasPrefix (trimSpace b) fmDelim = true)) ∧
      bodyOK 0 (some l) rest

theorem bodyOK_nil (k : Nat) (last : Option GoStr) : bodyOK k last [] := by
  simp only [bodyOK]

theorem bodyOK_cons (k : Nat) (last : Option GoStr) (l : GoStr) (rest : List GoStr) :
    bodyOK k last (l :: rest) =
      (if trimSpace l = [] then
        l = [] ∧ k + 1 ≤ 2 ∧ bodyOK (k + 1) (some l) rest
      else
        ((isHeading l = true →
          last = none ∨ ∃ b, last = some b ∧
            (trimSpace b = [] ∨ hasPrefix (trimSpace b) fmDelim = true)) ∧
        bodyOK 0 (some l) rest)) := rfl

theorem bodyOK_pre : ∀ (xs ys : List GoStr) (k : Nat) (last : Option GoStr),
    bodyOK k last (xs ++ ys) → bodyOK k last xs := by
  intro xs
  induction xs with
  | nil => intro ys k last _; exact bodyOK_nil k last
  | cons l t ih =>
    intro ys k last h
    rw [List.cons_append, bodyOK_cons] at h
    rw [bodyOK_cons]
    by_cases hbl : trimSpace l = []
    · rw [if_pos hbl] at h ⊢
      exact ⟨h.1, h.2.1, ih ys (k + 1) (some l) h.2.2⟩
    · rw [if_neg hbl] at h ⊢
      exact ⟨h.1, ih ys 0 (some l) h.2⟩

theorem normBLAux_step_blank_keep (l : GoStr) (rest : List GoStr) (k : Nat)
    (R : List GoStr) (hbl : trimSpace l = []) (hk : k + 1 ≤ 2) :
    normBLAux false k R (l :: rest) = normBLAux false (k + 1) (R ++ [l]) rest := by
  rw [normBLAux, if_pos hbl, if_pos hk]

theorem normBLAux_step_blank_drop (l : GoStr) (rest : List GoStr) (k : Nat)
    (R : List GoStr) (hbl : trimSpace l = []) (hk : ¬ k + 1 ≤ 2) :
    normBLAux false k R (l :: rest) = normBLAux false (k + 1) R rest := by
  rw [normBLAux, if_pos hbl, if_neg hk]

theorem normBLAux_step_plain (l : GoStr) (rest : List GoStr) (k : Nat)
    (R : List GoStr) (hbl : ¬ trimSpace l = [])
    (hc : ¬ (isHeading l = true ∧ ¬ R = [])) :
    normBLAux false k R (l :: rest) = normBLAux false 0 (R ++ [l]) rest := by
  rw [normBLAux, if_neg hbl]
  rw [if_neg hc]

theorem normBLAux_step_insert (l : GoStr) (rest : List GoStr) (k : Nat)
    (R : List GoStr) (b : GoStr) (hbl : ¬ trimSpace l = [])
    (hh : isHeading l = true) (hR : R.getLast? = some b)
    (hcond : ¬ trimSpace b = [] ∧ ¬ hasPrefix (trimSpace b) fmDelim = true) :
    normBLAux false k R (l :: rest) = normBLAux false 0 ((R ++ [[]]) ++ [l]) rest := by
  have hRne : ¬ R = [] := by
    intro h0
    rw [h0] at hR
    simp at hR
  rw [normBLAux, if_neg hbl, if_pos (And.intro hh hRne), hR]
  show normBLAux false 0
    ((if ¬ trimSpace b = [] ∧ ¬ hasPrefix (trimSpace b) fmDelim = true then R ++ [[]]
      else R) ++ [l]) rest = _
  rw [if_pos hcond]

theorem normBLAux_step_noinsert (l : GoStr) (rest : List GoStr) (k : Nat)
    (R : List GoStr) (b : GoStr) (hbl : ¬ trimSpace l = [])
    (hR : R.getLast? = some b)
    (hcond : ¬ (¬ trimSpace b = [] ∧ ¬ hasPrefix (trimSpace b) fmDelim = true)) :
    normBLAux false k R (l :: rest) = normBLAux false 0 (R ++ [l]) rest := by
  rw [normBLAux, if_neg hbl]
  by_cases hc : isHeading l = true ∧ ¬ R = []
  · rw [if_pos hc, hR]
    show normBLAux false 0
      ((if ¬ trimSpace b = [] ∧ ¬ hasPrefix (trimSpace b) fmDelim = true then R ++ [[]]
        else R) ++ [l]) rest = _
    rw [if_neg hcond]
  · rw [if_neg hc]

theorem normBLAux_id : ∀ (out : List GoStr) (k : Nat) (R : List GoStr),
    bodyOK k R.getLast? out → normBLAux false k R out = R ++ out := by
  intro out
  induction out with
  | nil => intro k R _; rw [normBLAux]; simp
  | cons l rest ih =>
    intro k R h
    rw [bodyOK_cons] at h
    by_cases hbl : trimSpace l = []
    · rw [if_pos hbl] at h
      obtain ⟨hl0, hk2, hrec⟩ := h
      rw [normBLAux_step_blank_keep l rest k R hbl hk2]
      rw [ih (k + 1) (R ++ [l]) (by rw [List.getLast?_concat]; exact hrec)]
      simp
    · rw [if_neg hbl] at h
      obtain ⟨hhead, hrec⟩ := h
      have hstep : normBLAux false k R (l :: rest) = normBLAux false 0 (R ++ [l]) rest := by
        by_cases hc : isHeading l = true ∧ ¬ R = []
        · cases hR : R.getLast? with
          | none => exact absurd (List.getLast?_eq_none_iff.mp hR) hc.2
          | some b =>
            refine normBLAux_step_noinsert l rest k R b hbl hR ?_
            rcases hhead hc.1 with h1 | ⟨b2, hb2, hb3⟩
            · rw [hR] at h1
              cases h1
            · rw [hR] at hb2
              have : b2 = b := by
                have := hb2.symm
                injection this
              subst this
              intro hcc
              rcases hb3 with h3 | h3
              · exact hcc.1 h3
              · exact hcc.2 h3
        · exact normBLAux_step_plain l rest k R hbl hc
      rw [hstep]
      rw [ih 0 (R ++ [l]) (by rw [List.getLast?_concat]; exact hrec)]
      simp


theorem min_two_eq {k : Nat} (h : k + 1 ≤ 2) : min k 2 = k := by
  rw [Nat.min_def]
  split <;> omega

theorem min_two_eq2 {k : Nat} (h : ¬ k + 1 ≤ 2) : min k 2 = 2 ∧ min (k + 1) 2 = 2 := by
  rw [Nat.min_def, Nat.min_def]
  constructor <;> (split <;> omega)

theorem normBLAux_out : ∀ (ins : List GoStr) (k : Nat) (R : List GoStr),
    (∀ l ∈ ins, trimSpace l = [] → l = []) →
    (1 ≤ k → R.getLast? = some ([] : GoStr)) →
    ∃ out, normBLAux false k R ins = R ++ out ∧
      (∀ l ∈ out, l = [] ∨ l ∈ ins) ∧
      bodyOK (min k 2) R.getLast? out ∧
      (R = [] → out.head? = ins.head?) := by
  intro ins
  induction ins with
  | nil =>
    intro k R _ _
    exact ⟨[], by rw [normBLAux]; simp, by simp, bodyOK_nil _ _, fun _ => rfl⟩
  | cons l rest ih =>
    intro k R hins hkR
    have hins2 : ∀ m ∈ rest, trimSpace m = [] → m = [] :=
      fun m hm => hins m (List.mem_cons_of_mem l hm)
    by_cases hbl : trimSpace l = []
    · have hl0 : l = [] := hins l (List.mem_cons_self l rest) hbl
      by_cases hk2 : k + 1 ≤ 2
      · obtain ⟨out', h1, h2, h3, _⟩ := ih (k + 1) (R ++ [l]) hins2
          (fun _ => by rw [hl0, List.getLast?_concat])
        refine ⟨l :: out', ?_, ?_, ?_, ?_⟩
        · rw [normBLAux_step_blank_keep l rest k R hbl hk2, h1]
          simp
        · intro m hm
          rcases List.mem_cons.1 hm with rfl | hm2
          · exact Or.inr (List.mem_cons_self m rest)
          · rcases h2 m hm2 with h4 | h4
            · exact Or.inl h4
            · exact Or.inr (List.mem_cons_of_mem l h4)
        · rw [bodyOK_cons, if_pos hbl]
          refine ⟨hl0, by rw [min_two_eq hk2]; exact hk2, ?_⟩
          rw [List.getLast?_concat] at h3
          rw [min_two_eq hk2]
          rw [show min (k + 1) 2 = k + 1 from Nat.min_eq_left hk2] at h3
          exact h3
        · intro _
          rfl
      · obtain ⟨out', h1, h2, h3, _⟩ := ih (k + 1) R hins2 (fun _ => hkR (by omega))
        refine ⟨out', ?_, ?_, ?_, ?_⟩
        · rw [normBLAux_step_blank_drop l rest k R hbl hk2, h1]
        · intro m hm
          rcases h2 m hm with h4 | h4
          · exact Or.inl h4
          · exact Or.inr (List.mem_cons_of_mem l h4)
        · rw [(min_two_eq2 hk2).1]
          rw [(min_two_eq2 hk2).2] at h3
          exact h3
        · intro hR0
          exfalso
          have := hkR (by omega)
          rw [hR0] at this
          simp at this
    · by_cases hc : isHeading l = true ∧ ¬ R = []
      · cases hR : R.getLast? with
        | none => exact absurd (List.getLast?_eq_none_iff.mp hR) hc.2
        | some b =>
          by_cases hcond : ¬ trimSpace b = [] ∧ ¬ hasPrefix (trimSpace b) fmDelim = true
          · have hk0 : k = 0 := by
              by_contra h0
              have h1 := hkR (by omega)
              rw [hR] at h1
              have hb0 : b = [] := by injection h1
              rw [hb0] at hcond
              exact hcond.1 rfl
            obtain ⟨out', h1, h2, h3, _⟩ := ih 0 ((R ++ [[]]) ++ [l]) hins2
              (fun h => absurd h (by omega))
            refine ⟨[] :: l :: out', ?_, ?_, ?_, ?_⟩
            · rw [normBLAux_step_insert l rest k R b hbl hc.1 hR hcond, h1]
              simp
            · intro m hm
              rcases List.mem_cons.1 hm with rfl | hm2
              · exact Or.inl rfl
              rcases List.mem_cons.1 hm2 with rfl | hm3
              · exact Or.inr (List.mem_cons_self m rest)
              · rcases h2 m hm3 with h4 | h4
                · exact Or.inl h4
                · exact Or.inr (List.mem_cons_of_mem l h4)
            · rw [bodyOK_cons, if_pos (show trimSpace ([] : GoStr) = [] from rfl)]
              refine ⟨rfl, by rw [hk0]; decide, ?_⟩
              rw [bodyOK_cons, if_neg hbl]
              refine ⟨fun _ => Or.inr ⟨[], rfl, Or.inl rfl⟩, ?_⟩
              rw [List.getLast?_concat] at h3
              rw [show min 0 2 = 0 from rfl] at h3
              exact h3
            · intro hR0
              exact absurd hR0 hc.2
          · obtain ⟨out', h1, h2, h3, _⟩ := ih 0 (R ++ [l]) hins2
              (fun h => absurd h (by omega))
            refine ⟨l :: out', ?_, ?_, ?_, ?_⟩
            · rw [normBLAux_step_noinsert l rest k R b hbl hR hcond, h1]
              simp
            · intro m hm
              rcases List.mem_cons.1 hm with rfl | hm2
              · exact Or.inr (List.mem_cons_self m rest)
              · rcases h2 m hm2 with h4 | h4
                · exact Or.inl h4
                · exact Or.inr (List.mem_cons_of_mem l h4)
            · rw [bodyOK_cons, if_neg hbl]
              refine ⟨?_, ?_⟩
              · intro _
                refine Or.inr ⟨b, rfl, ?_⟩
                by_cases hb1 : trimSpace b = []
                · exact Or.inl hb1
                · by_cases hb2 : hasPrefix (trimSpace b) fmDelim = true
                  · exact Or.inr hb2
                  · exact absurd (And.intro hb1 hb2) hcond
              · rw [List.getLast?_concat] at h3
                rw [show min 0 2 = 0 from rfl] at h3
                exact h3
            · intro hR0
              exact absurd hR0 hc.2
      · obtain ⟨out', h1, h2, h3, _⟩ := ih 0 (R ++ [l]) hins2
          (fun h => absurd h (by omega))
        refine ⟨l :: out', ?_, ?_, ?_, ?_⟩
        · rw [normBLAux_step_plain l rest k R hbl hc, h1]
          simp
        · intro m hm
          rcases List.mem_cons.1 hm with rfl | hm2
          · exact Or.inr (List.mem_cons_self m rest)
          · rcases h2 m hm2 with h4 | h4
            · exact Or.inl h4
            · exact Or.inr (List.mem_cons_of_mem l h4)
        · rw [bodyOK_cons, if_neg hbl]
          refine ⟨?_, ?_⟩
          · intro hh
            rcases (em (R = [])) with hR0 | hR0
            · rw [hR0]
              exact Or.inl rfl
            · exact absurd (And.intro hh hR0) hc
          · rw [List.getLast?_concat] at h3
            rw [show min 0 2 = 0 from rfl] at h3
            exact h3
        · intro _
          rfl


theorem glue_dropTE {L : List GoStr} (h : ∀ l ∈ L, '\n' ∉ l) (hne : dropTE L ≠ []) :
    glue (dropTE L) = glue L :=
  (glue_eq_intercalate h hne).2.trans (glue_eq_intercalate h hne).1.symm

theorem cleanLine_no_lf_cr {l : GoStr} (h : cleanLine l) : '\n' ∉ l ∧ '\r' ∉ l :=
  ⟨fun hm => (h '\n' hm).2.2.2.2 rfl, fun hm => (h '\r' hm).2.2.2.1 rfl⟩

theorem flf_nil : formatLineFix [] = [] := by decide

theorem delim_ne_nil {cl : GoStr} (h : trimSpace cl = fmDelim) : cl ≠ [] := by
  intro h0
  rw [h0] at h
  exact absurd h (by decide)

/-- C2: the claim says the formatter is idempotent on every input.  It is
not: `Format "\r "` yields `"\r\n"` (the trailing-space trim stops at the
carriage return), and formatting that again drops the `\r`. -/
theorem C2_counterexample :
    Format ("\r ".data) = ("\r\n".data) ∧
      Format (Format ("\r ".data)) = ("\n".data) ∧
      ¬ Format (Format ("\r ".data)) = Format ("\r ".data) := by
  refine ⟨by decide, by decide, by decide⟩

/-- C2 (amended): on inputs free of carriage returns, tabs, vertical tabs
and form feeds — that is, whose only whitespace is the space and the
newline — the formatter is idempotent. -/
theorem C2_format_idem (x : GoStr)
    (hx : ∀ c ∈ x, c ≠ '\r' ∧ c ≠ '\t' ∧ c ≠ '\x0b' ∧ c ≠ '\x0c') :
    Format (Format x) = Format x := by
  have hcl : ∀ l ∈ scanLines x, cleanLine l := scanLines_clean hx
  cases hscan : scanLines x with
  | nil =>
    have h1 : Format x = ['\n'] := by
      rw [Format_eq_glue, hscan]
      rfl
    rw [h1]
    decide
  | cons f₀ rest₀ =>
    rw [hscan] at hcl
    have hclf : cleanLine f₀ := hcl f₀ (List.mem_cons_self f₀ rest₀)
    by_cases hFM : trimSpace f₀ = fmDelim
    · rcases delim_split rest₀ with hnone | ⟨as, cl, bs, hsplit, hasnd, hcl2⟩
      · -- frontmatter never closed: everything is copied verbatim
        have hFS : formatScan (scanLines x) = (false, f₀ :: rest₀) := by
          rw [hscan, formatScan, if_pos hFM, fmtScanFM_nodelim rest₀ hnone]
        have hf0ne : f₀ ≠ [] := delim_ne_nil hFM
        have hTE : dropTE (f₀ :: rest₀) = f₀ :: dropTE rest₀ := by
          have := dropTE_append_mid [] f₀ rest₀ hf0ne
          rwa [List.nil_append] at this
        have hclean2 : ∀ l ∈ f₀ :: rest₀, '\n' ∉ l ∧ '\r' ∉ l :=
          fun l hl => cleanLine_no_lf_cr (hcl l hl)
        have hFx : Format x = glue (f₀ :: rest₀) := by
          rw [Format_eq_glue, hFS]
          show glue (normalizeBlankLines (f₀ :: rest₀) false) = _
          rw [normalizeBlankLines, if_pos hFM, normBLAux_true_nodelim rest₀ hnone [f₀]]
          rfl
        have hTEne : dropTE (f₀ :: rest₀) ≠ [] := by
          rw [hTE]
          simp
        have hsc2 := (scanLines_glue_ne hTEne hclean2).1
        rw [Format_eq_glue (Format x)]
        rw [show scanLines (Format x) = f₀ :: dropTE rest₀ from by
          rw [hFx, ← hTE]
          exact hsc2]
        rw [show formatScan (f₀ :: dropTE rest₀) = (false, f₀ :: dropTE rest₀) from by
          rw [formatScan, if_pos hFM, fmtScanFM_nodelim (dropTE rest₀)
            (fun l hl => hnone l (dropTE_sub (L := rest₀) l hl))]]
        show glue (normalizeBlankLines (f₀ :: dropTE rest₀) false) = _
        rw [normalizeBlankLines, if_pos hFM, normBLAux_true_nodelim (dropTE rest₀)
          (fun l hl => hnone l (dropTE_sub (L := rest₀) l hl)) [f₀]]
        rw [show ([f₀] ++ dropTE rest₀ : List GoStr) = f₀ :: dropTE rest₀ from rfl]
        rw [hFx, ← hTE]
        exact glue_dropTE (fun l hl => (hclean2 l hl).1) hTEne
      · -- frontmatter closed at `cl`
        have hFS : formatScan (scanLines x) =
            (true, f₀ :: (as ++ cl :: bs.map formatLineFix)) := by
          rw [hscan, hsplit, formatScan, if_pos hFM, fmtScanFM_delim as cl bs hasnd hcl2]
        have hins_blank : ∀ l ∈ bs.map formatLineFix, trimSpace l = [] → l = [] := by
          intro l hl
          rcases List.mem_map.1 hl with ⟨b, hb, rfl⟩
          exact flf_blank (hcl b (by rw [hsplit]; simp [hb]))
        obtain ⟨out, hout1, hout2, hout3, _⟩ := normBLAux_out (bs.map formatLineFix) 0
          (([f₀] ++ as) ++ [cl]) hins_blank (fun h => absurd h (by omega))
        have hclne : cl ≠ [] := delim_ne_nil hcl2
        have hL2 : normalizeBlankLines (f₀ :: (as ++ cl :: bs.map formatLineFix)) true =
            (([f₀] ++ as) ++ [cl]) ++ out := by
          rw [normalizeBlankLines, if_pos hFM,
            normBLAux_fm as cl (bs.map formatLineFix) [f₀] hasnd hcl2, hout1]
        have hFx : Format x = glue ((([f₀] ++ as) ++ [cl]) ++ out) := by
          rw [Format_eq_glue, hFS]
          show glue (normalizeBlankLines (f₀ :: (as ++ cl :: bs.map formatLineFix)) true) = _
          rw [hL2]
        have hout_line : ∀ l ∈ out, '\n' ∉ l ∧ '\r' ∉ l := by
          intro l hl
          rcases hout2 l hl with rfl | hl2
          · exact ⟨by simp, by simp⟩
          · rcases List.mem_map.1 hl2 with ⟨b, hb, rfl⟩
            exact cleanLine_no_lf_cr (flf_clean (hcl b (by rw [hsplit]; simp [hb])))
        have hL2_line : ∀ l ∈ (([f₀] ++ as) ++ [cl]) ++ out, '\n' ∉ l ∧ '\r' ∉ l := by
          intro l hl
          rcases List.mem_append.1 hl with hl1 | hl1
          · refine cleanLine_no_lf_cr (hcl l ?_)
            rw [hsplit]
            rcases List.mem_append.1 hl1 with hl3 | hl3
            · rcases List.mem_append.1 hl3 with hl4 | hl4
              · simp at hl4
                simp [hl4]
              · simp [hl4]
            · simp at hl3
              simp [hl3]
          · exact hout_line l hl1
        have hTE : dropTE ((([f₀] ++ as) ++ [cl]) ++ out) =
            (([f₀] ++ as) ++ [cl]) ++ dropTE out := by
          have h0 := dropTE_append_mid ([f₀] ++ as) cl out hclne
          rw [show (([f₀] ++ as) ++ [cl]) ++ out = ([f₀] ++ as) ++ cl :: out from by simp] at *
          rw [h0]
          simp
        have hTEne : dropTE ((([f₀] ++ as) ++ [cl]) ++ out) ≠ [] := by
          rw [hTE]
          simp
        have hsc2 := (scanLines_glue_ne hTEne hL2_line).1
        have hfixout : ∀ l ∈ dropTE out, formatLineFix l = l := by
          intro l hl
          rcases hout2 l (dropTE_sub (L := out) l hl) with rfl | hl2
          · exact flf_nil
          · rcases List.mem_map.1 hl2 with ⟨b, hb, rfl⟩
            exact flf_idem (hcl b (by rw [hsplit]; simp [hb]))
        rw [Format_eq_glue (Format x)]
        rw [show scanLines (Format x) = f₀ :: (as ++ cl :: dropTE out) from by
          rw [hFx, hsc2, hTE]
          simp]
        rw [show formatScan (f₀ :: (as ++ cl :: dropTE out)) =
            (true, f₀ :: (as ++ cl :: dropTE out)) from by
          rw [formatScan, if_pos hFM, fmtScanFM_delim as cl (dropTE out) hasnd hcl2]
          rw [show (dropTE out).map formatLineFix = (dropTE out).map id from
            List.map_congr_left (fun l hl => by
              rw [hfixout l hl]
              rfl)]
          rw [List.map_id]]
        show glue (normalizeBlankLines (f₀ :: (as ++ cl :: dropTE out)) true) = _
        rw [normalizeBlankLines, if_pos hFM,
          normBLAux_fm as cl (dropTE out) [f₀] hasnd hcl2]
        rw [normBLAux_id (dropTE out) 0 (([f₀] ++ as) ++ [cl]) ?bOK]
        case bOK =>
          rcases dropTE_decomp out with ⟨k, hk⟩
          refine bodyOK_pre (dropTE out) (List.replicate k []) 0 _ ?_
          rw [← hk]
          rw [List.getLast?_concat]
          rw [List.getLast?_concat] at hout3
          rw [show min 0 2 = 0 from rfl] at hout3
          exact hout3
        rw [hFx, ← hTE]
        exact glue_dropTE (fun l hl => (hL2_line l hl).1) hTEne
    · -- no frontmatter: every line is fixed
      have hFS : formatScan (scanLines x) =
          (false, formatLineFix f₀ :: rest₀.map formatLineFix) := by
        rw [hscan, formatScan, if_neg hFM, List.map_cons]
      have hins_blank : ∀ l ∈ formatLineFix f₀ :: rest₀.map formatLineFix,
          trimSpace l = [] → l = [] := by
        intro l hl
        rcases List.mem_cons.1 hl with rfl | hl2
        · exact flf_blank hclf
        · rcases List.mem_map.1 hl2 with ⟨b, hb, rfl⟩
          exact flf_blank (hcl b (List.mem_cons_of_mem f₀ hb))
      obtain ⟨out, hout1, hout2, hout3, hout4⟩ := normBLAux_out
        (formatLineFix f₀ :: rest₀.map formatLineFix) 0 [] hins_blank
        (fun h => absurd h (by omega))
      rw [List.nil_append] at hout1
      have hND : ¬ trimSpace (formatLineFix f₀) = fmDelim := flf_delim hFM
      have hL2 : normalizeBlankLines (formatLineFix f₀ :: rest₀.map formatLineFix) false =
          out := by
        rw [normalizeBlankLines, if_neg hND, hout1]
      have hFx : Format x = glue out := by
        rw [Format_eq_glue, hFS]
        show glue (normalizeBlankLines (formatLineFix f₀ :: rest₀.map formatLineFix)
          false) = _
        rw [hL2]
      have hout_line : ∀ l ∈ out, '\n' ∉ l ∧ '\r' ∉ l := by
        intro l hl
        rcases hout2 l hl with rfl | hl2
        · exact ⟨by simp, by simp⟩
        · rcases List.mem_cons.1 hl2 with rfl | hl3
          · exact cleanLine_no_lf_cr (flf_clean hclf)
          · rcases List.mem_map.1 hl3 with ⟨b, hb, rfl⟩
            exact cleanLine_no_lf_cr (flf_clean (hcl b (List.mem_cons_of_mem f₀ hb)))
      by_cases hTE : dropTE out = []
      · have h1 : Format x = ['\n'] := by
          rw [hFx]
          rcases dropTE_decomp out with ⟨k, hk⟩
          rw [hTE, List.nil_append] at hk
          rw [hk, glue_all_nil]
        rw [h1]
        decide
      · have hsc2 := (scanLines_glue_ne hTE hout_line).1
        rcases List.exists_cons_of_ne_nil hTE with ⟨d0, ds, hd0⟩
        have hd0flf : d0 = formatLineFix f₀ := by
          rcases dropTE_decomp out with ⟨k, hk⟩
          have hh1 : out.head? = some (formatLineFix f₀) := by
            rw [hout4 rfl]
            rfl
          rw [hk, hd0] at hh1
          simpa using hh1
        have hfixout : ∀ l ∈ dropTE out, formatLineFix l = l := by
          intro l hl
          rcases hout2 l (dropTE_sub (L := out) l hl) with rfl | hl2
          · exact flf_nil
          · rcases List.mem_cons.1 hl2 with rfl | hl3
            · exact flf_idem hclf
            · rcases List.mem_map.1 hl3 with ⟨b, hb, rfl⟩
              exact flf_idem (hcl b (List.mem_cons_of_mem f₀ hb))
        have hND2 : ¬ trimSpace d0 = fmDelim := by
          rw [hd0flf]
          exact hND
        rw [Format_eq_glue (Format x)]
        rw [show scanLines (Format x) = d0 :: ds from by
          rw [hFx, hsc2, hd0]]
        rw [show formatScan (d0 :: ds) = (false, d0 :: ds) from by
          rw [formatScan, if_neg hND2]
          rw [show (d0 :: ds).map formatLineFix = (d0 :: ds).map id from
            List.map_congr_left (fun l hl => by
              rw [hfixout l (hd0 ▸ hl)]
              rfl)]
          rw [List.map_id]]
        show glue (normalizeBlankLines (d0 :: ds) false) = _
        rw [normalizeBlankLines, if_neg hND2]
        rw [normBLAux_id (d0 :: ds) 0 [] ?bOK2]
        case bOK2 =>
          rw [← hd0]
          rcases dropTE_decomp out with ⟨k, hk⟩
          refine bodyOK_pre (dropTE out) (List.replicate k []) 0 _ ?_
          rw [← hk]
          rw [show min 0 2 = 0 from rfl] at hout3
          exact hout3
        rw [List.nil_append, ← hd0, hFx]
        exact glue_dropTE (fun l hl => (hout_line l hl).1) hTE

/-- C2 witness: the amended theorem applied to a concrete document. -/
theorem C2_format_idem_witness :
    (∀ c ∈ ("#  t\n\n\n\nbody  \n".data : GoStr),
        c ≠ '\r' ∧ c ≠ '\t' ∧ c ≠ '\x0b' ∧ c ≠ '\x0c') ∧
      Format (Format ("#  t\n\n\n\nbody  \n".data)) =
        Format ("#  t\n\n\n\nbody  \n".data) :=
  ⟨by decide, C2_format_idem ("#  t\n\n\n\nbody  \n".data) (by decide)⟩

end Markdown


namespace Vault

/-! ## `vault.RewriteLinksInNote` (claim C3) -/

def expectClose : GoStr → Option GoStr
  | ']' :: ']' :: r => some r
  | _ => none

def grp2 (s : GoStr) : Option (GoStr × GoStr) :=
  match s with
  | [] => none
  | c :: t =>
    if c = '#' ∨ c = '|' then
      (expectClose (t.drop ((t.takeWhile (fun d => ¬ d = ']')).length))).map
        (fun r => (c :: t.takeWhile (fun d => ¬ d = ']'), r))
    else
      (expectClose (c :: t)).map (fun r => (([] : GoStr), r))

def tryMatch (old : GoStr) (s : GoStr) : Option (GoStr × GoStr) :=
  if hasPrefix s ('[' :: '[' :: old) then
    match (if hasPrefix (s.drop (2 + old.length)) ('.' :: 'm' :: 'd' :: []) then
        grp2 ((s.drop (2 + old.length)).drop 3) else none) with
    | some p => some (old ++ '.' :: 'm' :: 'd' :: p.1, p.2)
    | none => (grp2 (s.drop (2 + old.length))).map (fun p => (old ++ p.1, p.2))
  else none

theorem expectClose_some {u r : GoStr} (h : expectClose u = some r) :
    u = ']' :: ']' :: r := by
  rw [expectClose.eq_def] at h
  split at h
  · rename_i r2
    simp only [Option.some.injEq] at h
    rw [h]
  · cases h

theorem drop_takeWhile_len (p : Char → Bool) (t : GoStr) :
    t.drop ((t.takeWhile p).length) = t.dropWhile p := by
  induction t with
  | nil => rfl
  | cons c u ih =>
    by_cases hc : p c = true
    · rw [List.takeWhile_cons_of_pos hc, List.dropWhile_cons_of_pos hc]
      simpa using ih
    · rw [List.takeWhile_cons_of_neg hc, List.dropWhile_cons_of_neg hc]
      rfl

theorem grp2_some {u m rest : GoStr} (h : grp2 u = some (m, rest)) :
    (m = [] ∧ u = ']' :: ']' :: rest) ∨
      (∃ h₀ run, (h₀ = '#' ∨ h₀ = '|') ∧ (']' ∉ run) ∧ m = h₀ :: run ∧
        u = h₀ :: (run ++ ']' :: ']' :: rest)) := by
  match u with
  | [] => cases h
  | c :: t =>
    rw [grp2] at h
    split at h
    · rename_i hc
      rw [Option.map_eq_some'] at h
      obtain ⟨r, hr, hpr⟩ := h
      cases hpr
      have hstruct := expectClose_some hr
      refine Or.inr ⟨c, t.takeWhile (fun d => ¬ d = ']'), hc, ?_, rfl, ?_⟩
      · intro hmem
        have := List.mem_takeWhile_imp hmem
        simp at this
      · have hsplit := List.takeWhile_append_dropWhile (p := fun d => ¬ d = ']') (l := t)
        rw [drop_takeWhile_len] at hstruct
        conv_lhs => rw [← hsplit]
        rw [hstruct]
    · rw [Option.map_eq_some'] at h
      obtain ⟨r, hr, hpr⟩ := h
      cases hpr
      exact Or.inl ⟨rfl, expectClose_some hr⟩

theorem grp2_length {u m rest : GoStr} (h : grp2 u = some (m, rest)) :
    u.length = m.length + 2 + rest.length := by
  rcases grp2_some h with ⟨h1, h2⟩ | ⟨h₀, run, _, _, h1, h2⟩
  · subst h1
    rw [h2]
    simp only [List.length_cons, List.length_nil]
    omega
  · subst h1
    rw [h2]
    simp only [List.length_cons, List.length_append]
    omega

theorem prefix_drop {s pre : GoStr} (h : hasPrefix s pre = true) :
    s = pre ++ s.drop pre.length ∧ pre.length ≤ s.length := by
  rw [hasPrefix, List.isPrefixOf_iff_prefix] at h
  obtain ⟨t, ht⟩ := h
  constructor
  · rw [← ht, List.drop_left]
  · rw [← ht]
    simp

theorem tryMatch_some {old s inner rest : GoStr}
    (h : tryMatch old s = some (inner, rest)) :
    ∃ mid, inner = old ++ mid ∧
      s = '[' :: '[' :: (inner ++ ']' :: ']' :: rest) ∧
      ((mid = [] ∨ mid = ['.', 'm', 'd']) ∨
        ∃ h₀ run, (h₀ = '#' ∨ h₀ = '|') ∧ (']' ∉ run) ∧
          (mid = h₀ :: run ∨ mid = '.' :: 'm' :: 'd' :: (h₀ :: run))) := by
  rw [tryMatch] at h
  split at h
  · rename_i hpre
    have hAB : ('[' :: '[' :: old : GoStr).length = 2 + old.length := by
      simp only [List.length_cons]
      omega
    have hs := (prefix_drop hpre).1
    rw [hAB] at hs
    split at h
    · rename_i p heq
      obtain ⟨m, r⟩ := p
      simp only [Option.some.injEq, Prod.mk.injEq] at h
      obtain ⟨h1, h2⟩ := h
      subst h2
      split at heq
      · rename_i hmd
        have hj := (prefix_drop hmd).1
        rw [show (['.', 'm', 'd'] : GoStr).length = 3 from rfl] at hj
        rcases grp2_some heq with ⟨hm1, hm2⟩ | ⟨h₀, run, hh, hrun, hm1, hm2⟩
        · subst hm1
          refine ⟨['.', 'm', 'd'], by rw [← h1], ?_, Or.inl (Or.inr rfl)⟩
          rw [hs, hj, hm2, ← h1]
          simp
        · subst hm1
          refine ⟨'.' :: 'm' :: 'd' :: (h₀ :: run), by rw [← h1], ?_,
            Or.inr ⟨h₀, run, hh, hrun, Or.inr rfl⟩⟩
          rw [hs, hj, hm2, ← h1]
          simp
      · cases heq
    · rename_i hnomd
      rw [Option.map_eq_some'] at h
      obtain ⟨p, hp, hpr⟩ := h
      obtain ⟨m, r⟩ := p
      cases hpr
      rcases grp2_some hp with ⟨hm1, hm2⟩ | ⟨h₀, run, hh, hrun, hm1, hm2⟩
      · subst hm1
        refine ⟨[], by simp, ?_, Or.inl (Or.inl rfl)⟩
        rw [hs, hm2]
        simp
      · subst hm1
        refine ⟨h₀ :: run, rfl, ?_, Or.inr ⟨h₀, run, hh, hrun, Or.inl rfl⟩⟩
        rw [hs, hm2]
        simp
  · cases h

theorem tryMatch_length {old s inner rest : GoStr}
    (h : tryMatch old s = some (inner, rest)) :
    s.length = inner.length + 4 + rest.length ∧ old.length ≤ inner.length := by
  obtain ⟨mid, h1, h2, _⟩ := tryMatch_some h
  subst h1
  rw [h2]
  simp only [List.length_cons, List.length_append]
  omega

def replaceScanAux (old new : GoStr) : Nat → GoStr → GoStr
  | 0, s => s
  | fuel + 1, s =>
    match tryMatch old s with
    | some (inner, rest) =>
      '[' :: '[' :: ((new ++ inner.drop old.length) ++ ']' :: ']' ::
        replaceScanAux old new fuel rest)
    | none =>
      match s with
      | [] => []
      | c :: t => c :: replaceScanAux old new fuel t

/-- `ReplaceAllStringFunc` over the pattern: scan left to right, replacing
each leftmost match.  The fuel starts at the string length and strictly
bounds the recursion depth. -/
def replaceScan (old new s : GoStr) : GoStr := replaceScanAux old new s.length s

theorem replaceScanAux_zero (old new : GoStr) (s : GoStr) :
    replaceScanAux old new 0 s = s := rfl

theorem replaceScanAux_succ (old new : GoStr) (fuel : Nat) (s : GoStr) :
    replaceScanAux old new (fuel + 1) s =
      match tryMatch old s with
      | some (inner, rest) =>
        '[' :: '[' :: ((new ++ inner.drop old.length) ++ ']' :: ']' ::
          replaceScanAux old new fuel rest)
      | none =>
        match s with
        | [] => []
        | c :: t => c :: replaceScanAux old new fuel t := rfl

theorem replaceScanAux_fuel (old new : GoStr) : ∀ (f₁ : Nat) (s : GoStr) (f₂ : Nat),
    s.length ≤ f₁ → s.length ≤ f₂ →
    replaceScanAux old new f₁ s = replaceScanAux old new f₂ s := by
  intro f₁
  induction f₁ using Nat.strong_induction_on with
  | _ f₁ ih =>
    intro s f₂ h1 h2
    match f₁, f₂ with
    | 0, 0 => rfl
    | 0, g + 1 =>
      have hs : s = [] := List.eq_nil_of_length_eq_zero (by omega)
      subst hs
      rw [replaceScanAux_zero, replaceScanAux_succ]
      rw [show tryMatch old [] = none from by rw [tryMatch]; rfl]
    | g + 1, 0 =>
      have hs : s = [] := List.eq_nil_of_length_eq_zero (by omega)
      subst hs
      rw [replaceScanAux_zero, replaceScanAux_succ]
      rw [show tryMatch old [] = none from by rw [tryMatch]; rfl]
    | g + 1, g2 + 1 =>
      rw [replaceScanAux_succ, replaceScanAux_succ]
      match htm : tryMatch old s with
      | some (inner, rest) =>
        have hlen := tryMatch_length htm
        show '[' :: '[' :: ((new ++ inner.drop old.length) ++ ']' :: ']' ::
            replaceScanAux old new g rest) =
          '[' :: '[' :: ((new ++ inner.drop old.length) ++ ']' :: ']' ::
            replaceScanAux old new g2 rest)
        rw [ih g (by omega) rest g2 (by omega) (by omega)]
      | none =>
        cases s with
        | nil => rfl
        | cons c t =>
          show c :: replaceScanAux old new g t = c :: replaceScanAux old new g2 t
          simp only [List.length_cons] at h1 h2
          rw [ih g (by omega) t g2 (by omega) (by omega)]

theorem replaceScan_some {old new s inner rest : GoStr}
    (h : tryMatch old s = some (inner, rest)) :
    replaceScan old new s =
      '[' :: '[' :: ((new ++ inner.drop old.length) ++ ']' :: ']' ::
        replaceScan old new rest) := by
  have hlen := tryMatch_length h
  rw [replaceScan, replaceScan]
  have hpos : s.length = (s.length - 1) + 1 := by omega
  rw [hpos, replaceScanAux_succ, h]
  show '[' :: '[' :: ((new ++ inner.drop old.length) ++ ']' :: ']' ::
      replaceScanAux old new (s.length - 1) rest) = _
  rw [replaceScanAux_fuel old new (s.length - 1) rest rest.length (by omega) (by omega)]

theorem replaceScan_none_cons {old : GoStr} {c : Char} {t : GoStr} (new : GoStr)
    (h : tryMatch old (c :: t) = none) :
    replaceScan old new (c :: t) = c :: replaceScan old new t := by
  rw [replaceScan, replaceScan]
  rw [show (c :: t).length = t.length + 1 from by simp]
  rw [replaceScanAux_succ, h]

theorem replaceScan_nil (old new : GoStr) : replaceScan old new [] = [] := rfl

def hasLink (old : GoStr) : GoStr → Bool
  | [] => false
  | c :: t => (tryMatch old (c :: t)).isSome || hasLink old t


def MidOK (mid : GoStr) : Prop :=
  (mid = [] ∨ mid = ['.', 'm', 'd']) ∨
    ∃ h₀ run, (h₀ = '#' ∨ h₀ = '|') ∧ (']' ∉ run) ∧
      (mid = h₀ :: run ∨ mid = '.' :: 'm' :: 'd' :: (h₀ :: run))

theorem MidOK_no_rb {mid : GoStr} (h : MidOK mid) : ']' ∉ mid := by
  rcases h with (rfl | rfl) | ⟨h₀, run, hh, hrun, (rfl | rfl)⟩
  · simp
  · decide
  · intro hm
    rcases List.mem_cons.1 hm with h1 | h1
    · rcases hh with rfl | rfl <;> cases h1
    · exact hrun h1
  · intro hm
    simp only [List.mem_cons] at hm
    rcases hm with h1 | h1 | h1 | h1 | h1
    · cases h1
    · cases h1
    · cases h1
    · rcases hh with rfl | rfl <;> cases h1
    · exact hrun h1

theorem prefix_block (x y : GoStr) :
    hasPrefix ('[' :: '[' :: (x ++ y)) ('[' :: '[' :: x) = true := by
  rw [hasPrefix, List.isPrefixOf_iff_prefix]
  exact ⟨y, by simp⟩

theorem drop_block (x y : GoStr) :
    ('[' :: '[' :: (x ++ y)).drop (2 + x.length) = y := by
  rw [show 2 + x.length = x.length + 1 + 1 from by omega]
  rw [List.drop_succ_cons, List.drop_succ_cons, List.drop_left]

theorem takeWhile_no_rb (run X : GoStr) (h : ']' ∉ run) :
    (run ++ ']' :: X).takeWhile (fun d => ¬ d = ']') = run := by
  induction run with
  | nil => rw [List.nil_append, List.takeWhile_cons_of_neg (by simp)]
  | cons c t ih =>
    have hc : ¬ c = ']' := fun h0 => h (h0 ▸ List.mem_cons_self c t)
    rw [List.cons_append, List.takeWhile_cons_of_pos (by simp [hc])]
    rw [ih (fun h0 => h (List.mem_cons_of_mem c h0))]

theorem dropWhile_no_rb (run X : GoStr) (h : ']' ∉ run) :
    (run ++ ']' :: X).dropWhile (fun d => ¬ d = ']') = ']' :: X := by
  induction run with
  | nil => rw [List.nil_append, List.dropWhile_cons_of_neg (by simp)]
  | cons c t ih =>
    have hc : ¬ c = ']' := fun h0 => h (h0 ▸ List.mem_cons_self c t)
    rw [List.cons_append, List.dropWhile_cons_of_pos (by simp [hc])]
    exact ih (fun h0 => h (List.mem_cons_of_mem c h0))

theorem grp2_rb (u : GoStr) : grp2 (']' :: ']' :: u) = some ([], u) := rfl

theorem grp2_run {h₀ : Char} (hh : h₀ = '#' ∨ h₀ = '|') (run z : GoStr) (hr : ']' ∉ run) :
    grp2 (h₀ :: (run ++ ']' :: ']' :: z)) = some (h₀ :: run, z) := by
  rw [grp2]
  rw [if_pos hh]
  rw [drop_takeWhile_len]
  rw [show (run ++ ']' :: ']' :: z).dropWhile (fun d => ¬ d = ']') = ']' :: (']' :: z) from
    dropWhile_no_rb run (']' :: z) hr]
  rw [show expectClose (']' :: ']' :: z) = some z from rfl]
  rw [show (run ++ ']' :: ']' :: z).takeWhile (fun d => ¬ d = ']') = run from
    takeWhile_no_rb run (']' :: z) hr]
  rfl

theorem md_no_prefix_rb (u : GoStr) :
    hasPrefix (']' :: u) ['.', 'm', 'd'] = false := rfl

theorem md_no_prefix_hd {h₀ : Char} (hh : h₀ = '#' ∨ h₀ = '|') (u : GoStr) :
    hasPrefix (h₀ :: u) ['.', 'm', 'd'] = false := by
  rcases hh with rfl | rfl <;> rfl

/-- The pattern matches a rebuilt link block and consumes exactly it. -/
theorem tryMatch_block (old : GoStr) (mid rest : GoStr) (hmid : MidOK mid) :
    tryMatch old ('[' :: '[' :: (old ++ (mid ++ ']' :: ']' :: rest))) =
      some (old ++ mid, rest) := by
  rw [tryMatch, if_pos (prefix_block old (mid ++ ']' :: ']' :: rest))]
  rw [drop_block old (mid ++ ']' :: ']' :: rest)]
  rcases hmid with (rfl | rfl) | ⟨h₀, run, hh, hrun, (rfl | rfl)⟩
  · rw [List.nil_append]
    rw [md_no_prefix_rb]
    rw [if_neg (by simp)]
    rw [grp2_rb]
    simp
  · rw [show (['.', 'm', 'd'] : GoStr) ++ ']' :: ']' :: rest =
      '.' :: 'm' :: 'd' :: (']' :: ']' :: rest) from rfl]
    rw [show hasPrefix ('.' :: 'm' :: 'd' :: (']' :: ']' :: rest)) ['.', 'm', 'd'] = true
      from by rw [hasPrefix]; simp [List.isPrefixOf]]
    rw [if_pos rfl]
    rw [show ('.' :: 'm' :: 'd' :: (']' :: ']' :: rest) : GoStr).drop 3 =
      ']' :: ']' :: rest from rfl]
    rw [grp2_rb]
  · rw [show (h₀ :: run) ++ ']' :: ']' :: rest = h₀ :: (run ++ ']' :: ']' :: rest) from rfl]
    rw [md_no_prefix_hd hh]
    rw [if_neg (by simp)]
    rw [grp2_run hh run rest hrun]
    rfl
  · rw [show ('.' :: 'm' :: 'd' :: (h₀ :: run)) ++ ']' :: ']' :: rest =
      '.' :: 'm' :: 'd' :: (h₀ :: (run ++ ']' :: ']' :: rest)) from by simp]
    rw [show hasPrefix ('.' :: 'm' :: 'd' :: (h₀ :: (run ++ ']' :: ']' :: rest)))
      ['.', 'm', 'd'] = true from by rw [hasPrefix]; simp [List.isPrefixOf]]
    rw [if_pos rfl]
    rw [show ('.' :: 'm' :: 'd' :: (h₀ :: (run ++ ']' :: ']' :: rest)) : GoStr).drop 3 =
      h₀ :: (run ++ ']' :: ']' :: rest) from rfl]
    rw [grp2_run hh run rest hrun]

inductive ScanRel (a b : GoStr) : GoStr → GoStr → Prop where
  | nil : ScanRel a b [] []
  | cons (c : Char) {t r : GoStr} (hnm : tryMatch a (c :: t) = none)
      (h : ScanRel a b t r) : ScanRel a b (c :: t) (c :: r)
  | block {mid rest r : GoStr} (hmid : MidOK mid) (h : ScanRel a b rest r) :
      ScanRel a b ('[' :: '[' :: (a ++ (mid ++ ']' :: ']' :: rest)))
        ('[' :: '[' :: (b ++ (mid ++ ']' :: ']' :: r)))

theorem replaceScan_rel (a b : GoStr) : ∀ (n : Nat) (s : GoStr), s.length ≤ n →
    ScanRel a b s (replaceScan a b s) := by
  intro n
  induction n with
  | zero =>
    intro s hs
    have : s = [] := List.eq_nil_of_length_eq_zero (by omega)
    subst this
    rw [replaceScan_nil]
    exact ScanRel.nil
  | succ m ih =>
    intro s hs
    match htm : tryMatch a s with
    | some (inner, rest) =>
      obtain ⟨mid, hin, hstruct, hmidok⟩ := tryMatch_some htm
      have hlen := tryMatch_length htm
      rw [replaceScan_some htm]
      subst hin
      rw [show (a ++ mid).drop a.length = mid from List.drop_left a mid]
      rw [hstruct]
      rw [show ('[' :: '[' :: ((a ++ mid) ++ ']' :: ']' :: rest) : GoStr) =
        '[' :: '[' :: (a ++ (mid ++ ']' :: ']' :: rest)) from by simp]
      rw [show ('[' :: '[' :: ((b ++ mid) ++ ']' :: ']' :: replaceScan a b rest) : GoStr) =
        '[' :: '[' :: (b ++ (mid ++ ']' :: ']' :: replaceScan a b rest)) from by simp]
      refine ScanRel.block hmidok (ih rest ?_)
      rw [hstruct] at hs
      simp only [List.length_cons, List.length_append] at hs
      omega
    | none =>
      match s with
      | [] =>
        rw [replaceScan_nil]
        exact ScanRel.nil
      | c :: t =>
        rw [replaceScan_none_cons b htm]
        refine ScanRel.cons c htm (ih t ?_)
        simp only [List.length_cons] at hs
        omega

theorem hasLink_cons_false {b : GoStr} {c : Char} {t : GoStr}
    (h : hasLink b (c :: t) = false) :
    (tryMatch b (c :: t)).isSome = false ∧ hasLink b t = false := by
  rw [hasLink] at h
  exact Bool.or_eq_false_iff.mp h

theorem hasLink_append_false {b : GoStr} : ∀ {x y : GoStr},
    hasLink b (x ++ y) = false → hasLink b y = false := by
  intro x
  induction x with
  | nil => intro y h; exact h
  | cons c t ih =>
    intro y h
    rw [List.cons_append, hasLink] at h
    exact ih (Bool.or_eq_false_iff.mp h).2


theorem scanRel_head {a b : GoStr} {u v v₂ : GoStr} {c : Char}
    (hrel : ScanRel a b u v) (hv : v = c :: v₂) (hc : ¬ c = '[') :
    ∃ u₂, u = c :: u₂ ∧ ScanRel a b u₂ v₂ := by
  cases hrel with
  | nil => cases hv
  | cons c' hnm h =>
    rw [List.cons_eq_cons] at hv
    obtain ⟨rfl, rfl⟩ := hv
    exact ⟨_, rfl, h⟩
  | block hmid h =>
    rw [List.cons_eq_cons] at hv
    exact absurd hv.1.symm hc

theorem scanRel_peel {a b : GoStr} (p : GoStr) (hp : '[' ∉ p) :
    ∀ {u v w : GoStr}, ScanRel a b u v → v = p ++ w →
      ∃ u₂, u = p ++ u₂ ∧ ScanRel a b u₂ w := by
  induction p with
  | nil =>
    intro u v w hrel hv
    exact ⟨u, by simp, by rw [List.nil_append] at hv; exact hv ▸ hrel⟩
  | cons c p' ih =>
    intro u v w hrel hv
    have hc : ¬ c = '[' := fun h0 => hp (h0 ▸ List.mem_cons_self c p')
    rw [List.cons_append] at hv
    obtain ⟨u₁, rfl, hrel₁⟩ := scanRel_head hrel hv hc
    obtain ⟨u₂, rfl, hrel₂⟩ := ih (fun h0 => hp (List.mem_cons_of_mem c h0)) hrel₁ rfl
    exact ⟨u₂, rfl, hrel₂⟩

theorem scanRel_run {a b : GoStr} (ha : ']' ∉ a) (hb : ']' ∉ b)
    {u v : GoStr} (hrel : ScanRel a b u v) :
    ∀ {run z : GoStr}, v = run ++ ']' :: ']' :: z → ']' ∉ run →
      ∃ run₂ z₂, u = run₂ ++ ']' :: ']' :: z₂ ∧ ']' ∉ run₂ := by
  induction hrel with
  | nil =>
    intro run z hv _
    cases run <;> simp at hv
  | cons c hnm h ih =>
    intro run z hv hrun
    cases run with
    | nil =>
      rw [List.nil_append, List.cons_eq_cons] at hv
      obtain ⟨rfl, hv2⟩ := hv
      obtain ⟨t₂, rfl, _⟩ := scanRel_head h hv2 (by decide)
      exact ⟨[], t₂, rfl, by simp⟩
    | cons c₀ run' =>
      rw [List.cons_append, List.cons_eq_cons] at hv
      obtain ⟨rfl, hv2⟩ := hv
      have hc₀ : ¬ c = ']' := fun h0 => hrun (h0 ▸ List.mem_cons_self c run')
      have hrun' : ']' ∉ run' := fun h0 => hrun (List.mem_cons_of_mem c h0)
      obtain ⟨run₂, z₂, rfl, hr₂⟩ := ih hv2 hrun'
      refine ⟨c :: run₂, z₂, rfl, ?_⟩
      intro h0
      rcases List.mem_cons.1 h0 with h1 | h1
      · exact hc₀ h1.symm
      · exact hr₂ h1
  | @block mid rest r hmid h ih =>
    intro run z hv hrun
    refine ⟨'[' :: '[' :: (a ++ mid), rest, by simp, ?_⟩
    intro h0
    simp only [List.mem_cons, List.mem_append] at h0
    rcases h0 with h1 | h1 | h1 | h1
    · cases h1
    · cases h1
    · exact ha h1
    · exact MidOK_no_rb hmid h1

theorem tryMatch_isSome_of_grp2 (b u₂ : GoStr)
    (hyp : (grp2 u₂).isSome = true ∨
      (hasPrefix u₂ ['.', 'm', 'd'] = true ∧ (grp2 (u₂.drop 3)).isSome = true)) :
    (tryMatch b ('[' :: '[' :: (b ++ u₂))).isSome = true := by
  rw [tryMatch, if_pos (prefix_block b u₂), drop_block b u₂]
  cases hscrut : (if hasPrefix u₂ ['.', 'm', 'd'] = true then grp2 (u₂.drop 3) else none) with
  | some p => simp
  | none =>
    rcases hyp with hg | ⟨hmd, hg3⟩
    · rw [Option.isSome_iff_exists] at hg
      obtain ⟨p, hp⟩ := hg
      simp [hp]
    · rw [if_pos hmd] at hscrut
      rw [hscrut] at hg3
      cases hg3


theorem scanRel_noNewMatch {a b : GoStr} (hb : '[' ∉ b) (hbr : ']' ∉ b) (har : ']' ∉ a)
    {s r : GoStr} (hrel : ScanRel a b s r) (hnl : hasLink b s = false)
    (hnm : tryMatch a s = none) : tryMatch b r = none := by
  cases htm : tryMatch b r with
  | none => rfl
  | some p =>
    exfalso
    obtain ⟨inner, rest⟩ := p
    obtain ⟨mid, hin, hstruct, hmidok⟩ := tryMatch_some htm
    subst hin
    cases hrel with
    | nil => cases hstruct
    | cons c hnm2 h2 =>
      rw [List.cons_eq_cons] at hstruct
      obtain ⟨rfl, hr'⟩ := hstruct
      cases h2 with
      | nil => cases hr'
      | block hmid3 h3 =>
        rw [List.cons_eq_cons] at hr'
        have heq := hr'.2
        cases b with
        | cons c₁ b' =>
          simp only [List.cons_append, List.append_assoc, List.cons_eq_cons] at heq
          exact hb (by rw [heq.1]; exact List.mem_cons_self c₁ b')
        | nil =>
          simp only [List.nil_append] at heq
          rcases hmidok with (rfl | rfl) | ⟨h₀, run, hh, hrun, (rfl | rfl)⟩
          · simp at heq
          · simp at heq
          · rcases hh with rfl | rfl <;> simp at heq
          · simp at heq
      | cons c₂ hnm3 h3 =>
        rw [List.cons_eq_cons] at hr'
        obtain ⟨rfl, hr₂⟩ := hr'
        rw [show ((b ++ mid) ++ ']' :: ']' :: rest : GoStr) =
          b ++ (mid ++ ']' :: ']' :: rest) from by simp] at hr₂
        obtain ⟨u₂, rfl, hrel₂⟩ := scanRel_peel b hb h3 hr₂
        have hsome : (tryMatch b ('[' :: '[' :: (b ++ u₂))).isSome = true := by
          refine tryMatch_isSome_of_grp2 b u₂ ?_
          rcases hmidok with (rfl | rfl) | ⟨h₀, run, hh, hrun, (rfl | rfl)⟩
          · rw [List.nil_append] at hrel₂
            obtain ⟨u₄, rfl, _⟩ := scanRel_peel ([']', ']'] : GoStr) (by decide) hrel₂ rfl
            left
            simp only [List.cons_append, List.nil_append, grp2_rb, Option.isSome_some]
          · obtain ⟨u₄, rfl, _⟩ := scanRel_peel (['.', 'm', 'd', ']', ']'] : GoStr)
              (by decide) hrel₂
              (show (['.', 'm', 'd'] : GoStr) ++ ']' :: ']' :: rest =
                ['.', 'm', 'd', ']', ']'] ++ rest from by simp)
            right
            constructor
            · rw [show (['.', 'm', 'd', ']', ']'] : GoStr) ++ u₄ =
                ['.', 'm', 'd'] ++ (']' :: ']' :: u₄) from by simp]
              rw [hasPrefix, List.isPrefixOf_iff_prefix]
              exact ⟨_, rfl⟩
            · simp only [List.cons_append, List.nil_append, List.drop_succ_cons,
                List.drop_zero, grp2_rb, Option.isSome_some]
          · rw [List.cons_append] at hrel₂
            have hh' : ¬ h₀ = '[' := by rcases hh with rfl | rfl <;> decide
            obtain ⟨u₃, rfl, hrel₃⟩ := scanRel_head hrel₂ rfl hh'
            obtain ⟨run₂, z₂, rfl, hr₂'⟩ := scanRel_run har hbr hrel₃ rfl hrun
            left
            rw [grp2_run hh run₂ z₂ hr₂']
            rfl
          · rw [show ('.' :: 'm' :: 'd' :: (h₀ :: run) ++ ']' :: ']' :: rest : GoStr) =
              ['.', 'm', 'd'] ++ (h₀ :: (run ++ ']' :: ']' :: rest)) from by simp] at hrel₂
            obtain ⟨u₃, rfl, hrel₃⟩ := scanRel_peel (['.', 'm', 'd'] : GoStr)
              (by decide) hrel₂ rfl
            have hh' : ¬ h₀ = '[' := by rcases hh with rfl | rfl <;> decide
            obtain ⟨u₄, rfl, hrel₄⟩ := scanRel_head hrel₃ rfl hh'
            obtain ⟨run₂, z₂, rfl, hr₂'⟩ := scanRel_run har hbr hrel₄ rfl hrun
            right
            constructor
            · rw [hasPrefix, List.isPrefixOf_iff_prefix]
              exact ⟨_, rfl⟩
            · simp only [List.cons_append, List.nil_append, List.drop_succ_cons,
                List.drop_zero]
              rw [grp2_run hh run₂ z₂ hr₂']
              rfl
        have hfalse := (hasLink_cons_false hnl).1
        rw [hsome] at hfalse
        cases hfalse
    | @block mid₃ rest₃ r₃ hmid2 h2 =>
      have hs := tryMatch_block a mid₃ rest₃ hmid2
      rw [hnm] at hs
      cases hs


theorem scanRel_rev {a b : GoStr} (hb : '[' ∉ b) (hbr : ']' ∉ b) (har : ']' ∉ a) :
    ∀ {s r : GoStr}, ScanRel a b s r → hasLink b s = false →
      replaceScan b a r = s := by
  intro s r hrel
  induction hrel with
  | nil => intro _; rfl
  | cons c hnm h ih =>
    intro hnl
    have hkey : tryMatch b (c :: _) = none :=
      scanRel_noNewMatch hb hbr har (ScanRel.cons c hnm h) hnl hnm
    rw [replaceScan_none_cons a hkey]
    rw [ih (hasLink_cons_false hnl).2]
  | @block mid rest r' hmid h ih =>
    intro hnl
    rw [replaceScan_some (tryMatch_block b mid r' hmid)]
    rw [show (b ++ mid).drop b.length = mid from List.drop_left b mid]
    have hrest : hasLink b rest = false := by
      have h0 := hnl
      rw [show ('[' :: '[' :: (a ++ (mid ++ ']' :: ']' :: rest)) : GoStr) =
        ('[' :: '[' :: (a ++ mid ++ [']', ']'])) ++ rest from by simp] at h0
      exact hasLink_append_false h0
    rw [ih hrest]
    simp

theorem replaceScan_roundtrip (a b content : GoStr)
    (hbl : '[' ∉ b) (hbr : ']' ∉ b) (har : ']' ∉ a)
    (hnl : hasLink b content = false) :
    replaceScan b a (replaceScan a b content) = content :=
  scanRel_rev hbl hbr har (replaceScan_rel a b content.length content le_rfl) hnl

theorem lookup_writeFile_self (fs : FileSys) (p c : GoStr) :
    (fs.writeFile p c).lookupFile p = some c := by
  simp [FileSys.writeFile, FileSys.lookupFile, List.lookup]

def replaceWikiLinkTargets (content oldName newName : GoStr) : GoStr :=
  replaceScan oldName newName content

def RewriteLinksInNote (fs : FileSys) (absPath oldName newName : GoStr) :
    FileSys × Option Bool :=
  match fs.lookupFile absPath with
  | none => (fs, none)
  | some original =>
    let updated := replaceWikiLinkTargets original oldName newName
    if updated = original then (fs, some false)
    else (fs.writeFile absPath updated, some true)

/-- C3: the claim says rewriting links from `a` to `b` and then from `b`
back to `a` returns the file to its original bytes.  It does not: a file
holding `[[b]]` is untouched by the first pass and turned into `[[a]]` by
the second. -/
theorem C3_counterexample :
    (RewriteLinksInNote (RewriteLinksInNote ⟨[(("n.md").data, ("[[b]]").data)], []⟩
          (("n.md").data) (("a").data) (("b").data)).1
        (("n.md").data) (("b").data) (("a").data)).1.lookupFile (("n.md").data) =
      some (("[[a]]").data) ∧
      ¬ (RewriteLinksInNote (RewriteLinksInNote ⟨[(("n.md").data, ("[[b]]").data)], []⟩
            (("n.md").data) (("a").data) (("b").data)).1
          (("n.md").data) (("b").data) (("a").data)).1.lookupFile (("n.md").data) =
        some (("[[b]]").data) := by decide

/-- C3 (amended): when neither name contains a wiki-link metacharacter
and the file does not already link to the new name, rewriting links from
`a` to `b` and then from `b` back to `a` returns the file to its original
bytes (and the pure text transformation is itself undone). -/
theorem C3_rewrite_roundtrip (fs : FileSys) (absPath a b content : GoStr)
    (ha : ∀ c ∈ a, ¬ c = '[' ∧ ¬ c = ']' ∧ ¬ c = '#' ∧ ¬ c = '|')
    (hb : ∀ c ∈ b, ¬ c = '[' ∧ ¬ c = ']' ∧ ¬ c = '#' ∧ ¬ c = '|')
    (hfile : fs.lookupFile absPath = some content)
    (hnl : hasLink b content = false) :
    replaceWikiLinkTargets (replaceWikiLinkTargets content a b) b a = content ∧
      (RewriteLinksInNote (RewriteLinksInNote fs absPath a b).1
          absPath b a).1.lookupFile absPath = some content := by
  have hbl : '[' ∉ b := fun h => ((hb _ h).1) rfl
  have hbr : ']' ∉ b := fun h => ((hb _ h).2.1) rfl
  have har : ']' ∉ a := fun h => ((ha _ h).2.1) rfl
  have hrt := replaceScan_roundtrip a b content hbl hbr har hnl
  refine ⟨hrt, ?_⟩
  by_cases hc : replaceWikiLinkTargets content a b = content
  · have h1 : RewriteLinksInNote fs absPath a b = (fs, some false) := by
      simp only [RewriteLinksInNote, hfile]
      rw [if_pos hc]
    rw [h1]
    have hrev : replaceWikiLinkTargets content b a = content := by
      have h2 := hrt
      rw [show replaceWikiLinkTargets content a b = replaceScan a b content from rfl] at hc
      rw [hc] at h2
      exact h2
    simp only [RewriteLinksInNote, hfile]
    rw [if_pos hrev]
    exact hfile
  · have h1 : RewriteLinksInNote fs absPath a b =
        (fs.writeFile absPath (replaceWikiLinkTargets content a b), some true) := by
      simp only [RewriteLinksInNote, hfile]
      rw [if_neg hc]
    rw [h1]
    have h2 := lookup_writeFile_self fs absPath (replaceWikiLinkTargets content a b)
    simp only [RewriteLinksInNote, h2]
    have hrt' : replaceWikiLinkTargets (replaceWikiLinkTargets content a b) b a =
        content := hrt
    simp only [hrt']
    rw [if_neg (fun h => hc h.symm)]
    exact lookup_writeFile_self _ absPath content

/-- C3 witness: the round trip on a vault whose note reads
`see [[a]] ok`, renaming `a` to `b` and back. -/
theorem C3_rewrite_roundtrip_witness :
    replaceWikiLinkTargets (replaceWikiLinkTargets (("see [[a]] ok").data)
        (("a").data) (("b").data)) (("b").data) (("a").data) = (("see [[a]] ok").data) ∧
      (RewriteLinksInNote (RewriteLinksInNote ⟨[(("n.md").data, ("see [[a]] ok").data)], []⟩
            (("n.md").data) (("a").data) (("b").data)).1
          (("n.md").data) (("b").data) (("a").data)).1.lookupFile (("n.md").data) =
        some (("see [[a]] ok").data) :=
  C3_rewrite_roundtrip ⟨[(("n.md").data, ("see [[a]] ok").data)], []⟩
    (("n.md").data) (("a").data) (("b").data) (("see [[a]] ok").data)
    (by decide) (by decide) (by decide) (by decide)

end Vault

end Kopr
